import Mathlib

set_option maxRecDepth 8000

/-!
Verification of the llguidance constrained-decoding components against their
natural-language specification.  The Rust sources are shallowly embedded:
pure functions become Lean functions, in-place mutation becomes explicit
state passing, machine integers become `Nat`, fallible operations return
`Option` or `Except`.  Components of the repository that are referenced but
whose source is not part of the verified tree (the token trie internals, the
panic-catching helper, the inner token parser) are modelled from the
specification and marked as such in their doc comments.
-/

namespace LLG

/-! ### Association-list maps

`HashMap<&str, usize>` from `parser/src/substring.rs` is embedded as an
association list with insert-or-replace semantics; only `lookup`,
`contains_key` and `insert` are used by the source. -/

/-- Lookup in an association list (models `HashMap::get` / indexing). -/
def lookupA (m : List (String × Nat)) (k : String) : Option Nat :=
  match m with
  | [] => none
  | (k2, v) :: rest => if k = k2 then some v else lookupA rest k

/-- Insert-or-replace in an association list (models `HashMap::insert`). -/
def insertA (m : List (String × Nat)) (k : String) (v : Nat) :
    List (String × Nat) :=
  match m with
  | [] => [(k, v)]
  | (k2, v2) :: rest =>
      if k = k2 then (k, v) :: rest else (k2, v2) :: insertA rest k v

/-! ### Suffix automaton (`parser/src/substring.rs`)

`struct State` and `struct SuffixAutomaton` with the textbook incremental
construction (`SuffixAutomaton::extend`, `SuffixAutomaton::from_string`).
The two `while` loops that walk suffix links are embedded with explicit
fuel; the fuel is chosen as the current number of states, which the
verification below shows is sufficient for every automaton the construction
actually produces (suffix links strictly decrease `len`, so a link chain
never revisits a state).  The branches reachable only on fuel exhaustion or
out-of-range indices (which cannot happen for constructed automata) return
the current data unchanged. -/

/-- One state of the suffix automaton: `len`, suffix `link`, transition
map `next` (edge label is a whole chunk). -/
structure SAState where
  len : Nat
  link : Option Nat
  next : List (String × Nat)
deriving DecidableEq, Repr

/-- The automaton: states plus the index `last` of the state of the whole
string read so far. -/
structure SuffixAutomaton where
  states : List SAState
  last : Nat
deriving DecidableEq, Repr

/-- `states[i].next`, empty for an out-of-range index. -/
def nextOf (states : List SAState) (i : Nat) : List (String × Nat) :=
  ((states[i]?).map SAState.next).getD []

/-- `states[i].len`, `0` for an out-of-range index. -/
def lenOf (states : List SAState) (i : Nat) : Nat :=
  ((states[i]?).map SAState.len).getD 0

/-- `states[i].link`, `none` for an out-of-range index. -/
def linkOf (states : List SAState) (i : Nat) : Option Nat :=
  ((states[i]?).map SAState.link).getD none

/-- Apply `f` to state `i`, leaving other states (and an out-of-range
index) unchanged. -/
def withState (states : List SAState) (i : Nat) (f : SAState → SAState) :
    List SAState :=
  match states[i]? with
  | some st => states.set i (f st)
  | none => states

/-- `SuffixAutomaton::new()`: the single initial state. -/
def SuffixAutomaton.new : SuffixAutomaton :=
  { states := [{ len := 0, link := none, next := [] }], last := 0 }

/-- First `while` loop of `extend`: walk suffix links from `last`, adding a
transition on `s` to `cur` to every visited state that has none, stopping
at the first state that already has an `s`-transition (returned as `some`)
or when the chain ends (returned as `none`). -/
def extendWalk (s : String) (cur : Nat) :
    List SAState → Option Nat → Nat → List SAState × Option Nat
  | states, p, 0 => (states, p)
  | states, none, _ + 1 => (states, none)
  | states, some pp, fuel + 1 =>
      match states[pp]? with
      | none => (states, some pp)
      | some st =>
          if (lookupA st.next s).isSome then (states, some pp)
          else
            extendWalk s cur
              (states.set pp { st with next := insertA st.next s cur })
              st.link fuel

/-- Second `while` loop of `extend` (clone case): redirect the
`s`-transitions that point to `q` so that they point to `clone`, walking
suffix links from `p` while the transition equals `q`. -/
def redirectWalk (s : String) (q clone : Nat) :
    List SAState → Option Nat → Nat → List SAState
  | states, _, 0 => states
  | states, none, _ + 1 => states
  | states, some pp, fuel + 1 =>
      match states[pp]? with
      | none => states
      | some st =>
          if lookupA st.next s = some q then
            redirectWalk s q clone
              (states.set pp { st with next := insertA st.next s clone })
              st.link fuel
          else states

/-- `SuffixAutomaton::extend`: textbook incremental step for one chunk. -/
def SuffixAutomaton.extend (sa : SuffixAutomaton) (s : String) :
    SuffixAutomaton :=
  let curIndex := sa.states.length
  let states1 := sa.states ++
    [{ len := lenOf sa.states sa.last + 1, link := none, next := [] }]
  let w := extendWalk s curIndex states1 (some sa.last) states1.length
  let states2 := w.1
  match w.2 with
  | none =>
      { states := withState states2 curIndex (fun st => { st with link := some 0 }),
        last := curIndex }
  | some pp =>
      match lookupA (nextOf states2 pp) s with
      | none =>
          -- unreachable: the walk only stops at a state with an `s`-transition
          { states := withState states2 curIndex (fun st => { st with link := some 0 }),
            last := curIndex }
      | some q =>
          if lenOf states2 pp + 1 = lenOf states2 q then
            { states := withState states2 curIndex
                (fun st => { st with link := some q }),
              last := curIndex }
          else
            let cloneIndex := states2.length
            let states3 := states2 ++
              [{ len := lenOf states2 pp + 1, link := linkOf states2 q,
                 next := nextOf states2 q }]
            let states4 := redirectWalk s q cloneIndex states3 (some pp)
              states3.length
            let states5 := withState states4 q
              (fun st => { st with link := some cloneIndex })
            let states6 := withState states5 curIndex
              (fun st => { st with link := some cloneIndex })
            { states := states6, last := curIndex }

/-- `SuffixAutomaton::from_string`: extend once per chunk. -/
def SuffixAutomaton.fromString (chunks : List String) : SuffixAutomaton :=
  chunks.foldl SuffixAutomaton.extend SuffixAutomaton.new

/-- Language of the regex IR produced by `substring` for automaton state
`i`, at the level of chunk sequences.  `substring` compiles, memoized in
post-order, every state `s` to `R(s) = ε | ⋃_i (c_i · R(t_i))` over the
outgoing edges `(c_i → t_i)` of `s` (the `RegexBuilder` IR itself lives
outside the verified tree; its `literal`/`concat`/`or` nodes have standard
regex semantics, so the compiled regex matches exactly the label sequences
of paths, every state accepting). -/
inductive Accepts (sa : SuffixAutomaton) : Nat → List String → Prop
  | nil (i : Nat) : Accepts sa i []
  | cons {i j : Nat} {c : String} {w : List String} :
      lookupA (nextOf sa.states i) c = some j → Accepts sa j w →
      Accepts sa i (c :: w)

/-- A string matches the regex produced by `substring builder chunks` iff
some chunk sequence accepted from the initial state concatenates to it. -/
def SubstringMatches (chunks : List String) (s : String) : Prop :=
  ∃ w : List String, Accepts (SuffixAutomaton.fromString chunks) 0 w ∧
    String.join w = s

/-- Transition function of the automaton (reading one chunk). -/
def saStep (sa : SuffixAutomaton) (i : Nat) (c : String) : Option Nat :=
  lookupA (nextOf sa.states i) c

/-- State reached from `i` by reading a chunk sequence, `none` if some
transition is missing. -/
def reachFrom (sa : SuffixAutomaton) (i : Nat) : List String → Option Nat
  | [] => some i
  | c :: w => (saStep sa i c).bind fun j => reachFrom sa j w

/-- State reached from the initial state. -/
def reach (sa : SuffixAutomaton) (w : List String) : Option Nat :=
  reachFrom sa 0 w

/-- End positions of a factor `u` in the word `t`: the prefix lengths `i`
such that `u` is a suffix of `t.take i`.  The classical suffix-automaton
invariants are phrased with it. -/
def endpos (t u : List String) : Set Nat :=
  { i | i ≤ t.length ∧ u <:+ t.take i }

/-- The suffix-automaton invariant: `sa` is the (minimal) suffix automaton
of the chunk word `t`.  States are in bijection with the `endpos`
equivalence classes of factors of `t` via `reach`; `len` is the longest
member's length; `link` points to the class of the longest proper suffix
outside the class; `last` is the class of `t` itself. -/
structure Models (sa : SuffixAutomaton) (t : List String) : Prop where
  last_lt : sa.last < sa.states.length
  zero_lt : 0 < sa.states.length
  root_len : lenOf sa.states 0 = 0
  root_link : linkOf sa.states 0 = none
  reach_dom : ∀ w, (reach sa w).isSome ↔ w <:+: t
  reach_lt : ∀ w p, reach sa w = some p → p < sa.states.length
  reach_last : reach sa t = some sa.last
  class_eq : ∀ u v, u <:+: t → v <:+: t →
    (reach sa u = reach sa v ↔ endpos t u = endpos t v)
  len_max : ∀ w p, reach sa w = some p → w.length ≤ lenOf sa.states p
  len_wit : ∀ p, p < sa.states.length →
    ∃ v, reach sa v = some p ∧ v.length = lenOf sa.states p
  pos_len : ∀ p, p < sa.states.length → p ≠ 0 → 0 < lenOf sa.states p
  link_spec : ∀ p, p < sa.states.length → p ≠ 0 →
    ∃ lp, linkOf sa.states p = some lp ∧ lp < sa.states.length ∧
      lenOf sa.states lp < lenOf sa.states p ∧
      ∀ v, reach sa v = some p →
        lenOf sa.states lp < v.length ∧
        reach sa (v.drop (v.length - lenOf sa.states lp)) = some lp ∧
        ∀ k, lenOf sa.states lp < k → k ≤ v.length →
          reach sa (v.drop (v.length - k)) = some p

/-! ### Stack recognizer (`controllers/aici_abi/src/recognizer.rs`)

`FunctionalRecognizer`, `StackRecognizer` and the `Recognizer` impl.  The
backing `Vec<S>` is a `List S`; Rust's bounds-checked indexing is embedded
by returning `none` (the panic case) from operations that would access out
of range. -/

/-- The pure functional recognizer interface (trait `FunctionalRecognizer`),
with bytes as `Nat` and special tokens as `Nat`. -/
structure FunctionalRecognizer (S : Type) where
  initial : S
  tryAppend : S → Nat → Option S
  specialAllowed : S → Nat → Bool

/-- `struct StackRecognizer`. -/
structure StackRecognizer (S : Type) where
  /-- the field `rec` of the Rust struct (renamed: `rec` is reserved for
  the recursor in Lean) -/
  frec : FunctionalRecognizer S
  stack : List S
  stackPtr : Nat

namespace StackRecognizer

/-- `StackRecognizer::from`: `stack = vec![rec.initial(); 300]`,
`stack_ptr = 0`. -/
def fromRec {S : Type} (rec : FunctionalRecognizer S) : StackRecognizer S :=
  { frec := rec, stack := List.replicate 300 rec.initial, stackPtr := 0 }

/-- The observable top of the stack, `stack[stack_ptr]`. -/
def top {S : Type} (sr : StackRecognizer S) : Option S :=
  sr.stack[sr.stackPtr]?

/-- `try_push_byte`: on accept, write the new state at `stack_ptr + 1` and
advance the pointer; returns the Rust boolean and the new recognizer, or
`none` where the Rust code would fail its bounds check. -/
def tryPushByte {S : Type} (sr : StackRecognizer S) (byte : Nat) :
    Option (Bool × StackRecognizer S) :=
  match sr.stack[sr.stackPtr]? with
  | none => none
  | some t =>
      match sr.frec.tryAppend t byte with
      | some state =>
          if sr.stackPtr + 1 < sr.stack.length then
            some (true,
              { sr with stack := sr.stack.set (sr.stackPtr + 1) state,
                        stackPtr := sr.stackPtr + 1 })
          else none
      | none => some (false, sr)

/-- `pop_bytes(num)`: `stack_ptr -= num`; `none` models the underflow
panic of checked arithmetic. -/
def popBytes {S : Type} (sr : StackRecognizer S) (num : Nat) :
    Option (StackRecognizer S) :=
  if num ≤ sr.stackPtr then some { sr with stackPtr := sr.stackPtr - num }
  else none

/-- `collapse`: move the top to slot `0` and reset the pointer. -/
def collapse {S : Type} (sr : StackRecognizer S) : Option (StackRecognizer S) :=
  (sr.stack[sr.stackPtr]?).map fun t =>
    { sr with stack := sr.stack.set 0 t, stackPtr := 0 }

/-- Push a whole byte sequence, requiring every push to succeed with
`true` (the shape used by the mask DFS descending a trie edge path). -/
def pushAll {S : Type} (sr : StackRecognizer S) : List Nat →
    Option (StackRecognizer S)
  | [] => some sr
  | b :: bs =>
      match tryPushByte sr b with
      | some (true, sr2) => pushAll sr2 bs
      | _ => none

end StackRecognizer

/-- `struct AnythingGoes` with its `FunctionalRecognizer<()>` impl. -/
def anythingGoes : FunctionalRecognizer Unit :=
  { initial := (), tryAppend := fun s _ => some s,
    specialAllowed := fun _ _ => true }

/-! ### Matcher facade (`parser/src/matcher.rs`)

The inner `TokenParser` lives outside the verified tree; only the surface
used by `matcher.rs` is modelled.  An operation on the inner parser is a
function producing an `OpOutcome`: either a panic carrying its message, or
a regular `Result` together with the updated parser. -/

/-- `StopReason` from the parser API. -/
inductive StopReason
  | NotStopped
  | EosTriggered
  | NoExtensionPossible
  | MaxTokensReached
  | InternalError
deriving DecidableEq, Repr

/-- `InferenceCapabilities` advertised by the host. -/
structure InferenceCaps where
  ff_tokens : Bool
  backtrack : Bool
  conditional_ff_tokens : Bool
  fork : Bool
deriving DecidableEq, Repr

/-- Modelled from the spec: the surface of the inner `TokenParser` that
`Matcher::new` and the stopped-state queries read (its source is outside
the verified tree).  `fresh` is what `is_fresh()` reports, `started`
records the effect of `start_without_prompt()`, `stopRsn` is what
`stop_reason()` reports. -/
structure TokenParser where
  inference_caps : InferenceCaps
  fresh : Bool
  started : Bool
  stopRsn : StopReason
deriving DecidableEq, Repr

/-- Modelled from the spec: `TokenParser::start_without_prompt` (called by
`Matcher::new` on a fresh parser). -/
def TokenParser.startWithoutPrompt (p : TokenParser) : TokenParser :=
  { p with started := true }

/-- Outcome of running one operation against the inner parser: a panic
(with the panic message) or a `Result` plus the updated parser. -/
inductive OpOutcome (T : Type)
  | panics (msg : String)
  | returns (r : Except String T) (p : TokenParser)

/-- `enum MatcherState`. -/
inductive MatcherState
  | normal (inner : TokenParser)
  | error (msg : String)

/-- `pub struct Matcher(MatcherState)`. -/
structure Matcher where
  st : MatcherState

namespace Matcher

/-- `Matcher::with_inner`: in the normal state, run the operation under
the panic catcher (`panic_utils::catch_unwind`, outside the verified tree,
modelled from the spec: a caught panic becomes an `Err` carrying the panic
message); any `Err` — caught panic or regular error — moves the matcher to
the error state.  In the error state, fail immediately with the stored
message.  The return type has no panic constructor: no panic propagates. -/
def withInner {T : Type} (m : Matcher) (f : TokenParser → OpOutcome T) :
    Except String T × Matcher :=
  match m.st with
  | .normal inner =>
      match f inner with
      | .panics msg => (.error msg, ⟨.error msg⟩)
      | .returns (.error e) _ => (.error e, ⟨.error e⟩)
      | .returns (.ok v) p2 => (.ok v, ⟨.normal p2⟩)
  | .error e => (.error e, m)

/-- `Matcher::new`. -/
def new : Except String TokenParser → Matcher
  | .ok parser =>
      if parser.inference_caps.backtrack then
        new (.error "backtracking not supported")
      else
        let parser2 := if parser.fresh then parser.startWithoutPrompt else parser
        ⟨.normal parser2⟩
  | .error e => ⟨.error e⟩
termination_by p => match p with | .ok _ => 1 | .error _ => 0

/-- `Matcher::is_stopped`. -/
def isStopped (m : Matcher) : Bool :=
  match m.st with
  | .normal inner => inner.stopRsn ≠ StopReason.NotStopped
  | .error _ => true

/-- `Matcher::stop_reason`. -/
def stopReasonM (m : Matcher) : StopReason :=
  match m.st with
  | .normal inner => inner.stopRsn
  | .error _ => .InternalError

/-- `Matcher::is_error`. -/
def isError (m : Matcher) : Bool :=
  match m.st with
  | .normal _ => false
  | .error _ => true

/-- `Matcher::get_error`. -/
def getError (m : Matcher) : Option String :=
  match m.st with
  | .normal _ => none
  | .error e => some e

end Matcher

/-! ### Token parser step (`controllers/guidance_ctrl/src/lib.rs`)

`TokenParser::mid_process`.  The token trie (`aici_abi::toktree`, outside
the verified tree) is modelled from the spec by a vocabulary: `token(t)`
returns the byte string of token `t`, `max_token_len` the longest token
length, `has_extensions(suff)` whether some vocabulary token strictly
extends `suff`, `decode` the concatenation of token byte strings.  The
grammar parser is modelled by the byte string it forces
(`force_bytes`/`get_bytes`) and by its deterministic byte-scan verdicts,
indexed by the bytes scanned so far in this step. -/

/-- Modelled from the spec: the token trie surface used by `mid_process`.
Bytes and token ids are `Nat`. -/
structure TokTrieModel where
  vocab : List (List Nat)
  maxTokenLen : Nat
  eosToken : Nat

/-- `TokTrie::token`: byte string of a token id. -/
def TokTrieModel.token (trie : TokTrieModel) (t : Nat) : List Nat :=
  trie.vocab.getD t []

/-- Modelled from the spec: `TokTrie::has_extensions(suff)` holds when
some vocabulary token strictly extends `suff` (has `suff` as a proper
prefix). -/
def TokTrieModel.hasExtensions (trie : TokTrieModel) (suff : List Nat) : Bool :=
  trie.vocab.any fun tb => suff ≠ tb ∧ suff.isPrefixOf tb

/-- Modelled from the spec: `TokTrie::decode` concatenates token byte
strings. -/
def TokTrieModel.decode (trie : TokTrieModel) (tokens : List Nat) : List Nat :=
  (tokens.map trie.token).flatten

/-- `ParseResult` of the grammar parser (`scan` verdicts). -/
inductive ParseResult
  | Accept
  | Reject
  | ForceStop
deriving DecidableEq, Repr

/-- Modelled from the spec: the grammar parser surface used by
`mid_process`.  `grmBytes` is `get_bytes()` after `force_bytes()`;
`scanR h b` is the verdict of `scan(b)` after the bytes `h` have been
scanned earlier in this step (`scan` is a pure function of parser state). -/
structure ParserModel where
  grmBytes : List Nat
  scanR : List Nat → Nat → ParseResult

/-- Result of one `mid_process` step.  `sample` carries the byte prefix
passed to `compute_bias_ext`; `fatal` is a `panic` raised inside the
step. -/
inductive MidProcessResult
  | stop
  | splice (backtrack : Nat) (ffTokens : List Nat)
  | sample (byteSuffix : List Nat)
  | fatal (msg : String)
deriving DecidableEq, Repr

/-- The boundary-chop loop of `mid_process`: iterate over the forced
tokens right to left (`idx` counts iterations, `suff` accumulates the
bytes, `acc` is the `(chop_tokens, chop_bytes)` pair recorded so far);
prepend the token's bytes, break once `suff` exceeds `max_token_len`, and
record the current position whenever `has_extensions(suff)` holds. -/
def chopGo (trie : TokTrieModel) :
    List Nat → Nat → List Nat → Nat × Nat → Nat × Nat
  | [], _, _, acc => acc
  | t :: rest, idx, suff, acc =>
      let suff2 := trie.token t ++ suff
      if suff2.length > trie.maxTokenLen then acc
      else
        chopGo trie rest (idx + 1) suff2
          (if trie.hasExtensions suff2 then (idx + 1, suff2.length) else acc)

/-- The chop computed by `mid_process` for a forced token sequence. -/
def chopLoop (trie : TokTrieModel) (grmTokens : List Nat) : Nat × Nat :=
  chopGo trie grmTokens.reverse 0 [] (0, 0)

/-- The chop as the claim states it: a `while` loop that stops as soon as
`suff.len() ≤ max_token_len ∧ has_extensions(suff)` fails, having marked
the chop point one token further at every satisfied step. -/
def chopWhileGo (trie : TokTrieModel) :
    List Nat → Nat → List Nat → Nat × Nat → Nat × Nat
  | [], _, _, acc => acc
  | t :: rest, idx, suff, acc =>
      let suff2 := trie.token t ++ suff
      if suff2.length ≤ trie.maxTokenLen ∧ trie.hasExtensions suff2 then
        chopWhileGo trie rest (idx + 1) suff2 (idx + 1, suff2.length)
      else acc

/-- The chop the claim describes (while-loop reading). -/
def chopWhile (trie : TokTrieModel) (grmTokens : List Nat) : Nat × Nat :=
  chopWhileGo trie grmTokens.reverse 0 [] (0, 0)


/-- Concatenated bytes of the last `k` forced tokens (the value of `suff`
after `k` iterations of the chop loop). -/
def lastBytes (trie : TokTrieModel) (grmTokens : List Nat) (k : Nat) :
    List Nat :=
  ((grmTokens.drop (grmTokens.length - k)).map trie.token).flatten

/-- The forced tokens `mid_process` keeps after the boundary chop. -/
def midGrmTokens (trie : TokTrieModel) (tokenizeBytes : List Nat → List Nat)
    (parser : ParserModel) : List Nat :=
  let grmTokens0 := tokenizeBytes parser.grmBytes
  grmTokens0.take (grmTokens0.length - (chopLoop trie grmTokens0).1)

/-- The alignment loop of `mid_process`: least index `idx` below the
forced-token count where `llm_tokens.get(idx) != grm_tokens.get(idx)`. -/
def findDiffIdx (llm : List Nat) : List Nat → Nat → Option Nat
  | [], _ => none
  | g :: grest, idx =>
      if llm[idx]? ≠ some g then some idx
      else findDiffIdx llm grest (idx + 1)

/-- Scan a byte sequence into the grammar, byte by byte; returns the first
rejected byte, `none` when every byte is accepted. -/
def scanAll (parser : ParserModel) : List Nat → List Nat → Option Nat
  | _, [] => none
  | h, b :: rest =>
      if parser.scanR h b = ParseResult.Reject then some b
      else scanAll parser (h ++ [b]) rest

/-- `TokenParser::mid_process` from `guidance_ctrl`.  `llmTokens` is the
token history after `arg.save_tokens` has appended the newly committed
tokens; `argTokens` is `arg.tokens`. -/
def midProcess (trie : TokTrieModel) (tokenizeBytes : List Nat → List Nat)
    (parser : ParserModel) (llmTokens argTokens : List Nat) :
    MidProcessResult :=
  if trie.eosToken ∈ argTokens then .stop
  else
    let fullGrmBytes := parser.grmBytes
    let grmTokens0 := tokenizeBytes fullGrmBytes
    let chop := chopLoop trie grmTokens0
    let grmTokens := grmTokens0.take (grmTokens0.length - chop.1)
    match findDiffIdx llmTokens grmTokens 0 with
    | some idx => .splice (llmTokens.length - idx) (grmTokens.drop idx)
    | none =>
        let llmSuffix := trie.decode (llmTokens.drop grmTokens.length)
        let grmSuffix := fullGrmBytes.drop (fullGrmBytes.length - chop.2)
        if grmSuffix.length ≤ llmSuffix.length then
          if ¬ grmSuffix.isPrefixOf llmSuffix then
            .fatal "llm and grm suffix mismatch (grm le llm)"
          else
            match scanAll parser [] (llmSuffix.drop grmSuffix.length) with
            | some _ => .fatal "rejected byte"
            | none => .sample []
        else
          if ¬ llmSuffix.isPrefixOf grmSuffix then
            .fatal "llm and grm suffix mismatch (grm gt llm)"
          else .sample (grmSuffix.drop llmSuffix.length)

/-! ### Parallel mask buffer validation (`python_ext/src/llmatcher.rs`)

`LLMatcher::validate_mask_ptr` and the write performed by
`unsafe_compute_mask_ptr_inner`.  Raw memory is modelled by byte
addresses; the write of `trg_bytes / 4` little-endian `u32` words starting
at `trg_ptr` covers the address set `writeRegion`. -/

/-- `LLMatcher::validate_mask_ptr` (with `vocab_size` of the matcher's
trie). -/
def validateMaskPtr (vocabSize maskPtr maskBytes : Nat) :
    Except String Unit :=
  if maskPtr = 0 then .error "Null pointer"
  else if maskPtr % 4 ≠ 0 then .error "Pointer not aligned"
  else
    let nWords := (vocabSize + 31) / 32
    if maskBytes ≠ nWords * 4 then .error "Invalid buffer size"
    else .ok ()

/-- Byte addresses written by `unsafe_compute_mask_ptr_inner(trg_ptr,
trg_bytes)`: a slice of `trg_bytes / 4` 32-bit words starting at
`trg_ptr`, fully overwritten by `copy_from_slice`. -/
def writeRegion (trgPtr trgBytes : Nat) : Set Nat :=
  Set.Ico trgPtr (trgPtr + trgBytes / 4 * 4)

/-- `LLMatcher::unsafe_compute_mask_ptr`: validate, then write. -/
def unsafeComputeMaskPtrSingle (vocabSize trgPtr trgBytes : Nat) :
    Except String (Set Nat) :=
  (validateMaskPtr vocabSize trgPtr trgBytes).map fun _ =>
    writeRegion trgPtr trgBytes

/-- `LLExecutor::unsafe_compute_mask_ptr` over the matchers' vocabulary
sizes: reject an empty list, use the single-matcher path for one matcher,
and otherwise validate every matcher up front before any mask is computed,
then write each matcher's mask at `trg_ptr + idx * one_mask_bytes`. -/
def executorComputeMaskPtr (vocabs : List Nat) (trgPtr oneMaskBytes : Nat) :
    Except String (List (Set Nat)) :=
  match vocabs with
  | [] => .error "No interpreters"
  | [v] =>
      (unsafeComputeMaskPtrSingle v trgPtr oneMaskBytes).map fun r => [r]
  | v1 :: v2 :: rest => do
      let _ ← (v1 :: v2 :: rest).foldlM
        (fun _ v => validateMaskPtr v trgPtr oneMaskBytes) ()
      pure ((List.range (v1 :: v2 :: rest).length).map fun idx =>
        writeRegion (trgPtr + idx * oneMaskBytes) oneMaskBytes)

/-! ### Specification-side definitions and fixtures -/

/-- Bytes accumulated by the chop loop after `m` steps over the remaining
(already reversed) token list `rest`, relative to the bytes accumulated so
far. -/
def relBytes (trie : TokTrieModel) (rest : List Nat) (m : Nat) : List Nat :=
  (((rest.take m).map trie.token).reverse).flatten

/-- Chop candidate condition over the reversed remaining token list, with
the bytes accumulated so far appended: used to characterise the loop
recursion. -/
def chopRel (trie : TokTrieModel) (rest suff : List Nat) (m : Nat) : Prop :=
  0 < m ∧ (relBytes trie rest m ++ suff).length ≤ trie.maxTokenLen ∧
    trie.hasExtensions (relBytes trie rest m ++ suff) = true

instance (trie : TokTrieModel) (rest suff : List Nat) :
    DecidablePred (chopRel trie rest suff) := fun m => by
  unfold chopRel; infer_instance

/-- Chop candidate condition at position `k` counted from the right:
the concatenated bytes of the last `k` forced tokens fit in
`max_token_len` and some vocabulary token extends them. -/
def chopCond (trie : TokTrieModel) (grm : List Nat) (k : Nat) : Prop :=
  0 < k ∧ (lastBytes trie grm k).length ≤ trie.maxTokenLen ∧
    trie.hasExtensions (lastBytes trie grm k) = true

instance (trie : TokTrieModel) (grm : List Nat) :
    DecidablePred (chopCond trie grm) := fun k => by
  unfold chopCond; infer_instance

/-- The chop the code computes: the largest `k` (or `0`) satisfying
`chopCond`. -/
def chopK (trie : TokTrieModel) (grm : List Nat) : Nat :=
  Nat.findGreatest (chopCond trie grm) grm.length

/-- The grammar-side byte suffix `mid_process` compares against the bytes
the model produced beyond the kept forced tokens. -/
def grmSuffixOf (trie : TokTrieModel) (tokenizeBytes : List Nat → List Nat)
    (parser : ParserModel) : List Nat :=
  parser.grmBytes.drop
    (parser.grmBytes.length - (chopLoop trie (tokenizeBytes parser.grmBytes)).2)

/-- The model-side byte suffix: decoded LLM tokens beyond the kept forced
tokens. -/
def llmSuffixOf (trie : TokTrieModel) (tokenizeBytes : List Nat → List Nat)
    (parser : ParserModel) (llm : List Nat) : List Nat :=
  trie.decode (llm.drop (midGrmTokens trie tokenizeBytes parser).length)

/-- Fixture trie for the boundary-chop counterexample: byte strings `[1]`,
`[2]`, `[3]` and the longer `[3,2,1,7]`. -/
def chopTrie : TokTrieModel :=
  { vocab := [[1], [2], [3], [3, 2, 1, 7]], maxTokenLen := 4, eosToken := 99 }

/-- Counting recognizer used by concrete stack-recognizer witnesses. -/
def countRec : FunctionalRecognizer Nat :=
  { initial := 0, tryAppend := fun s _ => some (s + 1),
    specialAllowed := fun _ _ => true }

/-- The stack recognizer after two successful pushes from
`fromRec countRec`. -/
def srTwoPushes : StackRecognizer Nat :=
  { frec := countRec,
    stack := ((List.replicate 300 (0 : Nat)).set 1 1).set 2 2,
    stackPtr := 2 }

/-- Fixture trie for the alignment-splice witness. -/
def trieW3 : TokTrieModel :=
  { vocab := [[5], [6]], maxTokenLen := 2, eosToken := 9 }

/-- Fixture tokenizer for the alignment-splice witness. -/
def tokenizeW3 (bytes : List Nat) : List Nat :=
  if bytes = [5, 6] then [0, 1] else []

/-- Fixture parser for the alignment-splice witness. -/
def parserW3 : ParserModel :=
  { grmBytes := [5, 6], scanR := fun _ _ => ParseResult.Accept }

/-- Fixture trie for the suffix-reconciliation witness. -/
def trieW5 : TokTrieModel :=
  { vocab := [[5], [5, 6]], maxTokenLen := 2, eosToken := 9 }

/-- Fixture tokenizer for the suffix-reconciliation witness. -/
def tokenizeW5 (bytes : List Nat) : List Nat :=
  if bytes = [5, 6] then [0] else []

/-- Fixture parser for the suffix-reconciliation witness. -/
def parserW5 : ParserModel :=
  { grmBytes := [5, 6], scanR := fun _ _ => ParseResult.Accept }

/-- Fixture inner parser for the matcher witnesses (a host advertising
backtracking). -/
def parserW4 : TokenParser :=
  { inference_caps :=
      { ff_tokens := false, backtrack := true,
        conditional_ff_tokens := false, fork := false },
    fresh := false, started := false, stopRsn := StopReason.NotStopped }

/-! ## Theorems -/

open scoped Classical

/-! ### Stack recognizer lemmas -/

theorem tryPushByte_true_spec {S : Type} (sr sr2 : StackRecognizer S) (b : Nat)
    (h : StackRecognizer.tryPushByte sr b = some (true, sr2)) :
    sr2.stackPtr = sr.stackPtr + 1 ∧ sr2.stack.length = sr.stack.length ∧
    (∀ i, i ≤ sr.stackPtr → sr2.stack[i]? = sr.stack[i]?) ∧
    sr2.frec = sr.frec := by
  cases hg : sr.stack[sr.stackPtr]? with
  | none => simp [StackRecognizer.tryPushByte, hg] at h
  | some t =>
      cases ha : sr.frec.tryAppend t b with
      | none => simp [StackRecognizer.tryPushByte, hg, ha] at h
      | some st =>
          by_cases hlt : sr.stackPtr + 1 < sr.stack.length
          · simp only [StackRecognizer.tryPushByte, hg, ha, if_pos hlt,
              Option.some.injEq, Prod.mk.injEq, true_and] at h
            subst h
            refine ⟨rfl, by simp, ?_, rfl⟩
            intro i hi
            exact List.getElem?_set_ne (by omega)
          · simp [StackRecognizer.tryPushByte, hg, ha, if_neg hlt] at h

theorem pushAll_spec {S : Type} :
    ∀ (bs : List Nat) (sr sr2 : StackRecognizer S),
      StackRecognizer.pushAll sr bs = some sr2 →
      sr2.stackPtr = sr.stackPtr + bs.length ∧
      sr2.stack.length = sr.stack.length ∧
      (∀ i, i ≤ sr.stackPtr → sr2.stack[i]? = sr.stack[i]?) ∧
      sr2.frec = sr.frec := by
  intro bs
  induction bs with
  | nil =>
      intro sr sr2 h
      simp only [StackRecognizer.pushAll, Option.some.injEq] at h
      subst h
      exact ⟨by simp, rfl, fun i _ => rfl, rfl⟩
  | cons b bs ih =>
      intro sr sr2 h
      unfold StackRecognizer.pushAll at h
      cases hp : StackRecognizer.tryPushByte sr b with
      | none => rw [hp] at h; exact absurd h (by simp)
      | some r =>
          rw [hp] at h
          match r with
          | (true, sr1) =>
              obtain ⟨h1, h2, h3, h4⟩ := tryPushByte_true_spec sr sr1 b hp
              obtain ⟨g1, g2, g3, g4⟩ := ih sr1 sr2 h
              refine ⟨?_, by omega, ?_, by rw [g4, h4]⟩
              · simp only [List.length_cons]
                omega
              · intro i hi
                rw [g3 i (by omega), h3 i hi]
          | (false, sr1) => simp at h

/-- C7 as stated: the stack capacity would be at least
`max_token_len + grammar_max_depth` and at least
`max 300 max_token_len`.  Refuted with `max_token_len = 301`,
`grammar_max_depth = 0`: the constructor allocates exactly 300 slots. -/
theorem claim_C7_counterexample :
    ¬ ((StackRecognizer.fromRec anythingGoes).stack.length ≥ 301 + 0 ∧
       (StackRecognizer.fromRec anythingGoes).stack.length ≥ max 300 301) := by
  intro h
  have hlen : (StackRecognizer.fromRec anythingGoes).stack.length = 300 :=
    List.length_replicate 300 _
  omega

/-- C7 (amended): `StackRecognizer::from` preallocates exactly 300 slots,
independent of `max_token_len` and grammar depth, and `try_push_byte`
never changes the stack length (no reallocation; an out-of-range access is
a checked failure, never a write past the end). -/
theorem claim_C7 :
    ∀ (S : Type) (rec : FunctionalRecognizer S),
      (StackRecognizer.fromRec rec).stack.length = 300 ∧
      ∀ (sr : StackRecognizer S) (b : Nat) (res : Bool × StackRecognizer S),
        StackRecognizer.tryPushByte sr b = some res →
        res.2.stack.length = sr.stack.length := by
  intro S rec
  constructor
  · exact List.length_replicate 300 _
  · intro sr b res h
    cases hg : sr.stack[sr.stackPtr]? with
    | none => simp [StackRecognizer.tryPushByte, hg] at h
    | some t =>
        cases ha : sr.frec.tryAppend t b with
        | none =>
            simp only [StackRecognizer.tryPushByte, hg, ha,
              Option.some.injEq] at h
            subst h
            rfl
        | some st =>
            by_cases hlt : sr.stackPtr + 1 < sr.stack.length
            · simp only [StackRecognizer.tryPushByte, hg, ha, if_pos hlt,
                Option.some.injEq] at h
              subst h
              simp
            · simp [StackRecognizer.tryPushByte, hg, ha, if_neg hlt] at h

/-- C7 witness: a concrete successful push preserves the stack length. -/
theorem claim_C7_witness :
    StackRecognizer.tryPushByte (StackRecognizer.fromRec countRec) 7 =
      some (true,
        { frec := countRec, stack := (List.replicate 300 (0 : Nat)).set 1 1,
          stackPtr := 1 }) ∧
    ({ frec := countRec, stack := (List.replicate 300 (0 : Nat)).set 1 1,
       stackPtr := 1 } : StackRecognizer Nat).stack.length =
      (StackRecognizer.fromRec countRec).stack.length := by
  refine ⟨rfl, ?_⟩
  exact (claim_C7 Nat countRec).2 (StackRecognizer.fromRec countRec) 7
    (true,
      { frec := countRec, stack := (List.replicate 300 (0 : Nat)).set 1 1,
        stackPtr := 1 }) rfl

/-- C8: push/pop round trip on the stack recognizer.  A successful
`try_push_byte` reports `true` exactly when `try_append` on the current
top state succeeds; popping one byte after a successful push restores the
stack pointer and the observable top; popping `n` bytes after `n`
successful pushes restores the stack pointer and every observable slot. -/
theorem claim_C8 :
    ∀ (S : Type) (sr : StackRecognizer S) (b : Nat),
      (∀ t, StackRecognizer.top sr = some t → sr.stackPtr + 1 < sr.stack.length →
        (((StackRecognizer.tryPushByte sr b).map Prod.fst = some true) ↔
          (sr.frec.tryAppend t b).isSome)) ∧
      (∀ sr2, StackRecognizer.tryPushByte sr b = some (true, sr2) →
        ∃ sr3, StackRecognizer.popBytes sr2 1 = some sr3 ∧
          sr3.stackPtr = sr.stackPtr ∧
          StackRecognizer.top sr3 = StackRecognizer.top sr) ∧
      (∀ bs sr2, StackRecognizer.pushAll sr bs = some sr2 →
        ∃ sr3, StackRecognizer.popBytes sr2 bs.length = some sr3 ∧
          sr3.stackPtr = sr.stackPtr ∧
          sr3.stack.length = sr.stack.length ∧
          ∀ i, i ≤ sr.stackPtr → sr3.stack[i]? = sr.stack[i]?) := by
  intro S sr b
  refine ⟨?_, ?_, ?_⟩
  · intro t ht hlt
    unfold StackRecognizer.top at ht
    cases ha : sr.frec.tryAppend t b with
    | none => simp [StackRecognizer.tryPushByte, ht, ha]
    | some st => simp [StackRecognizer.tryPushByte, ht, ha, if_pos hlt]
  · intro sr2 h
    obtain ⟨h1, h2, h3, -⟩ := tryPushByte_true_spec sr sr2 b h
    refine ⟨{ sr2 with stackPtr := sr2.stackPtr - 1 }, ?_, ?_, ?_⟩
    · unfold StackRecognizer.popBytes
      rw [if_pos (by omega)]
    · show sr2.stackPtr - 1 = sr.stackPtr
      omega
    · unfold StackRecognizer.top
      show sr2.stack[sr2.stackPtr - 1]? = sr.stack[sr.stackPtr]?
      have he : sr2.stackPtr - 1 = sr.stackPtr := by omega
      rw [he, h3 sr.stackPtr (le_refl _)]
  · intro bs sr2 h
    obtain ⟨h1, h2, h3, -⟩ := pushAll_spec bs sr sr2 h
    refine ⟨{ sr2 with stackPtr := sr2.stackPtr - bs.length }, ?_, ?_, h2, ?_⟩
    · unfold StackRecognizer.popBytes
      rw [if_pos (by omega)]
    · show sr2.stackPtr - bs.length = sr.stackPtr
      omega
    · intro i hi
      exact h3 i hi

/-- C8 witness: pushing two bytes onto the fresh counting recognizer and
popping two bytes restores the pointer and the observable slots. -/
theorem claim_C8_witness :
    StackRecognizer.pushAll (StackRecognizer.fromRec countRec) [7, 8] =
      some srTwoPushes ∧
    ∃ sr3, StackRecognizer.popBytes srTwoPushes 2 = some sr3 ∧
      sr3.stackPtr = (StackRecognizer.fromRec countRec).stackPtr ∧
      sr3.stack.length = (StackRecognizer.fromRec countRec).stack.length ∧
      ∀ i, i ≤ (StackRecognizer.fromRec countRec).stackPtr →
        sr3.stack[i]? = (StackRecognizer.fromRec countRec).stack[i]? := by
  refine ⟨rfl, ?_⟩
  exact (claim_C8 Nat (StackRecognizer.fromRec countRec) 0).2.2 [7, 8]
    srTwoPushes rfl

/-! ### Suffix automaton state-count lemmas -/

theorem withState_length (states : List SAState) (i : Nat)
    (f : SAState → SAState) : (withState states i f).length = states.length := by
  unfold withState
  cases states[i]? <;> simp

theorem extendWalk_fst_length (s : String) (cur : Nat) :
    ∀ (fuel : Nat) (states : List SAState) (p : Option Nat),
      (extendWalk s cur states p fuel).1.length = states.length := by
  intro fuel
  induction fuel with
  | zero => intro states p; cases p <;> rfl
  | succ n ih =>
      intro states p
      cases p with
      | none => rfl
      | some pp =>
          cases hg : states[pp]? with
          | none => simp [extendWalk, hg]
          | some st =>
              by_cases hl : (lookupA st.next s).isSome
              · simp [extendWalk, hg, hl]
              · simp only [extendWalk, hg, hl, if_false, Bool.false_eq_true]
                rw [ih]
                simp

theorem redirectWalk_length (s : String) (q clone : Nat) :
    ∀ (fuel : Nat) (states : List SAState) (p : Option Nat),
      (redirectWalk s q clone states p fuel).length = states.length := by
  intro fuel
  induction fuel with
  | zero => intro states p; cases p <;> rfl
  | succ n ih =>
      intro states p
      cases p with
      | none => rfl
      | some pp =>
          cases hg : states[pp]? with
          | none => simp [redirectWalk, hg]
          | some st =>
              by_cases hl : lookupA st.next s = some q
              · simp only [redirectWalk, hg, hl, if_pos]
                rw [ih]
                simp
              · simp [redirectWalk, hg, hl]

theorem extend_states_length_le (sa : SuffixAutomaton) (s : String) :
    (sa.extend s).states.length ≤ sa.states.length + 2 := by
  unfold SuffixAutomaton.extend
  dsimp only
  split
  · rw [withState_length, extendWalk_fst_length]
    simp
  · split
    · rw [withState_length, extendWalk_fst_length]
      simp
    · split
      · rw [withState_length, extendWalk_fst_length]
        simp
      · simp only
        rw [withState_length, withState_length, redirectWalk_length,
          List.length_append, extendWalk_fst_length, List.length_append]
        simp

theorem extend_new (s : String) :
    SuffixAutomaton.new.extend s =
      { states := [{ len := 0, link := none, next := [(s, 1)] },
                   { len := 1, link := some 0, next := [] }], last := 1 } := rfl

theorem extend_two_length (s1 s2 : String) :
    ((SuffixAutomaton.new.extend s1).extend s2).states.length = 3 := by
  rw [extend_new]
  by_cases h : s2 = s1
  · subst h
    simp [SuffixAutomaton.extend, extendWalk, redirectWalk, lookupA, insertA,
      nextOf, lenOf, linkOf, withState]
  · simp [SuffixAutomaton.extend, extendWalk, redirectWalk, lookupA, insertA,
      nextOf, lenOf, linkOf, withState, h]

theorem foldl_extend_length_le :
    ∀ (l : List String) (sa : SuffixAutomaton),
      (l.foldl SuffixAutomaton.extend sa).states.length ≤
        sa.states.length + 2 * l.length := by
  intro l
  induction l with
  | nil => intro sa; simp
  | cons c l ih =>
      intro sa
      simp only [List.foldl_cons, List.length_cons]
      have h1 := ih (sa.extend c)
      have h2 := extend_states_length_le sa c
      have h3 : sa.states.length + 2 + 2 * l.length =
          sa.states.length + 2 * (l.length + 1) := by ring
      omega

/-- C6 counterexample: for the single chunk `["a"]` the automaton has two
states, exceeding `2·1 - 1 = 1`; the bound as stated fails for fewer than
two chunks. -/
theorem claim_C6_counterexample :
    (SuffixAutomaton.fromString ["a"]).states.length = 2 ∧
    ¬ ((SuffixAutomaton.fromString ["a"]).states.length ≤
        2 * (["a"] : List String).length - 1) := by
  refine ⟨rfl, ?_⟩
  intro h
  rw [show (SuffixAutomaton.fromString ["a"]).states.length = 2 from rfl] at h
  simp at h

/-- C6 (amended): for every sequence of at least two chunks, the automaton
built by `from_string` has at most `2·n - 1` states (`n` the number of
chunks): the first two chunks contribute exactly two states beyond the
initial one, and every later `extend` adds at most two. -/
theorem claim_C6 (chunks : List String) (h : 2 ≤ chunks.length) :
    (SuffixAutomaton.fromString chunks).states.length ≤
      2 * chunks.length - 1 := by
  match chunks with
  | c1 :: c2 :: rest =>
      unfold SuffixAutomaton.fromString
      simp only [List.foldl_cons]
      have h2 : ((SuffixAutomaton.new.extend c1).extend c2).states.length = 3 :=
        extend_two_length c1 c2
      have h3 := foldl_extend_length_le rest
        ((SuffixAutomaton.new.extend c1).extend c2)
      simp only [List.length_cons]
      omega

/-- C6 witness: the amended bound at three concrete chunks. -/
theorem claim_C6_witness :
    2 ≤ (["a", "b", "c"] : List String).length ∧
    (SuffixAutomaton.fromString ["a", "b", "c"]).states.length ≤
      2 * (["a", "b", "c"] : List String).length - 1 :=
  ⟨by decide, claim_C6 ["a", "b", "c"] (by decide)⟩

/-! ### Matcher facade -/

/-- C4: every operation that touches the inner parser runs through
`with_inner`; a panicking operation turns into a regular error carrying
the panic message and moves the matcher permanently to the error state
(the result type of the embedding has no panic outcome, so no panic
reaches the caller); in the error state every `with_inner`-based operation
fails with the stored message, `is_stopped()` is true, `stop_reason()` is
`InternalError` and `is_error()` is true. -/
theorem claim_C4 :
    (∀ (T : Type) (inner : TokenParser) (f : TokenParser → OpOutcome T)
        (msg : String),
      f inner = .panics msg →
      Matcher.withInner ⟨.normal inner⟩ f = (.error msg, ⟨.error msg⟩)) ∧
    (∀ (e : String) (T : Type) (g : TokenParser → OpOutcome T),
      Matcher.withInner ⟨.error e⟩ g = (.error e, ⟨.error e⟩) ∧
      Matcher.isStopped ⟨.error e⟩ = true ∧
      Matcher.stopReasonM ⟨.error e⟩ = StopReason.InternalError ∧
      Matcher.isError ⟨.error e⟩ = true) := by
  constructor
  · intro T inner f msg h
    simp [Matcher.withInner, h]
  · intro e T g
    exact ⟨rfl, rfl, rfl, rfl⟩

/-- C4 witness: a concrete induced panic is quarantined. -/
theorem claim_C4_witness :
    Matcher.withInner ⟨.normal parserW4⟩
        (fun _ => (OpOutcome.panics "boom" : OpOutcome Unit)) =
      (.error "boom", ⟨.error "boom"⟩) :=
  claim_C4.1 Unit parserW4 (fun _ => OpOutcome.panics "boom") "boom" rfl

/-- C10: `Matcher::new` on a successfully constructed parser whose
`inference_caps.backtrack` is set yields a matcher already in the error
state with message "backtracking not supported", on which every
`with_inner`-based operation fails; with `backtrack` unset it yields a
normal matcher, starting a fresh parser without a prompt. -/
theorem claim_C10 (p : TokenParser) :
    (p.inference_caps.backtrack = true →
      Matcher.new (.ok p) = ⟨.error "backtracking not supported"⟩ ∧
      (Matcher.new (.ok p)).isError = true ∧
      ∀ (T : Type) (g : TokenParser → OpOutcome T),
        (Matcher.new (.ok p)).withInner g =
          (.error "backtracking not supported",
           ⟨.error "backtracking not supported"⟩)) ∧
    (p.inference_caps.backtrack = false →
      Matcher.new (.ok p) =
        ⟨.normal (if p.fresh then p.startWithoutPrompt else p)⟩) := by
  constructor
  · intro hb
    have hnew : Matcher.new (.ok p) = ⟨.error "backtracking not supported"⟩ := by
      unfold Matcher.new
      rw [if_pos hb]
      unfold Matcher.new
      rfl
    refine ⟨hnew, ?_, ?_⟩
    · rw [hnew]; rfl
    · intro T g; rw [hnew]; rfl
  · intro hb
    unfold Matcher.new
    rw [if_neg (by simp [hb])]

/-- C10 witness: a parser advertising backtracking yields an error-state
matcher. -/
theorem claim_C10_witness :
    Matcher.new (.ok parserW4) = ⟨.error "backtracking not supported"⟩ ∧
    (Matcher.new (.ok parserW4)).isError = true :=
  ⟨((claim_C10 parserW4).1 rfl).1, ((claim_C10 parserW4).1 rfl).2.1⟩

/-! ### Mask buffer validation -/

theorem foldlM_validate_ok :
    ∀ (l : List Nat) (p m : Nat) (u : Unit),
      List.foldlM (fun (_ : Unit) v => validateMaskPtr v p m) u l = .ok () →
      ∀ v ∈ l, validateMaskPtr v p m = .ok () := by
  intro l
  induction l with
  | nil => intro p m u _ v hv; simp at hv
  | cons a l ih =>
      intro p m u h v hv
      simp only [List.foldlM_cons] at h
      cases ha : validateMaskPtr a p m with
      | error e => rw [ha] at h; simp [Bind.bind, Except.bind] at h
      | ok u2 =>
          rw [ha] at h
          simp only [Bind.bind, Except.bind] at h
          rcases List.mem_cons.mp hv with h1 | h1
          · subst h1; cases u2; exact ha
          · exact ih p m u2 h v h1

/-- C9: `validate_mask_ptr` fails exactly on a null pointer, a misaligned
pointer, or a byte count different from `ceil(vocab_size/32) * 4`; on
success the mask write covers exactly the caller's slice; and the executor
only computes masks when every matcher's validation succeeded, each write
staying inside the caller's buffer. -/
theorem claim_C9 :
    (∀ vocabSize maskPtr maskBytes : Nat,
      ((∃ e, validateMaskPtr vocabSize maskPtr maskBytes = .error e) ↔
        (maskPtr = 0 ∨ maskPtr % 4 ≠ 0 ∨
          maskBytes ≠ (vocabSize + 31) / 32 * 4))) ∧
    (∀ vocabSize maskPtr maskBytes : Nat,
      validateMaskPtr vocabSize maskPtr maskBytes = .ok () →
      writeRegion maskPtr maskBytes = Set.Ico maskPtr (maskPtr + maskBytes)) ∧
    (∀ (vocabs : List Nat) (trgPtr omb : Nat) (rs : List (Set Nat)),
      executorComputeMaskPtr vocabs trgPtr omb = .ok rs →
      (∀ v ∈ vocabs, validateMaskPtr v trgPtr omb = .ok ()) ∧
      ∀ r ∈ rs, r ⊆ Set.Ico trgPtr (trgPtr + vocabs.length * omb)) := by
  have hval : ∀ vocabSize maskPtr maskBytes : Nat,
      validateMaskPtr vocabSize maskPtr maskBytes = .ok () →
      maskBytes = (vocabSize + 31) / 32 * 4 := by
    intro vs mp mb h
    simp only [validateMaskPtr] at h
    split_ifs at h with h1 h2 h3
    omega
  have hreg : ∀ maskPtr maskBytes : Nat, 4 ∣ maskBytes →
      writeRegion maskPtr maskBytes = Set.Ico maskPtr (maskPtr + maskBytes) := by
    intro mp mb hd
    unfold writeRegion
    rw [Nat.div_mul_cancel hd]
  refine ⟨?_, ?_, ?_⟩
  · intro vs mp mb
    simp only [validateMaskPtr]
    split_ifs with h1 h2 h3 <;> simp_all
  · intro vs mp mb h
    exact hreg mp mb ⟨(vs + 31) / 32, by rw [hval vs mp mb h]; ring⟩
  · intro vocabs trgPtr omb rs h
    match vocabs with
    | [] => simp [executorComputeMaskPtr] at h
    | [v] =>
        simp only [executorComputeMaskPtr, unsafeComputeMaskPtrSingle] at h
        cases hv : validateMaskPtr v trgPtr omb with
        | error e => rw [hv] at h; simp [Except.map] at h
        | ok u =>
            cases u
            rw [hv] at h
            simp only [Except.map, Except.ok.injEq] at h
            constructor
            · intro v2 hv2
              rcases List.mem_singleton.mp hv2 with rfl
              exact hv
            · intro r hr
              rw [← h] at hr
              rcases List.mem_singleton.mp hr with rfl
              unfold writeRegion
              have : omb / 4 * 4 ≤ omb := Nat.div_mul_le_self omb 4
              apply Set.Ico_subset_Ico le_rfl
              simp only [List.length_singleton, one_mul]
              omega
    | v1 :: v2 :: rest =>
        simp only [executorComputeMaskPtr, bind, Except.bind] at h
        cases hf : List.foldlM
            (fun (_ : Unit) v => validateMaskPtr v trgPtr omb) ()
            (v1 :: v2 :: rest) with
        | error e => rw [hf] at h; simp at h
        | ok u =>
            cases u
            rw [hf] at h
            simp only [pure, Except.pure, Except.ok.injEq] at h
            constructor
            · exact foldlM_validate_ok _ _ _ _ hf
            · intro r hr
              rw [← h] at hr
              rcases List.mem_map.mp hr with ⟨idx, hidx, rfl⟩
              have hlt : idx < (v1 :: v2 :: rest).length :=
                List.mem_range.mp hidx
              unfold writeRegion
              intro x hx
              rcases hx with ⟨hx1, hx2⟩
              have hdm : omb / 4 * 4 ≤ omb := Nat.div_mul_le_self omb 4
              refine ⟨by omega, ?_⟩
              have : (idx + 1) * omb ≤ (v1 :: v2 :: rest).length * omb :=
                Nat.mul_le_mul_right omb hlt
              have hexp : (idx + 1) * omb = idx * omb + omb := by ring
              omega

/-- C9 witness: a concrete valid buffer (vocabulary 100, pointer 4,
16 bytes) passes validation and its write covers exactly the 16-byte
slice. -/
theorem claim_C9_witness :
    validateMaskPtr 100 4 16 = .ok () ∧
    writeRegion 4 16 = Set.Ico 4 (4 + 16) :=
  ⟨rfl, claim_C9.2.1 100 4 16 rfl⟩

/-! ### Boundary chop -/

theorem relBytes_zero (trie : TokTrieModel) (rest : List Nat) :
    relBytes trie rest 0 = [] := rfl

theorem relBytes_cons (trie : TokTrieModel) (t : Nat) (rest : List Nat)
    (m : Nat) :
    relBytes trie (t :: rest) (m + 1) = relBytes trie rest m ++ trie.token t := by
  unfold relBytes
  rw [List.take_succ_cons, List.map_cons, List.reverse_cons,
    List.flatten_append]
  simp

theorem relBytes_one (trie : TokTrieModel) (t : Nat) (rest : List Nat) :
    relBytes trie (t :: rest) 1 = trie.token t := by
  rw [show (1 : Nat) = 0 + 1 from rfl, relBytes_cons, relBytes_zero,
    List.nil_append]

theorem findGreatest_congr {P Q : Nat → Prop} [DecidablePred P]
    [DecidablePred Q] (h : ∀ m, P m ↔ Q m) :
    ∀ b, Nat.findGreatest P b = Nat.findGreatest Q b := by
  intro b
  induction b with
  | zero => rfl
  | succ n ih =>
      rw [Nat.findGreatest_succ, Nat.findGreatest_succ, ih]
      by_cases hp : P (n + 1)
      · rw [if_pos hp, if_pos ((h _).mp hp)]
      · rw [if_neg hp, if_neg fun hq => hp ((h _).mpr hq)]

theorem chopGo_eq (trie : TokTrieModel) :
    ∀ (rest : List Nat) (idx : Nat) (suff : List Nat) (acc : Nat × Nat),
      chopGo trie rest idx suff acc =
        (if Nat.findGreatest (chopRel trie rest suff) rest.length = 0 then acc
         else
           (idx + Nat.findGreatest (chopRel trie rest suff) rest.length,
            (relBytes trie rest
               (Nat.findGreatest (chopRel trie rest suff) rest.length)
              ++ suff).length)) := by
  intro rest
  induction rest with
  | nil =>
      intro idx suff acc
      simp [chopGo]
  | cons t rest ih =>
      intro idx suff acc
      by_cases hgt : (trie.token t ++ suff).length > trie.maxTokenLen
      · have hK : Nat.findGreatest (chopRel trie (t :: rest) suff)
            (t :: rest).length = 0 := by
          rw [Nat.findGreatest_eq_zero_iff]
          intro m hm0 hmle hrel
          match m, hm0, hrel with
          | m2 + 1, _, hrel =>
            obtain ⟨-, hlen, -⟩ := hrel
            rw [relBytes_cons, List.append_assoc] at hlen
            rw [List.length_append] at hlen
            omega
        have hstep : chopGo trie (t :: rest) idx suff acc = acc := by
          rw [show chopGo trie (t :: rest) idx suff acc =
              (if (trie.token t ++ suff).length > trie.maxTokenLen then acc
               else chopGo trie rest (idx + 1) (trie.token t ++ suff)
                 (if trie.hasExtensions (trie.token t ++ suff) then
                   (idx + 1, (trie.token t ++ suff).length) else acc))
            from rfl]
          rw [if_pos hgt]
        rw [hK, hstep]
        simp
      · have hle2 : (trie.token t ++ suff).length ≤ trie.maxTokenLen := by
          omega
        have hstep : chopGo trie (t :: rest) idx suff acc =
            chopGo trie rest (idx + 1) (trie.token t ++ suff)
              (if trie.hasExtensions (trie.token t ++ suff) then
                (idx + 1, (trie.token t ++ suff).length) else acc) := by
          rw [show chopGo trie (t :: rest) idx suff acc =
              (if (trie.token t ++ suff).length > trie.maxTokenLen then acc
               else chopGo trie rest (idx + 1) (trie.token t ++ suff)
                 (if trie.hasExtensions (trie.token t ++ suff) then
                   (idx + 1, (trie.token t ++ suff).length) else acc))
            from rfl]
          rw [if_neg hgt]
        rw [hstep, ih]
        have hbr1 : ∀ m, 0 < m →
            (chopRel trie (t :: rest) suff (m + 1) ↔
              chopRel trie rest (trie.token t ++ suff) m) := by
          intro m hm
          unfold chopRel
          rw [relBytes_cons, List.append_assoc]
          constructor
          · rintro ⟨-, h1, h2⟩; exact ⟨hm, h1, h2⟩
          · rintro ⟨-, h1, h2⟩; exact ⟨Nat.succ_pos m, h1, h2⟩
        have hbr0 : chopRel trie (t :: rest) suff 1 ↔
            ((trie.token t ++ suff).length ≤ trie.maxTokenLen ∧
              trie.hasExtensions (trie.token t ++ suff) = true) := by
          unfold chopRel
          rw [relBytes_one]
          constructor
          · rintro ⟨-, h1, h2⟩; exact ⟨h1, h2⟩
          · rintro ⟨h1, h2⟩; exact ⟨Nat.one_pos, h1, h2⟩
        by_cases hK0 : Nat.findGreatest
            (chopRel trie rest (trie.token t ++ suff)) rest.length = 0
        · by_cases hext : trie.hasExtensions (trie.token t ++ suff) = true
          · have hK1 : Nat.findGreatest (chopRel trie (t :: rest) suff)
                (t :: rest).length = 1 := by
              rw [Nat.findGreatest_eq_iff]
              refine ⟨by simp, fun _ => hbr0.mpr ⟨hle2, hext⟩, ?_⟩
              intro m hm1 hmle hrel
              match m, hm1, hrel with
              | m2 + 1, hm1, hrel =>
                have hm2 : 0 < m2 := by omega
                have h3 := (hbr1 m2 hm2).mp hrel
                exact Nat.findGreatest_eq_zero_iff.mp hK0 hm2
                  (by simpa using hmle) h3
            rw [hK1, hK0, if_neg one_ne_zero, if_pos rfl, if_pos hext,
              relBytes_one]
          · have hK1 : Nat.findGreatest (chopRel trie (t :: rest) suff)
                (t :: rest).length = 0 := by
              rw [Nat.findGreatest_eq_zero_iff]
              intro m hm0 hmle hrel
              match m, hm0, hrel with
              | m2 + 1, _, hrel =>
                cases Nat.eq_zero_or_pos m2 with
                | inl h0 =>
                    subst h0
                    exact hext (hbr0.mp hrel).2
                | inr hpos =>
                    exact Nat.findGreatest_eq_zero_iff.mp hK0 hpos
                      (by simpa using hmle) ((hbr1 m2 hpos).mp hrel)
            rw [hK1, hK0, if_pos rfl, if_pos rfl, if_neg]
            intro hc
            exact hext hc
        · have hKpos := Nat.pos_of_ne_zero hK0
          have hPK : chopRel trie rest (trie.token t ++ suff)
              (Nat.findGreatest (chopRel trie rest (trie.token t ++ suff))
                rest.length) := by
            obtain ⟨m0, hm0pos, hm0le, hPm0⟩ :=
              Nat.findGreatest_pos.mp (Nat.pos_of_ne_zero hK0)
            exact Nat.findGreatest_spec hm0le hPm0
          have hKs : Nat.findGreatest (chopRel trie (t :: rest) suff)
              (t :: rest).length =
              Nat.findGreatest (chopRel trie rest (trie.token t ++ suff))
                rest.length + 1 := by
            rw [Nat.findGreatest_eq_iff]
            refine ⟨?_, fun _ => (hbr1 _ hKpos).mpr hPK, ?_⟩
            · have := Nat.findGreatest_le (P := chopRel trie rest
                (trie.token t ++ suff)) rest.length
              simp only [List.length_cons]
              omega
            · intro m hlt hmle hrel
              match m, hlt, hmle, hrel with
              | m2 + 1, hlt, hmle, hrel =>
                have hm2 : 0 < m2 := by omega
                have h3 := (hbr1 m2 hm2).mp hrel
                exact Nat.findGreatest_is_greatest (n := rest.length)
                  (by omega) (by simpa using hmle) h3
          rw [hKs, if_neg (Nat.succ_ne_zero _), if_neg hK0,
            relBytes_cons, List.append_assoc]
          have he : idx + 1 + Nat.findGreatest
              (chopRel trie rest (trie.token t ++ suff)) rest.length =
              idx + (Nat.findGreatest (chopRel trie rest
                (trie.token t ++ suff)) rest.length + 1) := by omega
          rw [he]

theorem relBytes_reverse_eq (trie : TokTrieModel) (grm : List Nat) (m : Nat) :
    relBytes trie grm.reverse m = lastBytes trie grm m := by
  unfold relBytes lastBytes
  rw [List.take_reverse, List.map_reverse, List.reverse_reverse]

theorem lastBytes_zero (trie : TokTrieModel) (grm : List Nat) :
    lastBytes trie grm 0 = [] := by
  unfold lastBytes
  simp

theorem chopLoop_eq (trie : TokTrieModel) (grm : List Nat) :
    chopLoop trie grm =
      (chopK trie grm, (lastBytes trie grm (chopK trie grm)).length) := by
  unfold chopLoop chopK
  rw [chopGo_eq]
  have hcong : ∀ m, chopRel trie grm.reverse [] m ↔ chopCond trie grm m := by
    intro m
    unfold chopRel chopCond
    rw [relBytes_reverse_eq, List.append_nil]
  have hKeq : Nat.findGreatest (chopRel trie grm.reverse []) grm.reverse.length
      = Nat.findGreatest (chopCond trie grm) grm.length := by
    rw [List.length_reverse]
    exact findGreatest_congr hcong _
  rw [hKeq]
  by_cases h0 : Nat.findGreatest (chopCond trie grm) grm.length = 0
  · rw [if_pos h0, h0, lastBytes_zero]
    rfl
  · rw [if_neg h0, relBytes_reverse_eq, List.append_nil]
    rw [Nat.zero_add]

/-- C2 counterexample: the chop the code computes is not the while-loop
marked point the claim describes.  With byte strings `[1]`, `[2]`, `[3]`,
`[3,2,1,7]` and forced tokens decoding to `[3]`, `[2]`, `[1]`, the suffix
`[1]` has no extension (the while loop would stop with no chop), yet the
longer suffix `[3,2,1]` extends to `[3,2,1,7]`, so the code chops three
tokens. -/
theorem claim_C2_counterexample :
    chopLoop chopTrie [2, 1, 0] ≠ chopWhile chopTrie [2, 1, 0] := by decide

/-- C2 (amended): the chop loop scans tokens right to left until the
accumulated bytes exceed `max_token_len`, recording the position whenever
`has_extensions` holds of the accumulated bytes; the final
`(chop_tokens, chop_bytes)` is therefore the largest `k` whose last-`k`
token bytes fit in `max_token_len` and are extended by some vocabulary
token (0 when there is none) together with that byte length, and
`grm_tokens` is truncated by exactly `chop_tokens`. -/
theorem claim_C2 (trie : TokTrieModel) (tokenize : List Nat → List Nat)
    (parser : ParserModel) :
    chopLoop trie (tokenize parser.grmBytes) =
      (chopK trie (tokenize parser.grmBytes),
        (lastBytes trie (tokenize parser.grmBytes)
          (chopK trie (tokenize parser.grmBytes))).length) ∧
    midGrmTokens trie tokenize parser =
      (tokenize parser.grmBytes).take
        ((tokenize parser.grmBytes).length -
          chopK trie (tokenize parser.grmBytes)) := by
  refine ⟨chopLoop_eq trie (tokenize parser.grmBytes), ?_⟩
  rw [show midGrmTokens trie tokenize parser =
      (tokenize parser.grmBytes).take ((tokenize parser.grmBytes).length -
        (chopLoop trie (tokenize parser.grmBytes)).1) from rfl,
    chopLoop_eq]

/-! ### Alignment splice and suffix reconciliation -/

theorem findDiffIdx_of_agree (llm : List Nat) :
    ∀ (grm : List Nat) (start : Nat),
      (∀ k, k < grm.length → llm[start + k]? = grm[k]?) →
      findDiffIdx llm grm start = none := by
  intro grm
  induction grm with
  | nil => intro start h; rfl
  | cons g grest ih =>
      intro start h
      have h0 : llm[start]? = some g := by
        have := h 0 (by simp)
        simpa using this
      unfold findDiffIdx
      rw [if_neg (by simp [h0])]
      apply ih
      intro k hk
      have h2 := h (k + 1) (by simpa using Nat.succ_lt_succ hk)
      have he : start + (k + 1) = start + 1 + k := by omega
      rw [he] at h2
      simpa using h2

theorem findDiffIdx_of_diff (llm : List Nat) :
    ∀ (grm : List Nat) (start k : Nat),
      k < grm.length → llm[start + k]? ≠ grm[k]? →
      (∀ j, j < k → llm[start + j]? = grm[j]?) →
      findDiffIdx llm grm start = some (start + k) := by
  intro grm
  induction grm with
  | nil => intro start k hk; intro h1 h2; simp at hk
  | cons g grest ih =>
      intro start k hk hne hmin
      cases k with
      | zero =>
          unfold findDiffIdx
          rw [if_pos (by simpa using hne)]
          simp
      | succ k2 =>
          have h0 : llm[start]? = some g := by
            simpa using hmin 0 (Nat.succ_pos k2)
          unfold findDiffIdx
          rw [if_neg (by simp [h0])]
          have hres := ih (start + 1) k2 (by simpa using hk) ?_ ?_
          · rw [hres]
            congr 1
            omega
          · have he : start + 1 + k2 = start + (k2 + 1) := by omega
            rw [he]
            simpa using hne
          · intro j hj
            have he : start + 1 + j = start + (j + 1) := by omega
            rw [he]
            have := hmin (j + 1) (by omega)
            simpa using this

theorem midProcess_eq (trie : TokTrieModel) (tokenize : List Nat → List Nat)
    (parser : ParserModel) (llm arg : List Nat) :
    midProcess trie tokenize parser llm arg =
      (if trie.eosToken ∈ arg then .stop
       else
        match findDiffIdx llm (midGrmTokens trie tokenize parser) 0 with
        | some idx =>
            .splice (llm.length - idx)
              ((midGrmTokens trie tokenize parser).drop idx)
        | none =>
            if (grmSuffixOf trie tokenize parser).length ≤
                (llmSuffixOf trie tokenize parser llm).length then
              if ¬ (grmSuffixOf trie tokenize parser).isPrefixOf
                  (llmSuffixOf trie tokenize parser llm) then
                .fatal "llm and grm suffix mismatch (grm le llm)"
              else
                match scanAll parser []
                    ((llmSuffixOf trie tokenize parser llm).drop
                      (grmSuffixOf trie tokenize parser).length) with
                | some _ => .fatal "rejected byte"
                | none => .sample []
            else
              if ¬ (llmSuffixOf trie tokenize parser llm).isPrefixOf
                  (grmSuffixOf trie tokenize parser) then
                .fatal "llm and grm suffix mismatch (grm gt llm)"
              else
                .sample ((grmSuffixOf trie tokenize parser).drop
                  (llmSuffixOf trie tokenize parser llm).length)) := rfl

/-- C3: if some index holds different tokens in the LLM history and the
kept forced tokens, `mid_process` returns, at the least such index `i`, a
splice with backtrack `llm_tokens.len() - i` and fast-forward
`grm_tokens[i..]`, and the step ends there (no mask is computed); when no
such index exists and no zero-backtrack splice is emitted, the kept forced
tokens are a prefix of the LLM history. -/
theorem claim_C3 (trie : TokTrieModel) (tokenize : List Nat → List Nat)
    (parser : ParserModel) (llm arg : List Nat)
    (heos : trie.eosToken ∉ arg) :
    (∀ i0 : Nat, i0 < llm.length →
      i0 < (midGrmTokens trie tokenize parser).length →
      llm[i0]? ≠ (midGrmTokens trie tokenize parser)[i0]? →
      (∀ j, j < i0 → llm[j]? = (midGrmTokens trie tokenize parser)[j]?) →
      midProcess trie tokenize parser llm arg =
        .splice (llm.length - i0)
          ((midGrmTokens trie tokenize parser).drop i0)) ∧
    ((∀ i, i < llm.length → i < (midGrmTokens trie tokenize parser).length →
        llm[i]? = (midGrmTokens trie tokenize parser)[i]?) →
      (∀ ff, midProcess trie tokenize parser llm arg ≠ .splice 0 ff) →
      midGrmTokens trie tokenize parser <+: llm) := by
  constructor
  · intro i0 h1 h2 h3 h4
    have hd : findDiffIdx llm (midGrmTokens trie tokenize parser) 0 =
        some (0 + i0) := by
      apply findDiffIdx_of_diff
      · exact h2
      · simpa using h3
      · intro j hj
        simpa using h4 j hj
    rw [midProcess_eq, if_neg heos, hd]
    simp
  · intro hag hns
    by_cases hlen : (midGrmTokens trie tokenize parser).length ≤ llm.length
    · have he : midGrmTokens trie tokenize parser =
          llm.take (midGrmTokens trie tokenize parser).length := by
        apply List.ext_getElem?
        intro n
        by_cases hn : n < (midGrmTokens trie tokenize parser).length
        · rw [List.getElem?_take_of_lt hn]
          exact (hag n (by omega) hn).symm
        · rw [List.getElem?_eq_none (by omega),
            List.getElem?_eq_none (by simp; omega)]
      rw [he]
      exact List.take_prefix _ _
    · exfalso
      push_neg at hlen
      have hd : findDiffIdx llm (midGrmTokens trie tokenize parser) 0 =
          some (0 + llm.length) := by
        apply findDiffIdx_of_diff
        · exact hlen
        · rw [Nat.zero_add, List.getElem?_eq_none (le_refl llm.length),
            List.getElem?_eq_getElem hlen]
          simp
        · intro j hj
          rw [Nat.zero_add]
          exact hag j hj (by omega)
      apply hns ((midGrmTokens trie tokenize parser).drop llm.length)
      rw [midProcess_eq, if_neg heos, hd]
      simp

/-- C3 witness: the forced tokens are `[0, 1]`, the model emitted
`[0, 0]`; the least disagreeing index is 1 and the step returns
`Splice(1, [1])`. -/
theorem claim_C3_witness :
    midProcess trieW3 tokenizeW3 parserW3 [0, 0] [] = .splice 1 [1] := by
  have h := (claim_C3 trieW3 tokenizeW3 parserW3 [0, 0] [] (by decide)).1 1
    (by decide) (by decide) (by decide)
    (by intro j hj; interval_cases j; decide)
  rw [h]
  decide

/-- C5: on the sample path (forced tokens a prefix of the LLM history),
`mid_process` compares the grammar byte suffix with the decoded extra LLM
bytes.  When the grammar suffix is no longer, the LLM suffix must start
with it (otherwise the step is fatal) and the extra bytes are scanned into
the grammar, any rejection being fatal; otherwise the grammar suffix must
start with the LLM suffix (otherwise fatal) and the remainder becomes the
mask-computation byte prefix; when neither suffix is a prefix of the
other, the step is a fatal invariant violation and no `Sample` result is
returned. -/
theorem claim_C5 (trie : TokTrieModel) (tokenize : List Nat → List Nat)
    (parser : ParserModel) (llm arg : List Nat)
    (heos : trie.eosToken ∉ arg)
    (hpre : midGrmTokens trie tokenize parser <+: llm) :
    ((grmSuffixOf trie tokenize parser).length ≤
        (llmSuffixOf trie tokenize parser llm).length →
      midProcess trie tokenize parser llm arg =
        (if ¬ (grmSuffixOf trie tokenize parser).isPrefixOf
            (llmSuffixOf trie tokenize parser llm) then
          .fatal "llm and grm suffix mismatch (grm le llm)"
         else
          match scanAll parser []
              ((llmSuffixOf trie tokenize parser llm).drop
                (grmSuffixOf trie tokenize parser).length) with
          | some _ => .fatal "rejected byte"
          | none => .sample [])) ∧
    ((llmSuffixOf trie tokenize parser llm).length <
        (grmSuffixOf trie tokenize parser).length →
      midProcess trie tokenize parser llm arg =
        (if ¬ (llmSuffixOf trie tokenize parser llm).isPrefixOf
            (grmSuffixOf trie tokenize parser) then
          .fatal "llm and grm suffix mismatch (grm gt llm)"
         else
          .sample ((grmSuffixOf trie tokenize parser).drop
            (llmSuffixOf trie tokenize parser llm).length))) ∧
    (¬ grmSuffixOf trie tokenize parser <+:
        llmSuffixOf trie tokenize parser llm →
     ¬ llmSuffixOf trie tokenize parser llm <+:
        grmSuffixOf trie tokenize parser →
      ∀ bs, midProcess trie tokenize parser llm arg ≠ .sample bs) := by
  have hd : findDiffIdx llm (midGrmTokens trie tokenize parser) 0 = none := by
    apply findDiffIdx_of_agree
    intro k hk
    rw [Nat.zero_add]
    have he := List.prefix_iff_eq_take.mp hpre
    conv_rhs => rw [he]
    rw [List.getElem?_take_of_lt hk]
  refine ⟨?_, ?_, ?_⟩
  · intro hle
    rw [midProcess_eq, if_neg heos, hd, if_pos hle]
  · intro hlt
    rw [midProcess_eq, if_neg heos, hd, if_neg (by omega)]
  · intro hnp1 hnp2 bs
    rw [midProcess_eq, if_neg heos, hd]
    have hb1 : (grmSuffixOf trie tokenize parser).isPrefixOf
        (llmSuffixOf trie tokenize parser llm) = false := by
      rw [← Bool.not_eq_true, List.isPrefixOf_iff_prefix]
      exact hnp1
    have hb2 : (llmSuffixOf trie tokenize parser llm).isPrefixOf
        (grmSuffixOf trie tokenize parser) = false := by
      rw [← Bool.not_eq_true, List.isPrefixOf_iff_prefix]
      exact hnp2
    by_cases hle : (grmSuffixOf trie tokenize parser).length ≤
        (llmSuffixOf trie tokenize parser llm).length
    · rw [if_pos hle, if_pos (by simp [hb1])]
      simp
    · rw [if_neg hle, if_pos (by simp [hb2])]
      simp

/-- C5 witness: with forced bytes `[5, 6]`, one chopped token and an empty
LLM suffix, the step samples with byte prefix `[6]`. -/
theorem claim_C5_witness :
    midProcess trieW5 tokenizeW5 parserW5 [] [] = .sample [6] := by
  have h := (claim_C5 trieW5 tokenizeW5 parserW5 [] [] (by decide)
    (by rw [show midGrmTokens trieW5 tokenizeW5 parserW5 = [] from rfl])).2.1
    (by decide)
  rw [h]
  decide

/-! ### End-position theory (pure string facts) -/

theorem endpos_mem_def {t u : List String} {i : Nat} :
    i ∈ endpos t u ↔ i ≤ t.length ∧ u <:+ t.take i := Iff.rfl

theorem infix_iff_endpos_nonempty (t u : List String) :
    u <:+: t ↔ (endpos t u).Nonempty := by
  constructor
  · rintro ⟨pre, post, rfl⟩
    refine ⟨pre.length + u.length, ?_, ?_⟩
    · simp only [List.length_append]
      omega
    · have h1 : (pre ++ u ++ post).take (pre.length + u.length) = pre ++ u := by
        have h2 : (pre ++ u).length = pre.length + u.length := by simp
        rw [← h2, List.take_left]
      rw [h1]
      exact List.suffix_append pre u
  · rintro ⟨i, hle, hsuf⟩
    exact hsuf.isInfix.trans (List.take_prefix i t).isInfix

theorem endpos_length_le {t u : List String} {i : Nat}
    (h : i ∈ endpos t u) : u.length ≤ i := by
  have h2 := h.2.length_le
  rw [List.length_take] at h2
  omega

theorem endpos_mono {u v : List String} (hsuf : v <:+ u) (t : List String) :
    endpos t u ⊆ endpos t v := fun _ hi => ⟨hi.1, hsuf.trans hi.2⟩

theorem suffix_of_endpos_mem {t u v : List String} {i : Nat}
    (hu : i ∈ endpos t u) (hv : i ∈ endpos t v)
    (hlen : u.length ≤ v.length) : u <:+ v := by
  rcases List.suffix_or_suffix_of_suffix hu.2 hv.2 with h | h
  · exact h
  · rw [h.eq_of_length_le hlen]

theorem suffix_of_endpos_eq {t u v : List String}
    (h : endpos t u = endpos t v) (hne : (endpos t u).Nonempty)
    (hlen : u.length ≤ v.length) : u <:+ v := by
  obtain ⟨i, hi⟩ := hne
  exact suffix_of_endpos_mem hi (h ▸ hi) hlen

theorem endpos_squeeze {t u x v : List String} (h1 : u <:+ x) (h2 : x <:+ v)
    (he : endpos t v = endpos t u) : endpos t x = endpos t u :=
  Set.Subset.antisymm (endpos_mono h1 t) (he ▸ endpos_mono h2 t)

theorem zero_mem_endpos_iff (t u : List String) :
    0 ∈ endpos t u ↔ u = [] := by
  unfold endpos
  simp

theorem endpos_nil_mem (t : List String) (i : Nat) (h : i ≤ t.length) :
    i ∈ endpos t [] := ⟨h, List.nil_suffix⟩

theorem length_mem_endpos_iff (t u : List String) :
    t.length ∈ endpos t u ↔ u <:+ t := by
  unfold endpos
  simp

theorem endpos_snoc (t u : List String) (c : String) :
    endpos (t ++ [c]) u =
      endpos t u ∪ (if u <:+ t ++ [c] then {t.length + 1} else ∅) := by
  ext i
  simp only [Set.mem_union]
  constructor
  · rintro ⟨h1, hsuf⟩
    rw [List.length_append, List.length_singleton] at h1
    by_cases hi : i ≤ t.length
    · left
      rw [List.take_append_of_le_length hi] at hsuf
      exact ⟨hi, hsuf⟩
    · right
      have hieq : i = t.length + 1 := by omega
      subst hieq
      rw [List.take_of_length_le (by simp)] at hsuf
      rw [if_pos hsuf]
      rfl
  · intro h
    rcases h with ⟨h1, hsuf⟩ | h
    · refine ⟨by simp; omega, ?_⟩
      rw [List.take_append_of_le_length h1]
      exact hsuf
    · by_cases hc : u <:+ t ++ [c]
      · rw [if_pos hc] at h
        have hieq : i = t.length + 1 := h
        subst hieq
        refine ⟨by simp, ?_⟩
        rw [List.take_of_length_le (by simp)]
        exact hc
      · rw [if_neg hc] at h
        exact absurd h (Set.not_mem_empty i)

theorem infix_snoc_iff (t : List String) (c : String) (u : List String) :
    u <:+: t ++ [c] ↔ u <:+: t ∨ u <:+ t ++ [c] := by
  constructor
  · intro h
    obtain ⟨i, hi⟩ := (infix_iff_endpos_nonempty _ _).mp h
    rw [endpos_snoc] at hi
    rcases hi with hi | hi
    · exact Or.inl ((infix_iff_endpos_nonempty _ _).mpr ⟨i, hi⟩)
    · by_cases hc : u <:+ t ++ [c]
      · exact Or.inr hc
      · rw [if_neg hc] at hi
        exact absurd hi (Set.not_mem_empty i)
  · intro h
    rcases h with h | h
    · exact h.trans ⟨[], [c], by simp⟩
    · exact h.isInfix

theorem suffix_snoc_iff (t : List String) (c : String) (u : List String) :
    u <:+ t ++ [c] ↔ u = [] ∨ ∃ s, s <:+ t ∧ u = s ++ [c] := by
  constructor
  · intro h
    rcases List.eq_nil_or_concat u with rfl | ⟨u2, x, rfl⟩
    · exact Or.inl rfl
    · right
      obtain ⟨pre, heq⟩ := h
      rw [List.concat_eq_append, ← List.append_assoc] at heq
      obtain ⟨h1, h2⟩ := List.append_inj' heq (by simp)
      have hx : x = c := by simpa using h2
      refine ⟨u2, ⟨pre, h1⟩, ?_⟩
      rw [List.concat_eq_append, hx]
  · intro h
    rcases h with rfl | ⟨s, hs, rfl⟩
    · exact List.nil_suffix
    · obtain ⟨pre, rfl⟩ := hs
      exact ⟨pre, by simp⟩

theorem snoc_inj {w1 w2 : List String} {x y : String}
    (h : w1 ++ [x] = w2 ++ [y]) : w1 = w2 ∧ x = y := by
  obtain ⟨h1, h2⟩ := List.append_inj' h rfl
  have hx : x = y := by simpa using h2
  exact ⟨h1, hx⟩

/-! ### Reach lemmas -/

theorem reachFrom_append (sa : SuffixAutomaton) (w1 : List String) :
    ∀ (i : Nat) (w2 : List String),
      reachFrom sa i (w1 ++ w2) =
        (reachFrom sa i w1).bind (fun j => reachFrom sa j w2) := by
  induction w1 with
  | nil => intro i w2; rfl
  | cons c w1 ih =>
      intro i w2
      show (saStep sa i c).bind (fun j => reachFrom sa j (w1 ++ w2)) =
        ((saStep sa i c).bind fun j => reachFrom sa j w1).bind
          fun j => reachFrom sa j w2
      cases saStep sa i c with
      | none => rfl
      | some j => exact ih j w2

theorem reach_snoc (sa : SuffixAutomaton) (w : List String) (c : String) :
    reach sa (w ++ [c]) = (reach sa w).bind (fun p => saStep sa p c) := by
  unfold reach
  rw [reachFrom_append]
  cases reachFrom sa 0 w with
  | none => rfl
  | some p =>
      show reachFrom sa p [c] = saStep sa p c
      show (saStep sa p c).bind (fun j => some j) = saStep sa p c
      cases saStep sa p c <;> rfl

theorem accepts_iff_reachFrom (sa : SuffixAutomaton) :
    ∀ (w : List String) (i : Nat),
      Accepts sa i w ↔ (reachFrom sa i w).isSome := by
  intro w
  induction w with
  | nil =>
      intro i
      constructor
      · intro _; rfl
      · intro _; exact Accepts.nil i
  | cons c w ih =>
      intro i
      have hshow : reachFrom sa i (c :: w) =
          (saStep sa i c).bind (fun j => reachFrom sa j w) := rfl
      constructor
      · intro h
        cases h with
        | cons hs ha =>
            rw [hshow, show saStep sa i c = _ from hs]
            exact (ih _).mp ha
      · intro h
        cases hs : saStep sa i c with
        | none =>
            rw [hshow, hs] at h
            simp at h
        | some j =>
            rw [hshow, hs] at h
            exact Accepts.cons hs ((ih j).mpr h)

/-! ### Consequences of the `Models` invariant -/

theorem reach_nil (sa : SuffixAutomaton) : reach sa [] = some 0 := rfl

theorem Models.infix_of_reach {sa : SuffixAutomaton} {t : List String}
    (h : Models sa t) {u : List String} {p : Nat}
    (hr : reach sa u = some p) : u <:+: t := by
  have := (h.reach_dom u).mp (by rw [hr]; rfl)
  exact this

theorem Models.endpos_eq_of_reach {sa : SuffixAutomaton} {t : List String}
    (h : Models sa t) {u v : List String} {p : Nat}
    (hu : reach sa u = some p) (hv : reach sa v = some p) :
    endpos t u = endpos t v :=
  (h.class_eq u v (h.infix_of_reach hu) (h.infix_of_reach hv)).mp
    (by rw [hu, hv])

theorem Models.reach_zero_unique {sa : SuffixAutomaton} {t : List String}
    (h : Models sa t) {u : List String}
    (hr : reach sa u = some 0) : u = [] := by
  have he : endpos t u = endpos t [] := h.endpos_eq_of_reach hr (reach_nil sa)
  have h0 : (0 : Nat) ∈ endpos t [] := endpos_nil_mem t 0 (Nat.zero_le _)
  rw [← he] at h0
  exact (zero_mem_endpos_iff t u).mp h0

theorem Models.len_last {sa : SuffixAutomaton} {t : List String}
    (h : Models sa t) : lenOf sa.states sa.last = t.length := by
  have h1 : t.length ≤ lenOf sa.states sa.last :=
    h.len_max t sa.last h.reach_last
  obtain ⟨v, hv, hlen⟩ := h.len_wit sa.last h.last_lt
  have h2 : v.length ≤ t.length := (h.infix_of_reach hv).length_le
  omega

theorem Models.member_suffix {sa : SuffixAutomaton} {t : List String}
    (h : Models sa t) {u v : List String} {p : Nat}
    (hu : reach sa u = some p) (hv : reach sa v = some p)
    (hlen : u.length ≤ v.length) : u <:+ v := by
  have he := h.endpos_eq_of_reach hu hv
  have hne : (endpos t u).Nonempty :=
    (infix_iff_endpos_nonempty t u).mp (h.infix_of_reach hu)
  exact suffix_of_endpos_eq he hne hlen

theorem Models.step_spec {sa : SuffixAutomaton} {t : List String}
    (h : Models sa t) {i j : Nat} {x : String}
    (hi : i < sa.states.length)
    (hstep : saStep sa i x = some j) :
    j < sa.states.length ∧ lenOf sa.states i < lenOf sa.states j := by
  obtain ⟨v, hv, hlen⟩ := h.len_wit i hi
  have hr : reach sa (v ++ [x]) = some j := by
    rw [reach_snoc, hv]
    exact hstep
  refine ⟨h.reach_lt _ _ hr, ?_⟩
  have := h.len_max _ _ hr
  rw [List.length_append, List.length_singleton] at this
  omega

theorem Models.chain_len_le {sa : SuffixAutomaton} {t : List String}
    (h : Models sa t) {s s2 : List String} {p p2 : Nat}
    (hs : s <:+ t) (h2 : s2 <:+ s)
    (hr : reach sa s = some p) (hr2 : reach sa s2 = some p2) :
    lenOf sa.states p2 ≤ lenOf sa.states p ∧
      (p2 ≠ p → lenOf sa.states p2 < lenOf sa.states p) := by
  obtain ⟨v, hv, hlen⟩ := h.len_wit p2 (h.reach_lt _ _ hr2)
  have hs2t : s2 <:+ t := h2.trans hs
  have hve : endpos t v = endpos t s2 := h.endpos_eq_of_reach hv hr2
  have hnmem : t.length ∈ endpos t s2 := (length_mem_endpos_iff t s2).mpr hs2t
  have hvt : v <:+ t := by
    rw [← length_mem_endpos_iff]
    rw [hve]
    exact hnmem
  rcases List.suffix_or_suffix_of_suffix hvt hs with hvs | hsv
  · -- v <:+ s
    have hle : lenOf sa.states p2 ≤ lenOf sa.states p := by
      have := h.len_max s p hr
      have hvl := hvs.length_le
      omega
    refine ⟨hle, ?_⟩
    intro hne
    rcases Nat.lt_or_ge (lenOf sa.states p2) (lenOf sa.states p) with hlt | hge
    · exact hlt
    · exfalso
      have heq : lenOf sa.states p2 = lenOf sa.states p := by omega
      have hsl : s.length ≤ lenOf sa.states p := h.len_max s p hr
      have hveq : v = s := by
        apply hvs.eq_of_length
        have hvl := hvs.length_le
        omega
      subst hveq
      rw [hv] at hr
      exact hne (Option.some.injEq _ _ ▸ hr.symm ▸ rfl)
  · -- s <:+ v
    have he2 : endpos t s = endpos t s2 := by
      apply Set.Subset.antisymm
      · exact endpos_mono h2 t
      · exact hve ▸ endpos_mono hsv t
    have : reach sa s = reach sa s2 :=
      (h.class_eq s s2 (hs.isInfix) (hs2t.isInfix)).mpr he2
    rw [hr, hr2] at this
    have hpe : p = p2 := by injection this
    subst hpe
    exact ⟨le_refl _, fun hne => absurd rfl hne⟩

theorem suffix_eq_of_length {s u v : List String} (hu : u <:+ s) (hv : v <:+ s)
    (hlen : u.length = v.length) : u = v := by
  rcases List.suffix_or_suffix_of_suffix hu hv with h | h
  · exact h.eq_of_length hlen
  · exact (h.eq_of_length hlen.symm).symm

theorem Models.link_step {sa : SuffixAutomaton} {t : List String}
    (h : Models sa t) {s : List String} {p : Nat}
    (_hs : s <:+ t) (hr : reach sa s = some p) (hp : p ≠ 0) :
    ∃ lp, linkOf sa.states p = some lp ∧ lp < sa.states.length ∧
      lenOf sa.states lp < lenOf sa.states p ∧
      lenOf sa.states lp < s.length ∧
      reach sa (s.drop (s.length - lenOf sa.states lp)) = some lp ∧
      ∀ s2, s2 <:+ s → lenOf sa.states lp < s2.length →
        reach sa s2 = some p := by
  obtain ⟨lp, hlink, hlp, hlen, hmem⟩ :=
    h.link_spec p (h.reach_lt _ _ hr) hp
  obtain ⟨hminlen, hreachlp, hinterval⟩ := hmem s hr
  refine ⟨lp, hlink, hlp, hlen, hminlen, hreachlp, ?_⟩
  intro s2 hs2 hlen2
  have hdrop : s2 = s.drop (s.length - s2.length) := by
    apply suffix_eq_of_length hs2 (List.drop_suffix _ _)
    rw [List.length_drop]
    have := hs2.length_le
    omega
  rw [hdrop]
  exact hinterval s2.length hlen2 hs2.length_le

theorem Models.states_card {sa : SuffixAutomaton} {t : List String}
    (h : Models sa t) : t.length + 1 ≤ sa.states.length := by
  classical
  have hinj : Set.InjOn (fun i => (reach sa (t.take i)).getD 0)
      (Finset.range (t.length + 1)) := by
    intro i hi j hj hij
    simp only [Finset.coe_range, Set.mem_Iio] at hi hj
    have hsome : ∀ k, k < t.length + 1 → ∃ p, reach sa (t.take k) = some p := by
      intro k hk
      have : (reach sa (t.take k)).isSome := by
        rw [h.reach_dom]
        exact (List.take_prefix k t).isInfix
      exact Option.isSome_iff_exists.mp this
    obtain ⟨pi, hpi⟩ := hsome i hi
    obtain ⟨pj, hpj⟩ := hsome j hj
    simp only [hpi, hpj, Option.getD_some] at hij
    subst hij
    have he : endpos t (t.take i) = endpos t (t.take j) :=
      h.endpos_eq_of_reach hpi hpj
    have hmi : i ∈ endpos t (t.take i) :=
      ⟨by omega, List.suffix_refl _⟩
    have hmj : j ∈ endpos t (t.take j) :=
      ⟨by omega, List.suffix_refl _⟩
    rw [he] at hmi
    rw [← he] at hmj
    have h1 : (t.take j).length ≤ i := endpos_length_le hmi
    have h2 : (t.take i).length ≤ j := endpos_length_le hmj
    rw [List.length_take] at h1 h2
    omega
  have hmaps : ∀ i ∈ Finset.range (t.length + 1),
      (fun i => (reach sa (t.take i)).getD 0) i ∈
        Finset.range sa.states.length := by
    intro i hi
    simp only [Finset.mem_range] at hi ⊢
    have : (reach sa (t.take i)).isSome := by
      rw [h.reach_dom]
      exact (List.take_prefix i t).isInfix
    obtain ⟨p, hp⟩ := Option.isSome_iff_exists.mp this
    rw [hp, Option.getD_some]
    exact h.reach_lt _ _ hp
  have := Finset.card_le_card_of_injOn _ hmaps hinj
  simpa using this

/-! ### State-array and association-map helpers -/

theorem lookupA_insertA (m : List (String × Nat)) (k : String) (v : Nat)
    (x : String) :
    lookupA (insertA m k v) x = if x = k then some v else lookupA m x := by
  induction m with
  | nil =>
      unfold insertA lookupA
      by_cases hx : x = k
      · rw [if_pos hx, if_pos hx]
      · rw [if_neg hx, if_neg hx]
        rfl
  | cons kv rest ih =>
      obtain ⟨k2, v2⟩ := kv
      unfold insertA
      by_cases hk : k = k2
      · rw [if_pos hk]
        unfold lookupA
        subst hk
        by_cases hx : x = k
        · rw [if_pos hx, if_pos hx]
        · rw [if_neg hx, if_neg hx, if_neg hx]
      · rw [if_neg hk]
        unfold lookupA
        by_cases hx2 : x = k2
        · rw [if_pos hx2, if_pos hx2, if_neg (by rw [hx2]; exact fun he => hk he.symm)]
        · rw [if_neg hx2, if_neg hx2, ih]

theorem getElem_of_lt {states : List SAState} {i : Nat}
    (h : i < states.length) : ∃ st, states[i]? = some st := by
  rw [List.getElem?_eq_getElem h]
  exact ⟨states[i], rfl⟩

theorem nextOf_eq_of_getElem {states : List SAState} {i : Nat} {st : SAState}
    (h : states[i]? = some st) : nextOf states i = st.next := by
  unfold nextOf
  rw [h]
  rfl

theorem lenOf_eq_of_getElem {states : List SAState} {i : Nat} {st : SAState}
    (h : states[i]? = some st) : lenOf states i = st.len := by
  unfold lenOf
  rw [h]
  rfl

theorem linkOf_eq_of_getElem {states : List SAState} {i : Nat} {st : SAState}
    (h : states[i]? = some st) : linkOf states i = st.link := by
  unfold linkOf
  rw [h]
  rfl

theorem nextOf_set_self {states : List SAState} {i : Nat} {st : SAState}
    (h : i < states.length) : nextOf (states.set i st) i = st.next := by
  unfold nextOf
  rw [List.getElem?_set_self', List.getElem?_eq_getElem h]
  rfl

theorem nextOf_set_ne {states : List SAState} {i j : Nat} {st : SAState}
    (h : i ≠ j) : nextOf (states.set i st) j = nextOf states j := by
  unfold nextOf
  rw [List.getElem?_set_ne h]

theorem lenOf_set_next {states : List SAState} {i : Nat} {st0 : SAState}
    (hget : states[i]? = some st0) (nx : List (String × Nat)) :
    ∀ j, lenOf (states.set i { st0 with next := nx }) j = lenOf states j := by
  intro j
  by_cases hij : i = j
  · subst hij
    unfold lenOf
    rw [List.getElem?_set_self', hget]
    simp
  · unfold lenOf
    rw [List.getElem?_set_ne hij]

theorem linkOf_set_next {states : List SAState} {i : Nat} {st0 : SAState}
    (hget : states[i]? = some st0) (nx : List (String × Nat)) :
    ∀ j, linkOf (states.set i { st0 with next := nx }) j = linkOf states j := by
  intro j
  by_cases hij : i = j
  · subst hij
    unfold linkOf
    rw [List.getElem?_set_self', hget]
    simp
  · unfold linkOf
    rw [List.getElem?_set_ne hij]

theorem getElem_append_left_sa {states : List SAState} {extra : List SAState}
    {i : Nat} (h : i < states.length) :
    (states ++ extra)[i]? = states[i]? := List.getElem?_append_left h

/-! ### The first walk of `extend` along the suffix-link chain -/

theorem suffix_le_suffix {s u v : List String} (hu : u <:+ s) (hv : v <:+ s)
    (hlen : u.length ≤ v.length) : u <:+ v := by
  rcases List.suffix_or_suffix_of_suffix hu hv with h | h
  · exact h
  · rw [h.eq_of_length_le hlen]

/-- Behaviour of the first `extend` walk, characterised against the
invariant: starting from the state of a suffix `s` of `t`, the walk adds
`c`-transitions to `cur` on the states of the suffixes of `s` down to
(not including) the longest suffix `sstar` whose state already has a
`c`-transition, where it stops; when no suffix state has one, it edits
the whole chain and stops past the root. -/
theorem extendWalk_spec {sa : SuffixAutomaton} {t : List String}
    (h : Models sa t) (c : String) (cur : Nat) :
    ∀ (len0 : Nat) (s : List String), s.length ≤ len0 → s <:+ t →
    ∀ (p : Nat), reach sa s = some p →
    ∀ (curStates : List SAState) (fuel : Nat),
      curStates.length = sa.states.length + 1 →
      len0 + 2 ≤ fuel →
      (∀ i, (∃ s2, s2 <:+ s ∧ reach sa s2 = some i) →
        curStates[i]? = sa.states[i]?) →
      ∃ states2 pres,
        extendWalk c cur curStates (some p) fuel = (states2, pres) ∧
        states2.length = curStates.length ∧
        (∀ i, lenOf states2 i = lenOf curStates i) ∧
        (∀ i, linkOf states2 i = linkOf curStates i) ∧
        ((pres = none ∧
          (∀ s2 i, s2 <:+ s → reach sa s2 = some i →
            lookupA (nextOf sa.states i) c = none) ∧
          (∀ i x, lookupA (nextOf states2 i) x =
            if (∃ s2, s2 <:+ s ∧ reach sa s2 = some i) ∧ x = c
            then some cur else lookupA (nextOf curStates i) x)) ∨
         (∃ sstar pstar, sstar <:+ s ∧ reach sa sstar = some pstar ∧
            pres = some pstar ∧
            (lookupA (nextOf sa.states pstar) c).isSome = true ∧
            (∀ s2 i, s2 <:+ s → sstar.length < s2.length →
              reach sa s2 = some i →
              lookupA (nextOf sa.states i) c = none) ∧
            (∀ i x, lookupA (nextOf states2 i) x =
              if (∃ s2, s2 <:+ s ∧ sstar.length < s2.length ∧
                   reach sa s2 = some i) ∧ x = c
              then some cur else lookupA (nextOf curStates i) x))) := by
  intro len0
  induction len0 with
  | zero =>
      intro s hslen hs p hr curStates fuel hcslen hfuel hagree
      have hsnil : s = [] := List.eq_nil_of_length_eq_zero (by omega)
      subst hsnil
      have hp0 : p = 0 := by
        rw [reach_nil] at hr
        injection hr.symm
      subst hp0
      obtain ⟨f, rfl⟩ : ∃ f, fuel = f + 1 := by
        cases fuel with
        | zero => omega
        | succ f => exact ⟨f, rfl⟩
      obtain ⟨st0, hget0⟩ := getElem_of_lt h.zero_lt
      have hagree0 : curStates[0]? = sa.states[0]? :=
        hagree 0 ⟨[], List.suffix_refl _, reach_nil sa⟩
      have hcur0 : curStates[0]? = some st0 := by rw [hagree0, hget0]
      have hnext0 : nextOf sa.states 0 = st0.next := nextOf_eq_of_getElem hget0
      have hnextc0 : nextOf curStates 0 = st0.next := nextOf_eq_of_getElem hcur0
      have hunfold : extendWalk c cur curStates (some 0) (f + 1) =
          (match curStates[0]? with
           | none => (curStates, some 0)
           | some st =>
              if (lookupA st.next c).isSome then (curStates, some 0)
              else extendWalk c cur
                (curStates.set 0 { st with next := insertA st.next c cur })
                st.link f) := rfl
      by_cases hc0 : (lookupA st0.next c).isSome
      · refine ⟨curStates, some 0, ?_, rfl, fun _ => rfl, fun _ => rfl, ?_⟩
        · rw [hunfold, hcur0]
          dsimp only
          rw [if_pos hc0]
        · right
          refine ⟨[], 0, List.suffix_refl _, reach_nil sa, rfl, ?_, ?_, ?_⟩
          · rw [hnext0]
            exact hc0
          · intro s2 i hs2 hlen2 hr2
            rw [List.suffix_nil] at hs2
            subst hs2
            simp at hlen2
          · intro i x
            rw [if_neg]
            rintro ⟨⟨s2, hs2, hlen2, -⟩, -⟩
            rw [List.suffix_nil] at hs2
            subst hs2
            simp at hlen2
      · have hlink0 : st0.link = none := by
          have := h.root_link
          rw [linkOf_eq_of_getElem hget0] at this
          exact this
        obtain ⟨f2, rfl⟩ : ∃ f2, f = f2 + 1 := by
          cases f with
          | zero => omega
          | succ f2 => exact ⟨f2, rfl⟩
        have hres : extendWalk c cur curStates (some 0) (f2 + 1 + 1) =
            (curStates.set 0 { st0 with next := insertA st0.next c cur },
             none) := by
          rw [hunfold, hcur0]
          dsimp only
          rw [if_neg hc0, hlink0]
          rfl
        refine ⟨curStates.set 0 { st0 with next := insertA st0.next c cur },
          none, hres, by simp, ?_, ?_, ?_⟩
        · exact lenOf_set_next hcur0 _
        · exact linkOf_set_next hcur0 _
        · left
          refine ⟨rfl, ?_, ?_⟩
          · intro s2 i hs2 hr2
            rw [List.suffix_nil] at hs2
            subst hs2
            have hi0 : i = 0 := by
              rw [reach_nil] at hr2
              injection hr2.symm
            subst hi0
            rw [hnext0]
            exact Option.not_isSome_iff_eq_none.mp hc0
          · intro i x
            by_cases hi0 : i = 0
            · subst hi0
              rw [nextOf_set_self (by omega), hnextc0]
              show lookupA (insertA st0.next c cur) x = _
              rw [lookupA_insertA]
              by_cases hx : x = c
              · rw [if_pos hx,
                  if_pos ⟨⟨[], List.suffix_refl _, reach_nil sa⟩, hx⟩]
              · rw [if_neg hx, if_neg (fun hh => hx hh.2)]
            · rw [nextOf_set_ne (fun he => hi0 he.symm), if_neg]
              rintro ⟨⟨s2, hs2, hr2⟩, -⟩
              rw [List.suffix_nil] at hs2
              subst hs2
              rw [reach_nil] at hr2
              exact hi0 (by injection hr2.symm)
  | succ n ih =>
      intro s hslen hs p hr curStates fuel hcslen hfuel hagree
      by_cases hsn : s.length ≤ n
      · exact ih s hsn hs p hr curStates fuel hcslen (by omega) hagree
      · -- s.length = n + 1, in particular s ≠ []
        have hp : p < sa.states.length := h.reach_lt _ _ hr
        have hpne : p ≠ 0 := by
          intro hp0
          subst hp0
          have := h.reach_zero_unique hr
          subst this
          simp at hsn
        obtain ⟨f, rfl⟩ : ∃ f, fuel = f + 1 := by
          cases fuel with
          | zero => omega
          | succ f => exact ⟨f, rfl⟩
        obtain ⟨stp, hgetp⟩ := getElem_of_lt hp
        have hagreep : curStates[p]? = sa.states[p]? :=
          hagree p ⟨s, List.suffix_refl _, hr⟩
        have hcurp : curStates[p]? = some stp := by rw [hagreep, hgetp]
        have hnextp : nextOf sa.states p = stp.next := nextOf_eq_of_getElem hgetp
        have hnextcp : nextOf curStates p = stp.next := nextOf_eq_of_getElem hcurp
        have hunfold : extendWalk c cur curStates (some p) (f + 1) =
            (match curStates[p]? with
             | none => (curStates, some p)
             | some st =>
                if (lookupA st.next c).isSome then (curStates, some p)
                else extendWalk c cur
                  (curStates.set p { st with next := insertA st.next c cur })
                  st.link f) := rfl
        by_cases hcp : (lookupA stp.next c).isSome
        · refine ⟨curStates, some p, ?_, rfl, fun _ => rfl, fun _ => rfl, ?_⟩
          · rw [hunfold, hcurp]
            dsimp only
            rw [if_pos hcp]
          · right
            refine ⟨s, p, List.suffix_refl _, hr, rfl, ?_, ?_, ?_⟩
            · rw [hnextp]
              exact hcp
            · intro s2 i hs2 hlen2 hr2
              have := hs2.length_le
              omega
            · intro i x
              rw [if_neg]
              rintro ⟨⟨s2, hs2, hlen2, -⟩, -⟩
              have := hs2.length_le
              omega
        · -- edit p, follow the link
          obtain ⟨lp, hlink, hlp, hlplen, hlpslen, hreachlp, hinterval⟩ :=
            h.link_step hs hr hpne
          have hstlink : stp.link = some lp := by
            rw [linkOf_eq_of_getElem hgetp] at hlink
            exact hlink
          set sminus := s.drop (s.length - lenOf sa.states lp) with hsminus
          have hsminus_suffix : sminus <:+ s := List.drop_suffix _ _
          have hsminus_len : sminus.length = lenOf sa.states lp := by
            rw [hsminus, List.length_drop]
            omega
          set curStates2 :=
            curStates.set p { stp with next := insertA stp.next c cur }
            with hcs2
          have hstep : extendWalk c cur curStates (some p) (f + 1) =
              extendWalk c cur curStates2 (some lp) f := by
            rw [hunfold, hcurp]
            dsimp only
            rw [if_neg hcp, hstlink, hcs2, hstlink]
          -- chain states of sminus are distinct from p
          have hchain_ne_p : ∀ i, (∃ s2, s2 <:+ sminus ∧ reach sa s2 = some i) →
              i ≠ p := by
            rintro i ⟨s2, hs2, hr2⟩ hip
            have hcl3 := h.chain_len_le (hsminus_suffix.trans hs) hs2 hreachlp hr2
            rw [hip] at hcl3
            have := hcl3.1
            omega
          have hagree2 : ∀ i, (∃ s2, s2 <:+ sminus ∧ reach sa s2 = some i) →
              curStates2[i]? = sa.states[i]? := by
            intro i hex
            have hne := hchain_ne_p i hex
            rw [hcs2, List.getElem?_set_ne (fun he => hne he.symm)]
            obtain ⟨s2, hs2, hr2⟩ := hex
            exact hagree i ⟨s2, hs2.trans hsminus_suffix, hr2⟩
          have hlen2cs : curStates2.length = sa.states.length + 1 := by
            rw [hcs2, List.length_set]
            exact hcslen
          have hslen_eq : s.length = n + 1 := by omega
          have hsm_le : sminus.length ≤ n := by
            rw [hsminus_len]
            omega
          obtain ⟨states2, pres, hwalk, hlen3, hlens3, hlinks3, hcase⟩ :=
            ih sminus hsm_le (hsminus_suffix.trans hs) lp hreachlp
              curStates2 f hlen2cs (by omega) hagree2
          have hlen_pres : ∀ j, lenOf curStates2 j = lenOf curStates j := by
            intro j
            rw [hcs2]
            exact lenOf_set_next hcurp _ j
          have hlink_pres : ∀ j, linkOf curStates2 j = linkOf curStates j := by
            intro j
            rw [hcs2]
            exact linkOf_set_next hcurp _ j
          refine ⟨states2, pres, by rw [hstep, hwalk], ?_, ?_, ?_, ?_⟩
          · rw [hlen3, hcs2, List.length_set]
          · intro i
            rw [hlens3 i]
            exact hlen_pres i
          · intro i
            rw [hlinks3 i]
            exact hlink_pres i
          · -- combine the edit at p with the recursive description
            have hsuffix_cases : ∀ s2, s2 <:+ s → s2 = s ∨
                (lenOf sa.states lp < s2.length ∧ s2.length < s.length) ∨
                s2 <:+ sminus := by
              intro s2 hs2
              by_cases hfull : s2.length = s.length
              · exact Or.inl (hs2.eq_of_length hfull)
              · by_cases hlong : lenOf sa.states lp < s2.length
                · exact Or.inr (Or.inl ⟨hlong, by
                    have := hs2.length_le
                    omega⟩)
                · refine Or.inr (Or.inr ?_)
                  apply suffix_le_suffix hs2 hsminus_suffix
                  rw [hsminus_len]
                  omega
            have hclass_p : ∀ s2, s2 <:+ s → lenOf sa.states lp < s2.length →
                reach sa s2 = some p := fun s2 hs2 hl => hinterval s2 hs2 hl
            rcases hcase with ⟨hpres, hnoc, hedit⟩ | hbeta
            · left
              refine ⟨hpres, ?_, ?_⟩
              · intro s2 i hs2 hr2
                rcases hsuffix_cases s2 hs2 with rfl | ⟨hl, -⟩ | hsm
                · have : i = p := by
                    rw [hr] at hr2
                    injection hr2 with he
                    exact he.symm
                  subst this
                  rw [hnextp]
                  exact Option.not_isSome_iff_eq_none.mp hcp
                · have : i = p := by
                    have hcl := hclass_p s2 hs2 hl
                    rw [hcl] at hr2
                    injection hr2 with he
                    exact he.symm
                  subst this
                  rw [hnextp]
                  exact Option.not_isSome_iff_eq_none.mp hcp
                · exact hnoc s2 i hsm hr2
              · intro i x
                rw [hedit i x]
                by_cases hip : i = p
                · subst hip
                  have hnotsm : ¬ ∃ s2, s2 <:+ sminus ∧ reach sa s2 = some i :=
                    fun hex => hchain_ne_p i hex rfl
                  rw [if_neg (fun hh => hnotsm hh.1)]
                  rw [hcs2, nextOf_set_self (by omega)]
                  show lookupA (insertA stp.next c cur) x = _
                  rw [lookupA_insertA, hnextcp]
                  by_cases hx : x = c
                  · rw [if_pos hx,
                      if_pos ⟨⟨s, List.suffix_refl _, hr⟩, hx⟩]
                  · rw [if_neg hx, if_neg (fun hh => hx hh.2)]
                · have hstep2 : lookupA (nextOf curStates2 i) x =
                      lookupA (nextOf curStates i) x := by
                    rw [hcs2, nextOf_set_ne (fun he => hip he.symm)]
                  by_cases hcond : (∃ s2, s2 <:+ sminus ∧
                      reach sa s2 = some i) ∧ x = c
                  · rw [if_pos hcond]
                    obtain ⟨⟨s2, hs2, hr2⟩, hx⟩ := hcond
                    rw [if_pos ⟨⟨s2, hs2.trans hsminus_suffix, hr2⟩, hx⟩]
                  · rw [if_neg hcond, hstep2, if_neg]
                    rintro ⟨⟨s2, hs2, hr2⟩, hx⟩
                    apply hcond
                    refine ⟨⟨s2, ?_, hr2⟩, hx⟩
                    rcases hsuffix_cases s2 hs2 with rfl | ⟨hl, -⟩ | hsm
                    · refine absurd ?_ hip
                      rw [hr] at hr2
                      injection hr2 with he
                      exact he.symm
                    · exfalso
                      apply hip
                      have hcl := hclass_p s2 hs2 hl
                      rw [hcl] at hr2
                      injection hr2 with he
                      exact he.symm
                    · exact hsm
            · obtain ⟨sstar, pstar, hstar_suf, hstar_reach, hpres, hstar_c,
                hstar_max, hedit⟩ := hbeta
              right
              refine ⟨sstar, pstar, hstar_suf.trans hsminus_suffix,
                hstar_reach, hpres, hstar_c, ?_, ?_⟩
              · intro s2 i hs2 hlen2 hr2
                rcases hsuffix_cases s2 hs2 with rfl | ⟨hl, -⟩ | hsm
                · have : i = p := by
                    rw [hr] at hr2
                    injection hr2 with he
                    exact he.symm
                  subst this
                  rw [hnextp]
                  exact Option.not_isSome_iff_eq_none.mp hcp
                · have : i = p := by
                    have hcl := hclass_p s2 hs2 hl
                    rw [hcl] at hr2
                    injection hr2 with he
                    exact he.symm
                  subst this
                  rw [hnextp]
                  exact Option.not_isSome_iff_eq_none.mp hcp
                · exact hstar_max s2 i hsm hlen2 hr2
              · intro i x
                rw [hedit i x]
                by_cases hip : i = p
                · subst hip
                  have hnotsm : ¬ ∃ s2, s2 <:+ sminus ∧
                      sstar.length < s2.length ∧ reach sa s2 = some i := by
                    rintro ⟨s2, hs2, -, hr2⟩
                    exact hchain_ne_p i ⟨s2, hs2, hr2⟩ rfl
                  rw [if_neg (fun hh => hnotsm hh.1)]
                  rw [hcs2, nextOf_set_self (by omega)]
                  show lookupA (insertA stp.next c cur) x = _
                  rw [lookupA_insertA, hnextcp]
                  have hstarlen : sstar.length < s.length := by
                    have h1 := hstar_suf.length_le
                    rw [hsminus_len] at h1
                    omega
                  by_cases hx : x = c
                  · rw [if_pos hx,
                      if_pos ⟨⟨s, List.suffix_refl _, hstarlen, hr⟩, hx⟩]
                  · rw [if_neg hx, if_neg (fun hh => hx hh.2)]
                · have hstep2 : lookupA (nextOf curStates2 i) x =
                      lookupA (nextOf curStates i) x := by
                    rw [hcs2, nextOf_set_ne (fun he => hip he.symm)]
                  by_cases hcond : (∃ s2, s2 <:+ sminus ∧
                      sstar.length < s2.length ∧ reach sa s2 = some i) ∧ x = c
                  · rw [if_pos hcond]
                    obtain ⟨⟨s2, hs2, hl2, hr2⟩, hx⟩ := hcond
                    rw [if_pos ⟨⟨s2, hs2.trans hsminus_suffix, hl2, hr2⟩, hx⟩]
                  · rw [if_neg hcond, hstep2, if_neg]
                    rintro ⟨⟨s2, hs2, hl2, hr2⟩, hx⟩
                    apply hcond
                    refine ⟨⟨s2, ?_, hl2, hr2⟩, hx⟩
                    rcases hsuffix_cases s2 hs2 with rfl | ⟨hl, -⟩ | hsm
                    · refine absurd ?_ hip
                      rw [hr] at hr2
                      injection hr2 with he
                      exact he.symm
                    · exfalso
                      apply hip
                      have hcl := hclass_p s2 hs2 hl
                      rw [hcl] at hr2
                      injection hr2 with he
                      exact he.symm
                    · exact hsm

/-! ### Reach in the extended automaton: new edges into the new state -/

/-- Classification of `reach` after adding `c`-edges into a fresh sink
state `N` on an edit set `E`: old reach values are untouched, and the sink
is reached exactly by `w₁ ++ [c]` where `w₁` reaches an edited state. -/
theorem reach_addCur {sa : SuffixAutomaton} (sa2 : SuffixAutomaton)
    (c : String) (E : Nat → Prop)
    (hNe : ∀ i x, x ≠ c →
      lookupA (nextOf sa2.states i) x = lookupA (nextOf sa.states i) x)
    (hC : ∀ i,
      (E i ∧ lookupA (nextOf sa.states i) c = none ∧
        lookupA (nextOf sa2.states i) c = some sa.states.length) ∨
      (¬ E i ∧ lookupA (nextOf sa2.states i) c =
        lookupA (nextOf sa.states i) c))
    (hElt : ∀ i, E i → i < sa.states.length) :
    ∀ w, reach sa2 w =
      (match reach sa w with
       | some r => some r
       | none =>
           if ∃ w1 e, w = w1 ++ [c] ∧ reach sa w1 = some e ∧ E e
           then some sa.states.length else none) := by
  intro w
  induction w using List.reverseRecOn with
  | nil => rfl
  | append_singleton w x ih =>
      rw [reach_snoc, reach_snoc, ih]
      cases hw : reach sa w with
      | some r =>
          simp only [Option.some_bind]
          by_cases hx : x = c
          · rcases hC r with ⟨hEr, hold, hnew⟩ | ⟨hnEr, hnew⟩
            · have h1 : saStep sa2 r x = some sa.states.length := by
                show lookupA (nextOf sa2.states r) x = _
                rw [hx]; exact hnew
              have h2 : saStep sa r x = none := by
                show lookupA (nextOf sa.states r) x = none
                rw [hx]; exact hold
              rw [h1, h2]
              have hNW : ∃ w1 e, w ++ [x] = w1 ++ [c] ∧
                  reach sa w1 = some e ∧ E e :=
                ⟨w, r, by rw [hx], hw, hEr⟩
              dsimp only
              rw [if_pos hNW]
            · have h2 : saStep sa2 r x = saStep sa r x := by
                show lookupA (nextOf sa2.states r) x =
                  lookupA (nextOf sa.states r) x
                rw [hx]; exact hnew
              rw [h2]
              cases hs : saStep sa r x with
              | some r2 => rfl
              | none =>
                  dsimp only
                  rw [if_neg]
                  rintro ⟨w1, e, heq, hre, hEe⟩
                  obtain ⟨hw1, -⟩ := snoc_inj heq
                  subst hw1
                  rw [hw] at hre
                  injection hre with he
                  exact hnEr (he ▸ hEe)
          · have h2 : saStep sa2 r x = saStep sa r x := hNe r x hx
            rw [h2]
            cases hs : saStep sa r x with
            | some r2 => rfl
            | none =>
                dsimp only
                rw [if_neg]
                rintro ⟨w1, e, heq, hre, hEe⟩
                exact hx (snoc_inj heq).2
      | none =>
          simp only [Option.none_bind]
          have hnot2 : ¬ ∃ w1 e, w ++ [x] = w1 ++ [c] ∧
              reach sa w1 = some e ∧ E e := by
            rintro ⟨w1, e, heq, hre, hEe⟩
            obtain ⟨hw1, -⟩ := snoc_inj heq
            subst hw1
            rw [hw] at hre
            exact absurd hre (by simp)
          by_cases hNW : ∃ w1 e, w = w1 ++ [c] ∧ reach sa w1 = some e ∧ E e
          · rw [if_pos hNW]
            simp only [Option.some_bind]
            have hsink : saStep sa2 sa.states.length x = none := by
              show lookupA (nextOf sa2.states sa.states.length) x = none
              by_cases hx : x = c
              · rcases hC sa.states.length with ⟨hEr, -, -⟩ | ⟨-, hnew⟩
                · exact absurd (hElt _ hEr) (lt_irrefl _)
                · rw [hx, hnew]
                  unfold nextOf
                  rw [List.getElem?_eq_none (le_refl _)]
                  rfl
              · rw [hNe _ x hx]
                unfold nextOf
                rw [List.getElem?_eq_none (le_refl _)]
                rfl
            rw [hsink, if_neg hnot2]
          · rw [if_neg hNW]
            simp only [Option.none_bind]
            rw [if_neg hnot2]

/-- Classification of `reach` after the clone surgery: a fresh sink `N`
reached from edit set `E` by `c`, and a clone `N+1` of `q` that captures
exactly the old walks into `q` whose last step came from the redirected
set `R` by `c`. -/
theorem reach_clone {sa : SuffixAutomaton} (sa3 : SuffixAutomaton)
    (c : String) (q : Nat) (E R : Nat → Prop)
    (hreach_lt : ∀ w r, reach sa w = some r → r < sa.states.length)
    (hNe : ∀ i, i < sa.states.length → ∀ x, x ≠ c →
      lookupA (nextOf sa3.states i) x = lookupA (nextOf sa.states i) x)
    (hC : ∀ i, i < sa.states.length →
      (E i ∧ lookupA (nextOf sa.states i) c = none ∧
        lookupA (nextOf sa3.states i) c = some sa.states.length) ∨
      (R i ∧ lookupA (nextOf sa.states i) c = some q ∧
        lookupA (nextOf sa3.states i) c = some (sa.states.length + 1)) ∨
      (¬ E i ∧ ¬ R i ∧ lookupA (nextOf sa3.states i) c =
        lookupA (nextOf sa.states i) c))
    (hclone : ∀ x, lookupA (nextOf sa3.states (sa.states.length + 1)) x =
      lookupA (nextOf sa3.states q) x)
    (hcur : ∀ x, lookupA (nextOf sa3.states sa.states.length) x = none) :
    ∀ w, reach sa3 w =
      (match reach sa w with
       | some r =>
           if r = q ∧ ∃ w1 e, w = w1 ++ [c] ∧ reach sa w1 = some e ∧ R e
           then some (sa.states.length + 1) else some r
       | none =>
           if ∃ w1 e, w = w1 ++ [c] ∧ reach sa w1 = some e ∧ E e
           then some sa.states.length else none) := by
  intro w
  induction w using List.reverseRecOn with
  | nil =>
      rw [show reach sa ([] : List String) = some 0 from rfl]
      dsimp only
      rw [if_neg]
      · rfl
      · rintro ⟨-, w1, e, heq, -, -⟩
        simp at heq
  | append_singleton w x ih =>
      rw [reach_snoc, reach_snoc, ih]
      cases hw : reach sa w with
      | some r =>
          have key : ∀ s, reach sa w = some s →
              lookupA (nextOf sa3.states s) x =
              (match saStep sa s x with
               | some r2 =>
                   if r2 = q ∧ ∃ w1 e, w ++ [x] = w1 ++ [c] ∧
                       reach sa w1 = some e ∧ R e
                   then some (sa.states.length + 1) else some r2
               | none =>
                   if ∃ w1 e, w ++ [x] = w1 ++ [c] ∧
                       reach sa w1 = some e ∧ E e
                   then some sa.states.length else none) := by
            intro s hws
            have hs_lt := hreach_lt w s hws
            by_cases hx : x = c
            · subst hx
              rcases hC s hs_lt with ⟨hEs, hold, hnew⟩ |
                ⟨hRs, hold, hnew⟩ | ⟨hnE, hnR, hnew⟩
              · rw [hnew, show saStep sa s x = none from hold]
                dsimp only
                rw [if_pos ⟨w, s, rfl, hws, hEs⟩]
              · rw [hnew, show saStep sa s x = some q from hold]
                dsimp only
                rw [if_pos ⟨rfl, w, s, rfl, hws, hRs⟩]
              · rw [hnew]
                show saStep sa s x = _
                cases hs2 : saStep sa s x with
                | some r2 =>
                    dsimp only
                    rw [if_neg]
                    rintro ⟨-, w1, e, heq, hre, hRe⟩
                    obtain ⟨hw1, -⟩ := snoc_inj heq
                    subst hw1
                    rw [hws] at hre
                    injection hre with he
                    exact hnR (he ▸ hRe)
                | none =>
                    dsimp only
                    rw [if_neg]
                    rintro ⟨w1, e, heq, hre, hEe⟩
                    obtain ⟨hw1, -⟩ := snoc_inj heq
                    subst hw1
                    rw [hws] at hre
                    injection hre with he
                    exact hnE (he ▸ hEe)
            · rw [hNe s hs_lt x hx]
              show saStep sa s x = _
              cases hs2 : saStep sa s x with
              | some r2 =>
                  dsimp only
                  rw [if_neg]
                  rintro ⟨-, w1, e, heq, -, -⟩
                  exact hx (snoc_inj heq).2
              | none =>
                  dsimp only
                  rw [if_neg]
                  rintro ⟨w1, e, heq, -, -⟩
                  exact hx (snoc_inj heq).2
          dsimp only
          by_cases hflag : r = q ∧ ∃ w1 e, w = w1 ++ [c] ∧
              reach sa w1 = some e ∧ R e
          · rw [if_pos hflag]
            simp only [Option.some_bind]
            obtain ⟨hrq, -⟩ := hflag
            rw [hrq] at hw ⊢
            show lookupA (nextOf sa3.states (sa.states.length + 1)) x = _
            rw [hclone x]
            exact key q hw
          · rw [if_neg hflag]
            simp only [Option.some_bind]
            exact key r hw
      | none =>
          simp only [Option.none_bind]
          have hnot2 : ¬ ∃ w1 e, w ++ [x] = w1 ++ [c] ∧
              reach sa w1 = some e ∧ E e := by
            rintro ⟨w1, e, heq, hre, hEe⟩
            obtain ⟨hw1, -⟩ := snoc_inj heq
            subst hw1
            rw [hw] at hre
            exact absurd hre (by simp)
          by_cases hNW : ∃ w1 e, w = w1 ++ [c] ∧ reach sa w1 = some e ∧ E e
          · rw [if_pos hNW]
            simp only [Option.some_bind]
            have hsink : saStep sa3 sa.states.length x = none := hcur x
            rw [hsink, if_neg hnot2]
          · rw [if_neg hNW]
            simp only [Option.none_bind]
            rw [if_neg hnot2]

/-! ### The second walk of `extend` (clone case) -/

/-- Behaviour of the redirect walk: from the state of a suffix `s` of `t`
it replaces the `c`-transitions equal to `q` by `clone` along the
suffix-link chain and stops at the first chain state whose `c`-transition
differs from `q`, or redirects the whole chain. It is stated over an
arbitrary state array that agrees with `sa` on lookups and links of the
chain states. -/
theorem redirectWalk_spec {sa : SuffixAutomaton} {t : List String}
    (h : Models sa t) (c : String) (q clone : Nat) :
    ∀ (len0 : Nat) (s : List String), s.length ≤ len0 → s <:+ t →
    ∀ (p : Nat), reach sa s = some p →
    ∀ (curStates : List SAState) (fuel : Nat),
      sa.states.length ≤ curStates.length →
      len0 + 2 ≤ fuel →
      (∀ i, (∃ s2, s2 <:+ s ∧ reach sa s2 = some i) →
        (∀ x, lookupA (nextOf curStates i) x =
          lookupA (nextOf sa.states i) x) ∧
        linkOf curStates i = linkOf sa.states i) →
      ∃ states4,
        redirectWalk c q clone curStates (some p) fuel = states4 ∧
        states4.length = curStates.length ∧
        (∀ i, lenOf states4 i = lenOf curStates i) ∧
        (∀ i, linkOf states4 i = linkOf curStates i) ∧
        (((∀ s2 i, s2 <:+ s → reach sa s2 = some i →
            lookupA (nextOf sa.states i) c = some q) ∧
          (∀ i x, lookupA (nextOf states4 i) x =
            if (∃ s2, s2 <:+ s ∧ reach sa s2 = some i) ∧ x = c
            then some clone else lookupA (nextOf curStates i) x)) ∨
         (∃ sred pred, sred <:+ s ∧ reach sa sred = some pred ∧
            ¬ lookupA (nextOf sa.states pred) c = some q ∧
            (∀ s2 i, s2 <:+ s → sred.length < s2.length →
              reach sa s2 = some i →
              lookupA (nextOf sa.states i) c = some q) ∧
            (∀ i x, lookupA (nextOf states4 i) x =
              if (∃ s2, s2 <:+ s ∧ sred.length < s2.length ∧
                   reach sa s2 = some i) ∧ x = c
              then some clone else lookupA (nextOf curStates i) x))) := by
  intro len0
  induction len0 with
  | zero =>
      intro s hslen hs p hr curStates fuel hcslen hfuel hagree
      have hsnil : s = [] := List.eq_nil_of_length_eq_zero (by omega)
      subst hsnil
      have hp0 : p = 0 := by
        rw [reach_nil] at hr
        injection hr.symm
      subst hp0
      obtain ⟨f, rfl⟩ : ∃ f, fuel = f + 1 := by
        cases fuel with
        | zero => omega
        | succ f => exact ⟨f, rfl⟩
      have h0lt : 0 < curStates.length := lt_of_lt_of_le h.zero_lt hcslen
      obtain ⟨stc, hgetc⟩ := getElem_of_lt h0lt
      have hnextc0 : nextOf curStates 0 = stc.next := nextOf_eq_of_getElem hgetc
      have hagree0 := hagree 0 ⟨[], List.suffix_refl _, reach_nil sa⟩
      have hlc0 : lookupA stc.next c = lookupA (nextOf sa.states 0) c := by
        rw [← hnextc0]
        exact hagree0.1 c
      have hunfold : redirectWalk c q clone curStates (some 0) (f + 1) =
          (match curStates[0]? with
           | none => curStates
           | some st =>
              if lookupA st.next c = some q then
                redirectWalk c q clone
                  (curStates.set 0 { st with next := insertA st.next c clone })
                  st.link f
              else curStates) := rfl
      by_cases hc0 : lookupA (nextOf sa.states 0) c = some q
      · have hlinkc0 : stc.link = none := by
          have h1 : linkOf curStates 0 = stc.link := linkOf_eq_of_getElem hgetc
          rw [hagree0.2, h.root_link] at h1
          exact h1.symm
        obtain ⟨f2, rfl⟩ : ∃ f2, f = f2 + 1 := by
          cases f with
          | zero => omega
          | succ f2 => exact ⟨f2, rfl⟩
        have hres : redirectWalk c q clone curStates (some 0) (f2 + 1 + 1) =
            curStates.set 0 { stc with next := insertA stc.next c clone } := by
          rw [hunfold, hgetc]
          dsimp only
          rw [if_pos (hlc0.trans hc0), hlinkc0]
          rfl
        refine ⟨curStates.set 0 { stc with next := insertA stc.next c clone },
          hres, by simp, lenOf_set_next hgetc _, linkOf_set_next hgetc _, ?_⟩
        left
        refine ⟨?_, ?_⟩
        · intro s2 i hs2 hr2
          rw [List.suffix_nil] at hs2
          subst hs2
          have hi0 : i = 0 := by
            rw [reach_nil] at hr2
            injection hr2.symm
          subst hi0
          exact hc0
        · intro i x
          by_cases hi0 : i = 0
          · subst hi0
            rw [nextOf_set_self h0lt]
            show lookupA (insertA stc.next c clone) x = _
            rw [lookupA_insertA, hnextc0]
            by_cases hx : x = c
            · rw [if_pos hx,
                if_pos ⟨⟨[], List.suffix_refl _, reach_nil sa⟩, hx⟩]
            · rw [if_neg hx, if_neg (fun hh => hx hh.2)]
          · rw [nextOf_set_ne (fun he => hi0 he.symm), if_neg]
            rintro ⟨⟨s2, hs2, hr2⟩, -⟩
            rw [List.suffix_nil] at hs2
            subst hs2
            rw [reach_nil] at hr2
            exact hi0 (by injection hr2.symm)
      · refine ⟨curStates, ?_, rfl, fun _ => rfl, fun _ => rfl, ?_⟩
        · rw [hunfold, hgetc]
          dsimp only
          rw [if_neg (fun hh => hc0 (hlc0.symm.trans hh))]
        · right
          refine ⟨[], 0, List.suffix_refl _, reach_nil sa, hc0, ?_, ?_⟩
          · intro s2 i hs2 hlen2 hr2
            rw [List.suffix_nil] at hs2
            subst hs2
            simp at hlen2
          · intro i x
            rw [if_neg]
            rintro ⟨⟨s2, hs2, hlen2, -⟩, -⟩
            rw [List.suffix_nil] at hs2
            subst hs2
            simp at hlen2
  | succ n ih =>
      intro s hslen hs p hr curStates fuel hcslen hfuel hagree
      by_cases hsn : s.length ≤ n
      · exact ih s hsn hs p hr curStates fuel hcslen (by omega) hagree
      · have hp : p < sa.states.length := h.reach_lt _ _ hr
        have hpne : p ≠ 0 := by
          intro hp0
          subst hp0
          have := h.reach_zero_unique hr
          subst this
          simp at hsn
        obtain ⟨f, rfl⟩ : ∃ f, fuel = f + 1 := by
          cases fuel with
          | zero => omega
          | succ f => exact ⟨f, rfl⟩
        have hplt : p < curStates.length := lt_of_lt_of_le hp hcslen
        obtain ⟨stc, hgetc⟩ := getElem_of_lt hplt
        have hnextcp : nextOf curStates p = stc.next :=
          nextOf_eq_of_getElem hgetc
        have hagreep := hagree p ⟨s, List.suffix_refl _, hr⟩
        have hlcp : lookupA stc.next c = lookupA (nextOf sa.states p) c := by
          rw [← hnextcp]
          exact hagreep.1 c
        have hunfold : redirectWalk c q clone curStates (some p) (f + 1) =
            (match curStates[p]? with
             | none => curStates
             | some st =>
                if lookupA st.next c = some q then
                  redirectWalk c q clone
                    (curStates.set p
                      { st with next := insertA st.next c clone })
                    st.link f
                else curStates) := rfl
        by_cases hcp : lookupA (nextOf sa.states p) c = some q
        · obtain ⟨lp, hlink, hlp, hlplen, hlpslen, hreachlp, hinterval⟩ :=
            h.link_step hs hr hpne
          have hstlink : stc.link = some lp := by
            have h1 : linkOf curStates p = stc.link := linkOf_eq_of_getElem hgetc
            rw [hagreep.2, hlink] at h1
            exact h1.symm
          set sminus := s.drop (s.length - lenOf sa.states lp) with hsminus
          have hsminus_suffix : sminus <:+ s := List.drop_suffix _ _
          have hsminus_len : sminus.length = lenOf sa.states lp := by
            rw [hsminus, List.length_drop]
            omega
          set curStates2 :=
            curStates.set p { stc with next := insertA stc.next c clone }
            with hcs2
          have hstep : redirectWalk c q clone curStates (some p) (f + 1) =
              redirectWalk c q clone curStates2 (some lp) f := by
            rw [hunfold, hgetc]
            dsimp only
            rw [if_pos (hlcp.trans hcp), hstlink, hcs2, hstlink]
          have hchain_ne_p : ∀ i,
              (∃ s2, s2 <:+ sminus ∧ reach sa s2 = some i) → i ≠ p := by
            rintro i ⟨s2, hs2, hr2⟩ hip
            have hcl3 := h.chain_len_le (hsminus_suffix.trans hs) hs2
              hreachlp hr2
            rw [hip] at hcl3
            have := hcl3.1
            omega
          have hagree2 : ∀ i, (∃ s2, s2 <:+ sminus ∧ reach sa s2 = some i) →
              (∀ x, lookupA (nextOf curStates2 i) x =
                lookupA (nextOf sa.states i) x) ∧
              linkOf curStates2 i = linkOf sa.states i := by
            intro i hex
            have hne := hchain_ne_p i hex
            obtain ⟨s2, hs2, hr2⟩ := hex
            have hag := hagree i ⟨s2, hs2.trans hsminus_suffix, hr2⟩
            constructor
            · intro x
              rw [hcs2, nextOf_set_ne (fun he => hne he.symm)]
              exact hag.1 x
            · rw [hcs2, linkOf_set_next hgetc _ i]
              exact hag.2
          have hlen2cs : sa.states.length ≤ curStates2.length := by
            rw [hcs2, List.length_set]
            exact hcslen
          have hsm_le : sminus.length ≤ n := by
            rw [hsminus_len]
            omega
          obtain ⟨states4, hwalk, hlen3, hlens3, hlinks3, hcase⟩ :=
            ih sminus hsm_le (hsminus_suffix.trans hs) lp hreachlp
              curStates2 f hlen2cs (by omega) hagree2
          have hlen_pres : ∀ j, lenOf curStates2 j = lenOf curStates j := by
            intro j
            rw [hcs2]
            exact lenOf_set_next hgetc _ j
          have hlink_pres : ∀ j, linkOf curStates2 j = linkOf curStates j := by
            intro j
            rw [hcs2]
            exact linkOf_set_next hgetc _ j
          refine ⟨states4, by rw [hstep, hwalk], ?_, ?_, ?_, ?_⟩
          · rw [hlen3, hcs2, List.length_set]
          · intro i
            rw [hlens3 i]
            exact hlen_pres i
          · intro i
            rw [hlinks3 i]
            exact hlink_pres i
          · have hsuffix_cases : ∀ s2, s2 <:+ s → s2 = s ∨
                (lenOf sa.states lp < s2.length ∧ s2.length < s.length) ∨
                s2 <:+ sminus := by
              intro s2 hs2
              by_cases hfull : s2.length = s.length
              · exact Or.inl (hs2.eq_of_length hfull)
              · by_cases hlong : lenOf sa.states lp < s2.length
                · exact Or.inr (Or.inl ⟨hlong, by
                    have := hs2.length_le
                    omega⟩)
                · refine Or.inr (Or.inr ?_)
                  apply suffix_le_suffix hs2 hsminus_suffix
                  rw [hsminus_len]
                  omega
            have hclass_p : ∀ s2, s2 <:+ s → lenOf sa.states lp < s2.length →
                reach sa s2 = some p := fun s2 hs2 hl => hinterval s2 hs2 hl
            rcases hcase with ⟨hallq, hedit⟩ | hbeta
            · left
              refine ⟨?_, ?_⟩
              · intro s2 i hs2 hr2
                rcases hsuffix_cases s2 hs2 with rfl | ⟨hl, -⟩ | hsm
                · have : i = p := by
                    rw [hr] at hr2
                    injection hr2 with he
                    exact he.symm
                  subst this
                  exact hcp
                · have : i = p := by
                    have hcl := hclass_p s2 hs2 hl
                    rw [hcl] at hr2
                    injection hr2 with he
                    exact he.symm
                  subst this
                  exact hcp
                · exact hallq s2 i hsm hr2
              · intro i x
                rw [hedit i x]
                by_cases hip : i = p
                · subst hip
                  have hnotsm : ¬ ∃ s2, s2 <:+ sminus ∧ reach sa s2 = some i :=
                    fun hex => hchain_ne_p i hex rfl
                  rw [if_neg (fun hh => hnotsm hh.1)]
                  rw [hcs2, nextOf_set_self hplt]
                  show lookupA (insertA stc.next c clone) x = _
                  rw [lookupA_insertA, hnextcp]
                  by_cases hx : x = c
                  · rw [if_pos hx, if_pos ⟨⟨s, List.suffix_refl _, hr⟩, hx⟩]
                  · rw [if_neg hx, if_neg (fun hh => hx hh.2)]
                · have hstep2 : lookupA (nextOf curStates2 i) x =
                      lookupA (nextOf curStates i) x := by
                    rw [hcs2, nextOf_set_ne (fun he => hip he.symm)]
                  by_cases hcond : (∃ s2, s2 <:+ sminus ∧
                      reach sa s2 = some i) ∧ x = c
                  · rw [if_pos hcond]
                    obtain ⟨⟨s2, hs2, hr2⟩, hx⟩ := hcond
                    rw [if_pos ⟨⟨s2, hs2.trans hsminus_suffix, hr2⟩, hx⟩]
                  · rw [if_neg hcond, hstep2, if_neg]
                    rintro ⟨⟨s2, hs2, hr2⟩, hx⟩
                    apply hcond
                    refine ⟨⟨s2, ?_, hr2⟩, hx⟩
                    rcases hsuffix_cases s2 hs2 with rfl | ⟨hl, -⟩ | hsm
                    · refine absurd ?_ hip
                      rw [hr] at hr2
                      injection hr2 with he
                      exact he.symm
                    · exfalso
                      apply hip
                      have hcl := hclass_p s2 hs2 hl
                      rw [hcl] at hr2
                      injection hr2 with he
                      exact he.symm
                    · exact hsm
            · obtain ⟨sred, pred, hred_suf, hred_reach, hred_ne, hred_max,
                hedit⟩ := hbeta
              right
              refine ⟨sred, pred, hred_suf.trans hsminus_suffix, hred_reach,
                hred_ne, ?_, ?_⟩
              · intro s2 i hs2 hlen2 hr2
                rcases hsuffix_cases s2 hs2 with rfl | ⟨hl, -⟩ | hsm
                · have : i = p := by
                    rw [hr] at hr2
                    injection hr2 with he
                    exact he.symm
                  subst this
                  exact hcp
                · have : i = p := by
                    have hcl := hclass_p s2 hs2 hl
                    rw [hcl] at hr2
                    injection hr2 with he
                    exact he.symm
                  subst this
                  exact hcp
                · exact hred_max s2 i hsm hlen2 hr2
              · intro i x
                rw [hedit i x]
                by_cases hip : i = p
                · subst hip
                  have hnotsm : ¬ ∃ s2, s2 <:+ sminus ∧
                      sred.length < s2.length ∧ reach sa s2 = some i := by
                    rintro ⟨s2, hs2, -, hr2⟩
                    exact hchain_ne_p i ⟨s2, hs2, hr2⟩ rfl
                  rw [if_neg (fun hh => hnotsm hh.1)]
                  rw [hcs2, nextOf_set_self hplt]
                  show lookupA (insertA stc.next c clone) x = _
                  rw [lookupA_insertA, hnextcp]
                  have hredlen : sred.length < s.length := by
                    have h1 := hred_suf.length_le
                    rw [hsminus_len] at h1
                    omega
                  by_cases hx : x = c
                  · rw [if_pos hx,
                      if_pos ⟨⟨s, List.suffix_refl _, hredlen, hr⟩, hx⟩]
                  · rw [if_neg hx, if_neg (fun hh => hx hh.2)]
                · have hstep2 : lookupA (nextOf curStates2 i) x =
                      lookupA (nextOf curStates i) x := by
                    rw [hcs2, nextOf_set_ne (fun he => hip he.symm)]
                  by_cases hcond : (∃ s2, s2 <:+ sminus ∧
                      sred.length < s2.length ∧ reach sa s2 = some i) ∧ x = c
                  · rw [if_pos hcond]
                    obtain ⟨⟨s2, hs2, hl2, hr2⟩, hx⟩ := hcond
                    rw [if_pos ⟨⟨s2, hs2.trans hsminus_suffix, hl2, hr2⟩, hx⟩]
                  · rw [if_neg hcond, hstep2, if_neg]
                    rintro ⟨⟨s2, hs2, hl2, hr2⟩, hx⟩
                    apply hcond
                    refine ⟨⟨s2, ?_, hl2, hr2⟩, hx⟩
                    rcases hsuffix_cases s2 hs2 with rfl | ⟨hl, -⟩ | hsm
                    · refine absurd ?_ hip
                      rw [hr] at hr2
                      injection hr2 with he
                      exact he.symm
                    · exfalso
                      apply hip
                      have hcl := hclass_p s2 hs2 hl
                      rw [hcl] at hr2
                      injection hr2 with he
                      exact he.symm
                    · exact hsm
        · refine ⟨curStates, ?_, rfl, fun _ => rfl, fun _ => rfl, ?_⟩
          · rw [hunfold, hgetc]
            dsimp only
            rw [if_neg (fun hh => hcp (hlcp.symm.trans hh))]
          · right
            refine ⟨s, p, List.suffix_refl _, hr, hcp, ?_, ?_⟩
            · intro s2 i hs2 hlen2 hr2
              have := hs2.length_le
              omega
            · intro i x
              rw [if_neg]
              rintro ⟨⟨s2, hs2, hlen2, -⟩, -⟩
              have := hs2.length_le
              omega

/-! ### Projection helpers for `withState` and appended states -/

theorem nextOf_append_left {l l2 : List SAState} {i : Nat}
    (h : i < l.length) : nextOf (l ++ l2) i = nextOf l i := by
  unfold nextOf
  rw [List.getElem?_append_left h]

theorem lenOf_append_left {l l2 : List SAState} {i : Nat}
    (h : i < l.length) : lenOf (l ++ l2) i = lenOf l i := by
  unfold lenOf
  rw [List.getElem?_append_left h]

theorem linkOf_append_left {l l2 : List SAState} {i : Nat}
    (h : i < l.length) : linkOf (l ++ l2) i = linkOf l i := by
  unfold linkOf
  rw [List.getElem?_append_left h]

theorem nextOf_concat_self (l : List SAState) (st : SAState) :
    nextOf (l ++ [st]) l.length = st.next := by
  unfold nextOf
  rw [List.getElem?_concat_length]
  rfl

theorem lenOf_concat_self (l : List SAState) (st : SAState) :
    lenOf (l ++ [st]) l.length = st.len := by
  unfold lenOf
  rw [List.getElem?_concat_length]
  rfl

theorem linkOf_concat_self (l : List SAState) (st : SAState) :
    linkOf (l ++ [st]) l.length = st.link := by
  unfold linkOf
  rw [List.getElem?_concat_length]
  rfl

theorem nextOf_out {states : List SAState} {i : Nat}
    (h : states.length ≤ i) : nextOf states i = [] := by
  unfold nextOf
  rw [List.getElem?_eq_none h]
  rfl

theorem lt_of_getElem?_some {states : List SAState} {i : Nat} {st : SAState}
    (h : states[i]? = some st) : i < states.length := by
  by_contra hc
  rw [List.getElem?_eq_none (by omega)] at h
  exact absurd h (by simp)

theorem withState_link_nextOf (sts : List SAState) (i : Nat) (l : Option Nat)
    (j : Nat) :
    nextOf (withState sts i (fun st => { st with link := l })) j =
      nextOf sts j := by
  unfold withState
  cases hg : sts[i]? with
  | none => rfl
  | some st =>
      by_cases hij : i = j
      · subst hij
        rw [nextOf_set_self (lt_of_getElem?_some hg), nextOf_eq_of_getElem hg]
      · rw [nextOf_set_ne hij]

theorem withState_link_lenOf (sts : List SAState) (i : Nat) (l : Option Nat)
    (j : Nat) :
    lenOf (withState sts i (fun st => { st with link := l })) j =
      lenOf sts j := by
  unfold withState
  cases hg : sts[i]? with
  | none => rfl
  | some st =>
      by_cases hij : i = j
      · subst hij
        unfold lenOf
        rw [List.getElem?_set_self', hg]
        simp
      · unfold lenOf
        rw [List.getElem?_set_ne hij]

theorem withState_link_linkOf_self {sts : List SAState} {i : Nat}
    (l : Option Nat) (h : i < sts.length) :
    linkOf (withState sts i (fun st => { st with link := l })) i = l := by
  obtain ⟨st, hg⟩ := getElem_of_lt h
  unfold withState
  rw [hg]
  unfold linkOf
  rw [List.getElem?_set_self', hg]
  simp

theorem withState_link_linkOf_ne {sts : List SAState} {i j : Nat}
    (l : Option Nat) (h : i ≠ j) :
    linkOf (withState sts i (fun st => { st with link := l })) j =
      linkOf sts j := by
  unfold withState
  cases hg : sts[i]? with
  | none => rfl
  | some st =>
      unfold linkOf
      rw [List.getElem?_set_ne h]

theorem withState_length2 (sts : List SAState) (i : Nat)
    (f : SAState → SAState) : (withState sts i f).length = sts.length := by
  unfold withState
  cases hg : sts[i]? with
  | none => rfl
  | some st => exact List.length_set sts i (f st)

/-! ### `endpos` of a word extended by one chunk -/

theorem mem_endpos_snoc_iff {t : List String} {c : String} {u : List String}
    {i : Nat} :
    i ∈ endpos (t ++ [c]) u ↔
      i ∈ endpos t u ∨ (u <:+ t ++ [c] ∧ i = t.length + 1) := by
  rw [endpos_snoc, Set.mem_union]
  apply or_congr Iff.rfl
  split_ifs with hs
  · simp [hs]
  · simp [hs]

theorem top_mem_endpos_snoc_iff {t : List String} {c : String}
    {u : List String} :
    t.length + 1 ∈ endpos (t ++ [c]) u ↔ u <:+ t ++ [c] := by
  rw [mem_endpos_snoc_iff]
  constructor
  · rintro (hmem | ⟨hs, -⟩)
    · have := hmem.1
      omega
    · exact hs
  · intro hs
    exact Or.inr ⟨hs, rfl⟩

theorem low_mem_endpos_snoc_iff {t : List String} {c : String}
    {u : List String} {i : Nat} (hi : i ≤ t.length) :
    i ∈ endpos (t ++ [c]) u ↔ i ∈ endpos t u := by
  rw [mem_endpos_snoc_iff]
  constructor
  · rintro (hmem | ⟨-, htop⟩)
    · exact hmem
    · omega
  · exact Or.inl

theorem endpos_snoc_eq_iff {t : List String} {c : String}
    {u v : List String} :
    endpos (t ++ [c]) u = endpos (t ++ [c]) v ↔
      (endpos t u = endpos t v ∧ (u <:+ t ++ [c] ↔ v <:+ t ++ [c])) := by
  constructor
  · intro heq
    refine ⟨Set.ext fun i => ?_, ?_⟩
    · by_cases hi : i ≤ t.length
      · rw [← low_mem_endpos_snoc_iff (c := c) hi, heq,
          low_mem_endpos_snoc_iff hi]
      · constructor
        · intro hmem
          exact absurd hmem.1 (by omega)
        · intro hmem
          exact absurd hmem.1 (by omega)
    · rw [← top_mem_endpos_snoc_iff (c := c) (u := u), heq,
        top_mem_endpos_snoc_iff]
  · rintro ⟨he, hsuf⟩
    ext i
    rw [mem_endpos_snoc_iff, mem_endpos_snoc_iff, he, hsuf]

/-! ### More facts derived from the invariant -/

/-- Every string in the class of a suffix of `t` is itself a suffix. -/
theorem Models.suffix_of_class {sa : SuffixAutomaton} {t : List String}
    (h : Models sa t) {s2 w1 : List String} {i : Nat}
    (hs2 : s2 <:+ t) (hr2 : reach sa s2 = some i)
    (hr1 : reach sa w1 = some i) : w1 <:+ t := by
  have he := h.endpos_eq_of_reach hr1 hr2
  rw [← length_mem_endpos_iff, he, length_mem_endpos_iff]
  exact hs2

/-- A suffix squeezed between two class members is in the class. -/
theorem Models.suffix_sandwich {sa : SuffixAutomaton} {t : List String}
    (h : Models sa t) {u v s3 : List String} {i : Nat}
    (hu : u <:+ t) (hv : v <:+ t) (h3 : s3 <:+ t)
    (hru : reach sa u = some i) (hrv : reach sa v = some i)
    (h1 : u.length ≤ s3.length) (h2 : s3.length ≤ v.length) :
    reach sa s3 = some i := by
  have hus3 : u <:+ s3 := suffix_le_suffix hu h3 h1
  have hs3v : s3 <:+ v := suffix_le_suffix h3 hv h2
  have he : endpos t v = endpos t u := h.endpos_eq_of_reach hrv hru
  have h4 : endpos t s3 = endpos t u := endpos_squeeze hus3 hs3v he
  have h5 : reach sa s3 = reach sa u :=
    (h.class_eq s3 u (h3.isInfix) (hu.isInfix)).mpr h4
  rw [h5, hru]

/-! ### Re-establishing the invariant: extension without a clone -/

/-- When `extend` adds only the sink state `N = sa.states.length`
(no clone), the invariant carries over to `t ++ [c]`.  `lv` is the
length threshold: suffixes of `t` of length at least `lv` step into the
sink by `c`, strictly shorter ones keep their old `c`-transition; the
sink is linked to `lnew`, the class of the length-`lv` suffix of
`t ++ [c]`. -/
theorem models_addCur {sa : SuffixAutomaton} {t : List String}
    (h : Models sa t) (c : String) (sa2 : SuffixAutomaton) (lv lnew : Nat)
    (hlen2 : sa2.states.length = sa.states.length + 1)
    (hlast2 : sa2.last = sa.states.length)
    (hreach : ∀ w, reach sa2 w =
      (match reach sa w with
       | some r => some r
       | none =>
           if ∃ w1, w = w1 ++ [c] ∧ w1 <:+ t ∧ lv ≤ w1.length
           then some sa.states.length else none))
    (hlen_old : ∀ i, i < sa.states.length →
      lenOf sa2.states i = lenOf sa.states i)
    (hlen_new : lenOf sa2.states sa.states.length = t.length + 1)
    (hlink_old : ∀ i, i < sa.states.length →
      linkOf sa2.states i = linkOf sa.states i)
    (hlink_new : linkOf sa2.states sa.states.length = some lnew)
    (hlv : lv ≤ t.length)
    (hno : ∀ w1, w1 <:+ t → lv ≤ w1.length → reach sa (w1 ++ [c]) = none)
    (hyes : ∀ w1, w1 <:+ t → w1.length < lv →
      (reach sa (w1 ++ [c])).isSome = true)
    (hb_reach : reach sa ((t ++ [c]).drop (t.length + 1 - lv)) = some lnew)
    (hb_len : lenOf sa.states lnew = lv) :
    Models sa2 (t ++ [c]) := by
  have hlnew_lt : lnew < sa.states.length := h.reach_lt _ _ hb_reach
  set b := (t ++ [c]).drop (t.length + 1 - lv) with hbdef
  have hb_suffix : b <:+ t ++ [c] := List.drop_suffix _ _
  have hb_length : b.length = lv := by
    rw [hbdef, List.length_drop, List.length_append, List.length_singleton]
    omega
  have hb_infix : b <:+: t := h.infix_of_reach hb_reach
  have hold_reach : ∀ w r, reach sa w = some r → reach sa2 w = some r := by
    intro w r hr
    rw [hreach w, hr]
  have hnew_reach : ∀ w1, w1 <:+ t → lv ≤ w1.length →
      reach sa2 (w1 ++ [c]) = some sa.states.length := by
    intro w1 hs hl
    rw [hreach (w1 ++ [c]), hno w1 hs hl]
    dsimp only
    rw [if_pos ⟨w1, rfl, hs, hl⟩]
  have hcases : ∀ w r, reach sa2 w = some r →
      reach sa w = some r ∨
      (r = sa.states.length ∧ reach sa w = none ∧
        ∃ w1, w = w1 ++ [c] ∧ w1 <:+ t ∧ lv ≤ w1.length) := by
    intro w r hr
    rw [hreach w] at hr
    cases hw : reach sa w with
    | some r2 =>
        rw [hw] at hr
        dsimp only at hr
        injection hr with he
        exact Or.inl (by rw [he])
    | none =>
        rw [hw] at hr
        dsimp only at hr
        by_cases hNW : ∃ w1, w = w1 ++ [c] ∧ w1 <:+ t ∧ lv ≤ w1.length
        · rw [if_pos hNW] at hr
          injection hr with he
          exact Or.inr ⟨he.symm, rfl, hNW⟩
        · rw [if_neg hNW] at hr
          exact absurd hr (by simp)
  have hub : ∀ u, u <:+: t → u <:+ t ++ [c] → u <:+ b := by
    intro u hinf hsuf
    by_cases hul : u.length ≤ lv
    · exact suffix_le_suffix hsuf hb_suffix (by omega)
    · exfalso
      rcases (suffix_snoc_iff t c u).mp hsuf with rfl | ⟨s, hs, rfl⟩
      · simp at hul
      · have hlen : lv ≤ s.length := by
          rw [List.length_append, List.length_singleton] at hul
          omega
        have hnone := hno s hs hlen
        have h2 : (reach sa (s ++ [c])).isSome := by
          rw [h.reach_dom]
          exact hinf
        rw [hnone] at h2
        exact absurd h2 (by simp)
  have hbu : ∀ u, u <:+ b → u <:+ t ++ [c] := fun u hu => hu.trans hb_suffix
  have hb_inv : ∀ u v r, reach sa u = some r → reach sa v = some r →
      u <:+ b → v <:+ b := by
    intro u v r hru hrv hub2
    obtain ⟨j, hj⟩ := (infix_iff_endpos_nonempty t b).mp hb_infix
    have hsub : endpos t b ⊆ endpos t u := endpos_mono hub2 t
    have huv : endpos t u = endpos t v := h.endpos_eq_of_reach hru hrv
    have hjv : j ∈ endpos t v := by
      rw [← huv]
      exact hsub hj
    by_cases hvl : v.length ≤ b.length
    · exact suffix_of_endpos_mem hjv hj hvl
    · exfalso
      have hbv : b <:+ v := suffix_of_endpos_mem hj hjv (by omega)
      have hsub2 : endpos t v ⊆ endpos t b := endpos_mono hbv t
      have heq : endpos t v = endpos t b := by
        apply Set.Subset.antisymm hsub2
        rw [huv] at hsub
        exact hsub
      have hclass : reach sa v = reach sa b :=
        (h.class_eq v b (h.infix_of_reach hrv) hb_infix).mpr heq
      rw [hrv, hb_reach] at hclass
      injection hclass with he
      subst he
      have hmax := h.len_max v r hrv
      rw [hb_len] at hmax
      omega
  have hdom : ∀ w, (reach sa2 w).isSome ↔ w <:+: t ++ [c] := by
    intro w
    rw [hreach w]
    cases hw : reach sa w with
    | some r =>
        dsimp only
        constructor
        · intro _
          exact (h.infix_of_reach hw).trans ⟨[], [c], by simp⟩
        · intro _
          rfl
    | none =>
        dsimp only
        by_cases hNW : ∃ w1, w = w1 ++ [c] ∧ w1 <:+ t ∧ lv ≤ w1.length
        · rw [if_pos hNW]
          obtain ⟨w1, rfl, hs, hl⟩ := hNW
          constructor
          · intro _
            exact ((suffix_snoc_iff t c _).mpr (Or.inr ⟨w1, hs, rfl⟩)).isInfix
          · intro _
            rfl
        · rw [if_neg hNW]
          constructor
          · intro habs
            exact absurd habs (by simp)
          · intro hinf
            exfalso
            rcases (infix_snoc_iff t c w).mp hinf with hinft | hsuf
            · have h2 : (reach sa w).isSome := (h.reach_dom w).mpr hinft
              rw [hw] at h2
              exact absurd h2 (by simp)
            · rcases (suffix_snoc_iff t c w).mp hsuf with rfl | ⟨s, hs, rfl⟩
              · rw [reach_nil] at hw
                exact absurd hw (by simp)
              · by_cases hsl : lv ≤ s.length
                · exact hNW ⟨s, rfl, hs, hsl⟩
                · have h2 := hyes s hs (by omega)
                  rw [hw] at h2
                  exact absurd h2 (by simp)
  have hreach_last2 : reach sa2 (t ++ [c]) = some sa.states.length :=
    hnew_reach t (List.suffix_refl t) hlv
  have hclass : ∀ u v, u <:+: t ++ [c] → v <:+: t ++ [c] →
      (reach sa2 u = reach sa2 v ↔
        endpos (t ++ [c]) u = endpos (t ++ [c]) v) := by
    intro u v hu hv
    obtain ⟨pu, hpu⟩ := Option.isSome_iff_exists.mp ((hdom u).mpr hu)
    obtain ⟨pv, hpv⟩ := Option.isSome_iff_exists.mp ((hdom v).mpr hv)
    rw [hpu, hpv]
    rcases hcases u pu hpu with hru | ⟨hpuN, hru, w1, hwu, hw1, hl1⟩
    · rcases hcases v pv hpv with hrv | ⟨hpvN, hrv, v1, hwv, hv1, hl2⟩
      · rw [endpos_snoc_eq_iff]
        constructor
        · intro he
          injection he with he2
          subst he2
          refine ⟨(h.class_eq u v (h.infix_of_reach hru)
            (h.infix_of_reach hrv)).mp (by rw [hru, hrv]), ?_⟩
          constructor
          · intro hus
            exact hbu v
              (hb_inv u v pu hru hrv (hub u (h.infix_of_reach hru) hus))
          · intro hvs
            exact hbu u
              (hb_inv v u pu hrv hru (hub v (h.infix_of_reach hrv) hvs))
        · rintro ⟨he, -⟩
          have h2 := (h.class_eq u v (h.infix_of_reach hru)
            (h.infix_of_reach hrv)).mpr he
          rw [hru, hrv] at h2
          injection h2 with he2
          rw [he2]
      · have hpuN : pu < sa.states.length := h.reach_lt _ _ hru
        constructor
        · intro he
          injection he with he2
          omega
        · intro he
          exfalso
          obtain ⟨j, hj⟩ := (infix_iff_endpos_nonempty t u).mp
            (h.infix_of_reach hru)
          have hjle : j ≤ t.length := hj.1
          have hj2 : j ∈ endpos (t ++ [c]) u :=
            (low_mem_endpos_snoc_iff hjle).mpr hj
          rw [he] at hj2
          have hj3 : j ∈ endpos t v :=
            (low_mem_endpos_snoc_iff hjle).mp hj2
          have hinf : v <:+: t := by
            rw [infix_iff_endpos_nonempty]
            exact ⟨j, hj3⟩
          have h4 : (reach sa v).isSome := (h.reach_dom _).mpr hinf
          rw [hrv] at h4
          exact absurd h4 (by simp)
    · rcases hcases v pv hpv with hrv | ⟨hpvN, hrv, v1, hwv, hv1, hl2⟩
      · have hpvN : pv < sa.states.length := h.reach_lt _ _ hrv
        constructor
        · intro he
          injection he with he2
          omega
        · intro he
          exfalso
          obtain ⟨j, hj⟩ := (infix_iff_endpos_nonempty t v).mp
            (h.infix_of_reach hrv)
          have hjle : j ≤ t.length := hj.1
          have hj2 : j ∈ endpos (t ++ [c]) v :=
            (low_mem_endpos_snoc_iff hjle).mpr hj
          rw [← he] at hj2
          have hj3 : j ∈ endpos t u :=
            (low_mem_endpos_snoc_iff hjle).mp hj2
          have hinf : u <:+: t := by
            rw [infix_iff_endpos_nonempty]
            exact ⟨j, hj3⟩
          have h4 : (reach sa u).isSome := (h.reach_dom _).mpr hinf
          rw [hru] at h4
          exact absurd h4 (by simp)
      · subst hpuN
        subst hpvN
        constructor
        · intro _
          rw [endpos_snoc_eq_iff]
          have heu : endpos t u = ∅ := by
            rw [← Set.not_nonempty_iff_eq_empty, ← infix_iff_endpos_nonempty]
            intro hinf
            have h2 := (h.reach_dom _).mpr hinf
            rw [hru] at h2
            exact absurd h2 (by simp)
          have hev : endpos t v = ∅ := by
            rw [← Set.not_nonempty_iff_eq_empty, ← infix_iff_endpos_nonempty]
            intro hinf
            have h2 := (h.reach_dom _).mpr hinf
            rw [hrv] at h2
            exact absurd h2 (by simp)
          refine ⟨by rw [heu, hev], ?_⟩
          constructor
          · intro _
            rw [hwv]
            exact (suffix_snoc_iff t c _).mpr (Or.inr ⟨v1, hv1, rfl⟩)
          · intro _
            rw [hwu]
            exact (suffix_snoc_iff t c _).mpr (Or.inr ⟨w1, hw1, rfl⟩)
        · intro _
          rfl
  have hlt : ∀ w p, reach sa2 w = some p → p < sa2.states.length := by
    intro w p hr
    rw [hlen2]
    rcases hcases w p hr with hrw | ⟨hpe, -, -⟩
    · have := h.reach_lt _ _ hrw
      omega
    · omega
  have hlen_max : ∀ w p, reach sa2 w = some p →
      w.length ≤ lenOf sa2.states p := by
    intro w p hr
    rcases hcases w p hr with hrw | ⟨hpe, -, w1, hwe, hw1, -⟩
    · rw [hlen_old p (h.reach_lt _ _ hrw)]
      exact h.len_max w p hrw
    · subst hpe
      rw [hlen_new, hwe, List.length_append, List.length_singleton]
      have := hw1.length_le
      omega
  have hlen_wit : ∀ p, p < sa2.states.length →
      ∃ v, reach sa2 v = some p ∧ v.length = lenOf sa2.states p := by
    intro p hp
    rw [hlen2] at hp
    by_cases hpN : p < sa.states.length
    · obtain ⟨v, hv, hvl⟩ := h.len_wit p hpN
      exact ⟨v, hold_reach v p hv, by rw [hlen_old p hpN]; exact hvl⟩
    · have hpe : p = sa.states.length := by omega
      subst hpe
      refine ⟨t ++ [c], hreach_last2, ?_⟩
      rw [hlen_new, List.length_append, List.length_singleton]
  have hpos_len : ∀ p, p < sa2.states.length → p ≠ 0 →
      0 < lenOf sa2.states p := by
    intro p hp hp0
    rw [hlen2] at hp
    by_cases hpN : p < sa.states.length
    · rw [hlen_old p hpN]
      exact h.pos_len p hpN hp0
    · have hpe : p = sa.states.length := by omega
      subst hpe
      rw [hlen_new]
      omega
  have hlink_spec : ∀ p, p < sa2.states.length → p ≠ 0 →
      ∃ lp, linkOf sa2.states p = some lp ∧ lp < sa2.states.length ∧
        lenOf sa2.states lp < lenOf sa2.states p ∧
        ∀ v, reach sa2 v = some p →
          lenOf sa2.states lp < v.length ∧
          reach sa2 (v.drop (v.length - lenOf sa2.states lp)) = some lp ∧
          ∀ k, lenOf sa2.states lp < k → k ≤ v.length →
            reach sa2 (v.drop (v.length - k)) = some p := by
    intro p hp hp0
    rw [hlen2] at hp
    by_cases hpN : p < sa.states.length
    · obtain ⟨lp, hl1, hl2, hl3, hl4⟩ := h.link_spec p hpN hp0
      refine ⟨lp, by rw [hlink_old p hpN]; exact hl1, by rw [hlen2]; omega,
        by rw [hlen_old lp hl2, hlen_old p hpN]; exact hl3, ?_⟩
      intro v hv
      rcases hcases v p hv with hrv | ⟨hpe, -, -⟩
      · obtain ⟨hm1, hm2, hm3⟩ := hl4 v hrv
        refine ⟨by rw [hlen_old lp hl2]; exact hm1, ?_, ?_⟩
        · rw [hlen_old lp hl2]
          exact hold_reach _ _ hm2
        · intro k hk1 hk2
          rw [hlen_old lp hl2] at hk1
          exact hold_reach _ _ (hm3 k hk1 hk2)
      · omega
    · have hpe : p = sa.states.length := by omega
      subst hpe
      have hlnew2 : lenOf sa2.states lnew = lv := by
        rw [hlen_old lnew hlnew_lt]
        exact hb_len
      refine ⟨lnew, hlink_new, by rw [hlen2]; omega, ?_, ?_⟩
      · rw [hlnew2, hlen_new]
        omega
      · intro v hv
        rcases hcases v _ hv with hrv | ⟨-, -, v1, hve, hv1, hlv1⟩
        · exfalso
          have := h.reach_lt _ _ hrv
          omega
        · subst hve
          have hvlen : (v1 ++ [c]).length = v1.length + 1 := by
            rw [List.length_append, List.length_singleton]
          refine ⟨?_, ?_, ?_⟩
          · rw [hlnew2, hvlen]
            omega
          · rw [hlnew2]
            have hd1 : (v1 ++ [c]).drop ((v1 ++ [c]).length - lv) <:+
                t ++ [c] :=
              (List.drop_suffix _ _).trans
                ((suffix_snoc_iff t c _).mpr (Or.inr ⟨v1, hv1, rfl⟩))
            have hd2 : ((v1 ++ [c]).drop ((v1 ++ [c]).length - lv)).length
                = lv := by
              rw [List.length_drop, hvlen]
              omega
            have hdb : (v1 ++ [c]).drop ((v1 ++ [c]).length - lv) = b :=
              suffix_eq_of_length hd1 hb_suffix (by rw [hd2, hb_length])
            rw [hdb]
            exact hold_reach _ _ hb_reach
          · intro k hk1 hk2
            rw [hlnew2] at hk1
            have hsuf : (v1 ++ [c]).drop ((v1 ++ [c]).length - k) <:+
                v1 ++ [c] := List.drop_suffix _ _
            have hdl : ((v1 ++ [c]).drop ((v1 ++ [c]).length - k)).length
                = k := by
              rw [List.length_drop]
              omega
            rcases (suffix_snoc_iff v1 c _).mp hsuf with hnil | ⟨s, hs, hse⟩
            · rw [hnil] at hdl
              simp at hdl
              omega
            · rw [hse]
              apply hnew_reach s (hs.trans hv1)
              rw [hse, List.length_append, List.length_singleton] at hdl
              omega
  exact { last_lt := by rw [hlast2, hlen2]; omega
          zero_lt := by rw [hlen2]; omega
          root_len := by rw [hlen_old 0 h.zero_lt]; exact h.root_len
          root_link := by rw [hlink_old 0 h.zero_lt]; exact h.root_link
          reach_dom := hdom
          reach_lt := hlt
          reach_last := by rw [hlast2]; exact hreach_last2
          class_eq := hclass
          len_max := hlen_max
          len_wit := hlen_wit
          pos_len := hpos_len
          link_spec := hlink_spec }

/-! ### Re-establishing the invariant: extension with a clone -/

/-- When `extend` clones `q` (reached from the longest suffix `sstar`
with a `c`-transition, with `len q > |sstar| + 1`), the invariant carries
over to `t ++ [c]`: the clone `N+1` takes over the members of class `q`
of length at most `|sstar| + 1`, the sink `N` takes the suffixes longer
than `|sstar| + 1`, and everything else is untouched. -/
theorem models_clone {sa : SuffixAutomaton} {t : List String}
    (h : Models sa t) (c : String) (sa3 : SuffixAutomaton)
    (sstar : List String) (q : Nat)
    (hsstar : sstar <:+ t)
    (hsstar_lt : sstar.length < t.length)
    (hqstep : reach sa (sstar ++ [c]) = some q)
    (hqlen : sstar.length + 1 < lenOf sa.states q)
    (hlen3 : sa3.states.length = sa.states.length + 2)
    (hlast3 : sa3.last = sa.states.length)
    (hreach : ∀ w, reach sa3 w =
      (match reach sa w with
       | some r =>
           if r = q ∧ ∃ w1, w = w1 ++ [c] ∧ w1 <:+ t ∧
               w1.length ≤ sstar.length
           then some (sa.states.length + 1) else some r
       | none =>
           if ∃ w1, w = w1 ++ [c] ∧ w1 <:+ t ∧ sstar.length < w1.length
           then some sa.states.length else none))
    (hlen_old : ∀ i, i < sa.states.length →
      lenOf sa3.states i = lenOf sa.states i)
    (hlen_cur : lenOf sa3.states sa.states.length = t.length + 1)
    (hlen_clone : lenOf sa3.states (sa.states.length + 1) =
      sstar.length + 1)
    (hlink_old : ∀ i, i < sa.states.length → i ≠ q →
      linkOf sa3.states i = linkOf sa.states i)
    (hlink_q : linkOf sa3.states q = some (sa.states.length + 1))
    (hlink_cur : linkOf sa3.states sa.states.length =
      some (sa.states.length + 1))
    (hlink_clone : linkOf sa3.states (sa.states.length + 1) =
      linkOf sa.states q)
    (hno : ∀ w1, w1 <:+ t → sstar.length < w1.length →
      reach sa (w1 ++ [c]) = none)
    (hyes : ∀ w1, w1 <:+ t → w1.length ≤ sstar.length →
      (reach sa (w1 ++ [c])).isSome = true) :
    Models sa3 (t ++ [c]) := by
  have hq_lt : q < sa.states.length := h.reach_lt _ _ hqstep
  have hq0 : q ≠ 0 := by
    intro h0
    rw [h0, h.root_len] at hqlen
    omega
  obtain ⟨lq, hlq_link, hlq_lt, hlq_len, hlq_mem⟩ := h.link_spec q hq_lt hq0
  have hlq_len2 : lenOf sa.states lq ≤ sstar.length := by
    have := (hlq_mem (sstar ++ [c]) hqstep).1
    rw [List.length_append, List.length_singleton] at this
    omega
  have hold_reach : ∀ w r, reach sa w = some r →
      ¬ (r = q ∧ ∃ w1, w = w1 ++ [c] ∧ w1 <:+ t ∧
        w1.length ≤ sstar.length) →
      reach sa3 w = some r := by
    intro w r hr hflag
    rw [hreach w, hr]
    dsimp only
    rw [if_neg hflag]
  have hclone_reach : ∀ w, reach sa w = some q →
      (∃ w1, w = w1 ++ [c] ∧ w1 <:+ t ∧ w1.length ≤ sstar.length) →
      reach sa3 w = some (sa.states.length + 1) := by
    intro w hr hsred
    rw [hreach w, hr]
    dsimp only
    rw [if_pos ⟨rfl, hsred⟩]
  have hcur_reach : ∀ w1, w1 <:+ t → sstar.length < w1.length →
      reach sa3 (w1 ++ [c]) = some sa.states.length := by
    intro w1 hs hl
    rw [hreach (w1 ++ [c]), hno w1 hs hl]
    dsimp only
    rw [if_pos ⟨w1, rfl, hs, hl⟩]
  have hcases : ∀ w r, reach sa3 w = some r →
      (reach sa w = some r ∧ ¬ (r = q ∧ ∃ w1, w = w1 ++ [c] ∧ w1 <:+ t ∧
        w1.length ≤ sstar.length)) ∨
      (r = sa.states.length + 1 ∧ reach sa w = some q ∧
        ∃ w1, w = w1 ++ [c] ∧ w1 <:+ t ∧ w1.length ≤ sstar.length) ∨
      (r = sa.states.length ∧ reach sa w = none ∧
        ∃ w1, w = w1 ++ [c] ∧ w1 <:+ t ∧ sstar.length < w1.length) := by
    intro w r hr
    rw [hreach w] at hr
    cases hw : reach sa w with
    | some r2 =>
        rw [hw] at hr
        dsimp only at hr
        by_cases hflag : r2 = q ∧ ∃ w1, w = w1 ++ [c] ∧ w1 <:+ t ∧
            w1.length ≤ sstar.length
        · rw [if_pos hflag] at hr
          injection hr with he
          exact Or.inr (Or.inl ⟨he.symm, by rw [hflag.1], hflag.2⟩)
        · rw [if_neg hflag] at hr
          injection hr with he
          refine Or.inl ⟨by rw [he], ?_⟩
          rw [← he]
          exact hflag
    | none =>
        rw [hw] at hr
        dsimp only at hr
        by_cases hNW : ∃ w1, w = w1 ++ [c] ∧ w1 <:+ t ∧
            sstar.length < w1.length
        · rw [if_pos hNW] at hr
          injection hr with he
          exact Or.inr (Or.inr ⟨he.symm, rfl, hNW⟩)
        · rw [if_neg hNW] at hr
          exact absurd hr (by simp)
  have hq_small_SRED : ∀ v, reach sa v = some q → v.length ≤
      sstar.length + 1 →
      ∃ w1, v = w1 ++ [c] ∧ w1 <:+ t ∧ w1.length ≤ sstar.length := by
    intro v hrv hvl
    have hvs : v <:+ sstar ++ [c] := h.member_suffix hrv hqstep (by
      rw [List.length_append, List.length_singleton]
      omega)
    rcases (suffix_snoc_iff sstar c v).mp hvs with rfl | ⟨s, hs, rfl⟩
    · rw [reach_nil] at hrv
      injection hrv with he
      exact absurd he.symm hq0
    · exact ⟨s, rfl, hs.trans hsstar, hs.length_le⟩
  have hSRED_len : ∀ (v : List String) w1, v = w1 ++ [c] →
      w1.length ≤ sstar.length → v.length ≤ sstar.length + 1 := by
    intro v w1 hve hl
    rw [hve, List.length_append, List.length_singleton]
    omega
  have hq_large : ∀ v, reach sa v = some q →
      ¬ (∃ w1, v = w1 ++ [c] ∧ w1 <:+ t ∧ w1.length ≤ sstar.length) →
      sstar.length + 1 < v.length := by
    intro v hrv hns
    by_contra hc
    exact hns (hq_small_SRED v hrv (by omega))
  have hb_suffix : sstar ++ [c] <:+ t ++ [c] :=
    (suffix_snoc_iff t c _).mpr (Or.inr ⟨sstar, hsstar, rfl⟩)
  have hb_infix : sstar ++ [c] <:+: t := h.infix_of_reach hqstep
  have hb_length : (sstar ++ [c]).length = sstar.length + 1 := by
    rw [List.length_append, List.length_singleton]
  have hub : ∀ u, u <:+: t → u <:+ t ++ [c] → u <:+ sstar ++ [c] := by
    intro u hinf hsuf
    by_cases hul : u.length ≤ sstar.length + 1
    · exact suffix_le_suffix hsuf hb_suffix (by omega)
    · exfalso
      rcases (suffix_snoc_iff t c u).mp hsuf with rfl | ⟨s, hs, rfl⟩
      · simp at hul
      · have hlen : sstar.length < s.length := by
          rw [List.length_append, List.length_singleton] at hul
          omega
        have hnone := hno s hs hlen
        have h2 : (reach sa (s ++ [c])).isSome := by
          rw [h.reach_dom]
          exact hinf
        rw [hnone] at h2
        exact absurd h2 (by simp)
  have hbu : ∀ u, u <:+ sstar ++ [c] → u <:+ t ++ [c] :=
    fun u hu => hu.trans hb_suffix
  have hb_inv : ∀ u v r, reach sa u = some r → reach sa v = some r →
      r ≠ q → u <:+ sstar ++ [c] → v <:+ sstar ++ [c] := by
    intro u v r hru hrv hrq hub2
    obtain ⟨j, hj⟩ := (infix_iff_endpos_nonempty t _).mp hb_infix
    have hsub : endpos t (sstar ++ [c]) ⊆ endpos t u := endpos_mono hub2 t
    have huv : endpos t u = endpos t v := h.endpos_eq_of_reach hru hrv
    have hjv : j ∈ endpos t v := by
      rw [← huv]
      exact hsub hj
    by_cases hvl : v.length ≤ (sstar ++ [c]).length
    · exact suffix_of_endpos_mem hjv hj hvl
    · exfalso
      have hbv : sstar ++ [c] <:+ v := suffix_of_endpos_mem hj hjv (by omega)
      have hsub2 : endpos t v ⊆ endpos t (sstar ++ [c]) := endpos_mono hbv t
      have heq : endpos t v = endpos t (sstar ++ [c]) := by
        apply Set.Subset.antisymm hsub2
        rw [huv] at hsub
        exact hsub
      have hclass : reach sa v = reach sa (sstar ++ [c]) :=
        (h.class_eq v _ (h.infix_of_reach hrv) hb_infix).mpr heq
      rw [hrv, hqstep] at hclass
      injection hclass with he
      exact hrq he
  have hOq_nosuf : ∀ u, reach sa u = some q →
      ¬ (∃ w1, u = w1 ++ [c] ∧ w1 <:+ t ∧ w1.length ≤ sstar.length) →
      ¬ u <:+ t ++ [c] := by
    intro u hru hnf hsuf
    rcases (suffix_snoc_iff t c u).mp hsuf with rfl | ⟨s, hs, rfl⟩
    · rw [reach_nil] at hru
      injection hru with he
      exact hq0 he.symm
    · by_cases hsl : s.length ≤ sstar.length
      · exact hnf ⟨s, rfl, hs, hsl⟩
      · have := hno s hs (by omega)
        rw [this] at hru
        exact absurd hru (by simp)
  have hdom : ∀ w, (reach sa3 w).isSome ↔ w <:+: t ++ [c] := by
    intro w
    rw [hreach w]
    cases hw : reach sa w with
    | some r =>
        dsimp only
        constructor
        · intro _
          exact (h.infix_of_reach hw).trans ⟨[], [c], by simp⟩
        · intro _
          split_ifs with hflag
          · rfl
          · rfl
    | none =>
        dsimp only
        by_cases hNW : ∃ w1, w = w1 ++ [c] ∧ w1 <:+ t ∧
            sstar.length < w1.length
        · rw [if_pos hNW]
          obtain ⟨w1, rfl, hs, hl⟩ := hNW
          constructor
          · intro _
            exact ((suffix_snoc_iff t c _).mpr (Or.inr ⟨w1, hs, rfl⟩)).isInfix
          · intro _
            rfl
        · rw [if_neg hNW]
          constructor
          · intro habs
            exact absurd habs (by simp)
          · intro hinf
            exfalso
            rcases (infix_snoc_iff t c w).mp hinf with hinft | hsuf
            · have h2 : (reach sa w).isSome := (h.reach_dom w).mpr hinft
              rw [hw] at h2
              exact absurd h2 (by simp)
            · rcases (suffix_snoc_iff t c w).mp hsuf with rfl | ⟨s, hs, rfl⟩
              · rw [reach_nil] at hw
                exact absurd hw (by simp)
              · by_cases hsl : sstar.length < s.length
                · exact hNW ⟨s, rfl, hs, hsl⟩
                · have h2 := hyes s hs (by omega)
                  rw [hw] at h2
                  exact absurd h2 (by simp)
  have hreach_none_t' : reach sa (t ++ [c]) = none := by
    cases hw : reach sa (t ++ [c]) with
    | none => rfl
    | some r =>
        have := (h.infix_of_reach hw).length_le
        rw [List.length_append, List.length_singleton] at this
        omega
  have hreach_last3 : reach sa3 (t ++ [c]) = some sa.states.length := by
    rw [hreach (t ++ [c]), hreach_none_t']
    dsimp only
    rw [if_pos ⟨t, rfl, List.suffix_refl t, hsstar_lt⟩]
  have hrestrict : ∀ u v, endpos (t ++ [c]) u = endpos (t ++ [c]) v →
      endpos t u = endpos t v := fun u v he => (endpos_snoc_eq_iff.mp he).1
  have hW_empty : ∀ u, reach sa u = none → endpos t u = ∅ := by
    intro u hru
    rw [← Set.not_nonempty_iff_eq_empty, ← infix_iff_endpos_nonempty]
    intro hinf
    have h2 := (h.reach_dom _).mpr hinf
    rw [hru] at h2
    exact absurd h2 (by simp)
  have hne_of_classes : ∀ u v ru rv, reach sa u = some ru →
      reach sa v = some rv → ru ≠ rv →
      ¬ endpos (t ++ [c]) u = endpos (t ++ [c]) v := by
    intro u v ru rv hru hrv hne he
    have h2 := (h.class_eq u v (h.infix_of_reach hru)
      (h.infix_of_reach hrv)).mpr (hrestrict u v he)
    rw [hru, hrv] at h2
    injection h2 with h3
    exact hne h3
  have hne_of_empty : ∀ u v ru, reach sa u = some ru →
      reach sa v = none → ¬ endpos (t ++ [c]) u = endpos (t ++ [c]) v := by
    intro u v ru hru hrv he
    obtain ⟨j, hj⟩ := (infix_iff_endpos_nonempty t u).mp
      (h.infix_of_reach hru)
    have hjle : j ≤ t.length := hj.1
    have hj2 : j ∈ endpos (t ++ [c]) u :=
      (low_mem_endpos_snoc_iff hjle).mpr hj
    rw [he] at hj2
    have hj3 : j ∈ endpos t v := (low_mem_endpos_snoc_iff hjle).mp hj2
    rw [hW_empty v hrv] at hj3
    exact absurd hj3 (Set.not_mem_empty j)
  have hclass : ∀ u v, u <:+: t ++ [c] → v <:+: t ++ [c] →
      (reach sa3 u = reach sa3 v ↔
        endpos (t ++ [c]) u = endpos (t ++ [c]) v) := by
    intro u v hu hv
    obtain ⟨pu, hpu⟩ := Option.isSome_iff_exists.mp ((hdom u).mpr hu)
    obtain ⟨pv, hpv⟩ := Option.isSome_iff_exists.mp ((hdom v).mpr hv)
    rw [hpu, hpv]
    rcases hcases u pu hpu with ⟨hru, hfu⟩ |
      ⟨hpuC, hru, u1, hue, hu1, hul⟩ | ⟨hpuW, hru, u1, hue, hu1, hul⟩
    · rcases hcases v pv hpv with ⟨hrv, hfv⟩ |
        ⟨hpvC, hrv, v1, hve, hv1, hvl⟩ | ⟨hpvW, hrv, v1, hve, hv1, hvl⟩
      · -- O-O
        rw [endpos_snoc_eq_iff]
        constructor
        · intro he
          injection he with he2
          subst he2
          refine ⟨(h.class_eq u v (h.infix_of_reach hru)
            (h.infix_of_reach hrv)).mp (by rw [hru, hrv]), ?_⟩
          by_cases hpq : pu = q
          · subst hpq
            constructor
            · intro hus
              exact absurd hus (hOq_nosuf u hru (fun hsr => hfu ⟨rfl, hsr⟩))
            · intro hvs
              exact absurd hvs (hOq_nosuf v hrv (fun hsr => hfv ⟨rfl, hsr⟩))
          · constructor
            · intro hus
              exact hbu v (hb_inv u v pu hru hrv hpq
                (hub u (h.infix_of_reach hru) hus))
            · intro hvs
              exact hbu u (hb_inv v u pu hrv hru hpq
                (hub v (h.infix_of_reach hrv) hvs))
        · rintro ⟨he, -⟩
          have h2 := (h.class_eq u v (h.infix_of_reach hru)
            (h.infix_of_reach hrv)).mpr he
          rw [hru, hrv] at h2
          injection h2 with he2
          rw [he2]
      · -- O-C
        have hpuN : pu < sa.states.length := h.reach_lt _ _ hru
        constructor
        · intro he
          injection he with he2
          omega
        · intro he
          exfalso
          by_cases hpq : pu = q
          · subst hpq
            have hvs : v <:+ t ++ [c] := by
              rw [hve]
              exact (suffix_snoc_iff t c _).mpr (Or.inr ⟨v1, hv1, rfl⟩)
            have htop : (t.length + 1) ∈ endpos (t ++ [c]) v :=
              top_mem_endpos_snoc_iff.mpr hvs
            rw [← he] at htop
            exact hOq_nosuf u hru (fun hsr => hfu ⟨rfl, hsr⟩)
              (top_mem_endpos_snoc_iff.mp htop)
          · exact hne_of_classes u v pu q hru hrv hpq he
      · -- O-W
        have hpuN : pu < sa.states.length := h.reach_lt _ _ hru
        constructor
        · intro he
          injection he with he2
          omega
        · intro he
          exact absurd he (hne_of_empty u v pu hru hrv)
    · rcases hcases v pv hpv with ⟨hrv, hfv⟩ |
        ⟨hpvC, hrv, v1, hve, hv1, hvl⟩ | ⟨hpvW, hrv, v1, hve, hv1, hvl⟩
      · -- C-O
        have hpvN : pv < sa.states.length := h.reach_lt _ _ hrv
        constructor
        · intro he
          injection he with he2
          omega
        · intro he
          exfalso
          by_cases hpq : pv = q
          · subst hpq
            have hus : u <:+ t ++ [c] := by
              rw [hue]
              exact (suffix_snoc_iff t c _).mpr (Or.inr ⟨u1, hu1, rfl⟩)
            have htop : (t.length + 1) ∈ endpos (t ++ [c]) u :=
              top_mem_endpos_snoc_iff.mpr hus
            rw [he] at htop
            exact hOq_nosuf v hrv (fun hsr => hfv ⟨rfl, hsr⟩)
              (top_mem_endpos_snoc_iff.mp htop)
          · exact hne_of_classes u v q pv hru hrv
              (fun h2 => hpq h2.symm) he
      · -- C-C
        subst hpuC
        subst hpvC
        constructor
        · intro _
          rw [endpos_snoc_eq_iff]
          refine ⟨(h.class_eq u v (h.infix_of_reach hru)
            (h.infix_of_reach hrv)).mp (by rw [hru, hrv]), ?_⟩
          constructor
          · intro _
            rw [hve]
            exact (suffix_snoc_iff t c _).mpr (Or.inr ⟨v1, hv1, rfl⟩)
          · intro _
            rw [hue]
            exact (suffix_snoc_iff t c _).mpr (Or.inr ⟨u1, hu1, rfl⟩)
        · intro _
          rfl
      · -- C-W
        subst hpuC
        subst hpvW
        constructor
        · intro he
          injection he with he2
          omega
        · intro he
          exact absurd he (hne_of_empty u v q hru hrv)
    · rcases hcases v pv hpv with ⟨hrv, hfv⟩ |
        ⟨hpvC, hrv, v1, hve, hv1, hvl⟩ | ⟨hpvW, hrv, v1, hve, hv1, hvl⟩
      · -- W-O
        subst hpuW
        constructor
        · intro he
          injection he with he2
          have := h.reach_lt _ _ hrv
          omega
        · intro he
          exact absurd he.symm (hne_of_empty v u pv hrv hru)
      · -- W-C
        subst hpuW
        subst hpvC
        constructor
        · intro he
          injection he with he2
          omega
        · intro he
          exact absurd he.symm (hne_of_empty v u q hrv hru)
      · -- W-W
        subst hpuW
        subst hpvW
        constructor
        · intro _
          rw [endpos_snoc_eq_iff]
          refine ⟨by rw [hW_empty u hru, hW_empty v hrv], ?_⟩
          constructor
          · intro _
            rw [hve]
            exact (suffix_snoc_iff t c _).mpr (Or.inr ⟨v1, hv1, rfl⟩)
          · intro _
            rw [hue]
            exact (suffix_snoc_iff t c _).mpr (Or.inr ⟨u1, hu1, rfl⟩)
        · intro _
          rfl
  have hlt : ∀ w p, reach sa3 w = some p → p < sa3.states.length := by
    intro w p hr
    rw [hlen3]
    rcases hcases w p hr with ⟨hrw, -⟩ | ⟨hpe, -, -⟩ | ⟨hpe, -, -⟩
    · have := h.reach_lt _ _ hrw
      omega
    · omega
    · omega
  have hlen_max : ∀ w p, reach sa3 w = some p →
      w.length ≤ lenOf sa3.states p := by
    intro w p hr
    rcases hcases w p hr with ⟨hrw, -⟩ | ⟨hpe, hrw, w1, hwe, -, hwl⟩ |
      ⟨hpe, -, w1, hwe, hw1, -⟩
    · rw [hlen_old p (h.reach_lt _ _ hrw)]
      exact h.len_max w p hrw
    · subst hpe
      rw [hlen_clone]
      exact hSRED_len w w1 hwe hwl
    · subst hpe
      rw [hlen_cur, hwe, List.length_append, List.length_singleton]
      have := hw1.length_le
      omega
  have hclone_wit : reach sa3 (sstar ++ [c]) =
      some (sa.states.length + 1) :=
    hclone_reach _ hqstep ⟨sstar, rfl, hsstar, le_refl _⟩
  have hlen_wit : ∀ p, p < sa3.states.length →
      ∃ v, reach sa3 v = some p ∧ v.length = lenOf sa3.states p := by
    intro p hp
    rw [hlen3] at hp
    by_cases hpN : p < sa.states.length
    · obtain ⟨v, hv, hvl⟩ := h.len_wit p hpN
      refine ⟨v, hold_reach v p hv ?_, by rw [hlen_old p hpN]; exact hvl⟩
      rintro ⟨rfl, w1, hve, -, hwl⟩
      have := hSRED_len v w1 hve hwl
      omega
    · by_cases hpe : p = sa.states.length
      · subst hpe
        refine ⟨t ++ [c], hreach_last3, ?_⟩
        rw [hlen_cur, List.length_append, List.length_singleton]
      · have hpe2 : p = sa.states.length + 1 := by omega
        subst hpe2
        exact ⟨sstar ++ [c], hclone_wit, by rw [hlen_clone, hb_length]⟩
  have hpos_len : ∀ p, p < sa3.states.length → p ≠ 0 →
      0 < lenOf sa3.states p := by
    intro p hp hp0
    rw [hlen3] at hp
    by_cases hpN : p < sa.states.length
    · rw [hlen_old p hpN]
      exact h.pos_len p hpN hp0
    · by_cases hpe : p = sa.states.length
      · subst hpe
        rw [hlen_cur]
        omega
      · have hpe2 : p = sa.states.length + 1 := by omega
        subst hpe2
        rw [hlen_clone]
        omega
  have hlink_spec : ∀ p, p < sa3.states.length → p ≠ 0 →
      ∃ lp, linkOf sa3.states p = some lp ∧ lp < sa3.states.length ∧
        lenOf sa3.states lp < lenOf sa3.states p ∧
        ∀ v, reach sa3 v = some p →
          lenOf sa3.states lp < v.length ∧
          reach sa3 (v.drop (v.length - lenOf sa3.states lp)) = some lp ∧
          ∀ k, lenOf sa3.states lp < k → k ≤ v.length →
            reach sa3 (v.drop (v.length - k)) = some p := by
    intro p hp hp0
    rw [hlen3] at hp
    by_cases hpN : p < sa.states.length
    · by_cases hpq : p = q
      · -- the split class q: new link is the clone
        subst hpq
        refine ⟨sa.states.length + 1, hlink_q, by rw [hlen3]; omega, ?_, ?_⟩
        · rw [hlen_clone, hlen_old _ hpN]
          omega
        · intro v hv
          rcases hcases v _ hv with ⟨hrv, hfv⟩ | ⟨hpe, -, -⟩ | ⟨hpe, -, -⟩
          · have hvlarge : sstar.length + 1 < v.length :=
              hq_large v hrv (fun hsr => hfv ⟨rfl, hsr⟩)
            refine ⟨by rw [hlen_clone]; omega, ?_, ?_⟩
            · rw [hlen_clone]
              have hbv : sstar ++ [c] <:+ v := h.member_suffix hqstep hrv
                (by rw [hb_length]; omega)
              have hdv : v.drop (v.length - (sstar.length + 1)) =
                  sstar ++ [c] := by
                apply suffix_eq_of_length (List.drop_suffix _ _) hbv
                rw [List.length_drop, hb_length]
                omega
              rw [hdv]
              exact hclone_wit
            · intro k hk1 hk2
              rw [hlen_clone] at hk1
              obtain ⟨-, -, hint⟩ := hlq_mem v hrv
              have hrk : reach sa (v.drop (v.length - k)) = some p :=
                hint k (by omega) hk2
              apply hold_reach _ _ hrk
              rintro ⟨-, w1, hde, -, hwl⟩
              have h2 := hSRED_len _ w1 hde hwl
              rw [List.length_drop] at h2
              omega
          · omega
          · omega
      · -- untouched old class
        obtain ⟨lp, hl1, hl2, hl3, hl4⟩ := h.link_spec p hpN hp0
        refine ⟨lp, by rw [hlink_old p hpN hpq]; exact hl1,
          by rw [hlen3]; omega,
          by rw [hlen_old lp hl2, hlen_old p hpN]; exact hl3, ?_⟩
        intro v hv
        rcases hcases v p hv with ⟨hrv, -⟩ | ⟨hpe, -, -⟩ | ⟨hpe, -, -⟩
        · obtain ⟨hm1, hm2, hm3⟩ := hl4 v hrv
          refine ⟨by rw [hlen_old lp hl2]; exact hm1, ?_, ?_⟩
          · rw [hlen_old lp hl2]
            apply hold_reach _ _ hm2
            rintro ⟨rfl, w1, hde, -, hwl⟩
            have h2 := hSRED_len _ w1 hde hwl
            rw [List.length_drop] at h2
            omega
          · intro k hk1 hk2
            rw [hlen_old lp hl2] at hk1
            apply hold_reach _ _ (hm3 k hk1 hk2)
            rintro ⟨hpq2, -⟩
            exact hpq hpq2
        · omega
        · omega
    · by_cases hpe : p = sa.states.length
      · -- the sink: link is the clone
        subst hpe
        refine ⟨sa.states.length + 1, hlink_cur, by rw [hlen3]; omega, ?_, ?_⟩
        · rw [hlen_clone, hlen_cur]
          omega
        · intro v hv
          rcases hcases v _ hv with ⟨hrv, -⟩ | ⟨hpe2, -, -⟩ |
            ⟨-, -, v1, hve, hv1, hvl⟩
          · exfalso
            have := h.reach_lt _ _ hrv
            omega
          · omega
          · subst hve
            have hvlen : (v1 ++ [c]).length = v1.length + 1 := by
              rw [List.length_append, List.length_singleton]
            refine ⟨?_, ?_, ?_⟩
            · rw [hlen_clone, hvlen]
              omega
            · rw [hlen_clone]
              have hd1 : (v1 ++ [c]).drop ((v1 ++ [c]).length -
                  (sstar.length + 1)) <:+ t ++ [c] :=
                (List.drop_suffix _ _).trans
                  ((suffix_snoc_iff t c _).mpr (Or.inr ⟨v1, hv1, rfl⟩))
              have hdb : (v1 ++ [c]).drop ((v1 ++ [c]).length -
                  (sstar.length + 1)) = sstar ++ [c] := by
                apply suffix_eq_of_length hd1 hb_suffix
                rw [List.length_drop, hvlen, hb_length]
                omega
              rw [hdb]
              exact hclone_wit
            · intro k hk1 hk2
              rw [hlen_clone] at hk1
              have hsuf2 : (v1 ++ [c]).drop ((v1 ++ [c]).length - k) <:+
                  v1 ++ [c] := List.drop_suffix _ _
              have hdl : ((v1 ++ [c]).drop ((v1 ++ [c]).length - k)).length
                  = k := by
                rw [List.length_drop]
                omega
              rcases (suffix_snoc_iff v1 c _).mp hsuf2 with hnil |
                ⟨s, hs, hse⟩
              · rw [hnil] at hdl
                simp at hdl
                omega
              · rw [hse]
                apply hcur_reach s (hs.trans hv1)
                rw [hse, List.length_append, List.length_singleton] at hdl
                omega
      · -- the clone: link is the old link of q
        have hpe2 : p = sa.states.length + 1 := by omega
        subst hpe2
        refine ⟨lq, by rw [hlink_clone]; exact hlq_link,
          by rw [hlen3]; omega, ?_, ?_⟩
        · rw [hlen_clone, hlen_old lq hlq_lt]
          omega
        · intro v hv
          rcases hcases v _ hv with ⟨hrv, hfv⟩ |
            ⟨-, hrv, w1, hve, hw1, hwl⟩ | ⟨hpe2, -, -⟩
          · exfalso
            have := h.reach_lt _ _ hrv
            omega
          · obtain ⟨hm1, hm2, hm3⟩ := hlq_mem v hrv
            refine ⟨by rw [hlen_old lq hlq_lt]; exact hm1, ?_, ?_⟩
            · rw [hlen_old lq hlq_lt]
              apply hold_reach _ _ hm2
              rintro ⟨heq, -⟩
              rw [heq] at hlq_len
              omega
            · intro k hk1 hk2
              rw [hlen_old lq hlq_lt] at hk1
              have hrk : reach sa (v.drop (v.length - k)) = some q :=
                hm3 k hk1 hk2
              apply hclone_reach _ hrk
              apply hq_small_SRED _ hrk
              rw [List.length_drop]
              have hvs := hSRED_len v w1 hve hwl
              omega
          · omega
  exact { last_lt := by rw [hlast3, hlen3]; omega
          zero_lt := by rw [hlen3]; omega
          root_len := by rw [hlen_old 0 h.zero_lt]; exact h.root_len
          root_link := by
            rw [hlink_old 0 h.zero_lt (fun h0 => hq0 h0.symm)]
            exact h.root_link
          reach_dom := hdom
          reach_lt := hlt
          reach_last := by rw [hlast3]; exact hreach_last3
          class_eq := hclass
          len_max := hlen_max
          len_wit := hlen_wit
          pos_len := hpos_len
          link_spec := hlink_spec }

/-! ### Bridging facts for `extend` -/

theorem suffix_append_single {w1 s : List String} (hws : w1 <:+ s)
    (c : String) : w1 ++ [c] <:+ s ++ [c] := by
  obtain ⟨p, hp⟩ := hws
  exact ⟨p, by rw [← hp, List.append_assoc]⟩

/-- If no strictly longer suffix shares the class of the suffix `sstar`,
then `sstar` is the longest member of its class. -/
theorem Models.len_of_top_suffix_class {sa : SuffixAutomaton}
    {t : List String} (h : Models sa t) {sstar : List String} {pstar : Nat}
    (hs : sstar <:+ t) (hr : reach sa sstar = some pstar)
    (hnotE : ∀ s2, s2 <:+ t → sstar.length < s2.length →
      reach sa s2 ≠ some pstar) :
    lenOf sa.states pstar = sstar.length := by
  have h1 := h.len_max sstar pstar hr
  obtain ⟨v, hv, hvl⟩ := h.len_wit pstar (h.reach_lt _ _ hr)
  have hvt : v <:+ t := h.suffix_of_class hs hr hv
  by_cases hc : sstar.length < v.length
  · exact absurd hv (hnotE v hvt hc)
  · omega

/-- Members of classes of suffixes longer than `sstar` are themselves
suffixes longer than `sstar` (provided `sstar`'s class has no longer
suffix). -/
theorem Models.long_class_conv {sa : SuffixAutomaton} {t : List String}
    (h : Models sa t) {sstar : List String} {pstar : Nat}
    (hs : sstar <:+ t) (hr : reach sa sstar = some pstar)
    (hnotE : ∀ s2, s2 <:+ t → sstar.length < s2.length →
      reach sa s2 ≠ some pstar) :
    ∀ w1 e, reach sa w1 = some e →
      (∃ s2, s2 <:+ t ∧ sstar.length < s2.length ∧
        reach sa s2 = some e) →
      w1 <:+ t ∧ sstar.length < w1.length := by
  rintro w1 e hre ⟨s2, hs2, hl2, hr2⟩
  have hw1t : w1 <:+ t := h.suffix_of_class hs2 hr2 hre
  refine ⟨hw1t, ?_⟩
  by_contra hc
  have hsand := h.suffix_sandwich hw1t hs2 hs hre hr2 (by omega)
    (by omega)
  rw [hr] at hsand
  injection hsand with he
  exact hnotE s2 hs2 hl2 (by rw [hr2, ← he])

/-- Monotonicity down the suffix-link chain: below a chain state whose
`c`-transition is not `q`, no suffix steps into `q` by `c`. -/
theorem Models.redirect_mono {sa : SuffixAutomaton} {t : List String}
    (h : Models sa t) (c : String) {sstar sred w1 : List String}
    {pred q : Nat}
    (hss : sstar <:+ t) (hqstep : reach sa (sstar ++ [c]) = some q)
    (hred : sred <:+ sstar) (hrr : reach sa sred = some pred)
    (hne : ¬ lookupA (nextOf sa.states pred) c = some q)
    (hw1 : w1 <:+ t) (hlen : w1.length ≤ sred.length)
    (hq : reach sa (w1 ++ [c]) = some q) : False := by
  have hws : w1 <:+ sred :=
    suffix_le_suffix hw1 (hred.trans hss) hlen
  have h1 : w1 ++ [c] <:+ sred ++ [c] := suffix_append_single hws c
  have h2 : sred ++ [c] <:+ sstar ++ [c] := suffix_append_single hred c
  have he : endpos t (sstar ++ [c]) = endpos t (w1 ++ [c]) :=
    h.endpos_eq_of_reach hqstep hq
  have hsq : endpos t (sred ++ [c]) = endpos t (w1 ++ [c]) :=
    endpos_squeeze h1 h2 he
  have hinf : sred ++ [c] <:+: t := by
    rw [infix_iff_endpos_nonempty, hsq, ← infix_iff_endpos_nonempty]
    exact h.infix_of_reach hq
  have hclass : reach sa (sred ++ [c]) = reach sa (w1 ++ [c]) :=
    (h.class_eq _ _ hinf (h.infix_of_reach hq)).mpr hsq
  rw [hq, reach_snoc, hrr] at hclass
  exact hne hclass

/-- Lookups in `sa.states` extended by a state with no transitions. -/
theorem lookup_states1 (sa : SuffixAutomaton) (cs : SAState)
    (hnx : cs.next = []) : ∀ i x,
    lookupA (nextOf (sa.states ++ [cs]) i) x =
      lookupA (nextOf sa.states i) x := by
  intro i x
  rcases lt_trichotomy i sa.states.length with hi | hi | hi
  · rw [nextOf_append_left hi]
  · rw [hi, nextOf_concat_self, hnx, nextOf_out (le_refl _)]
  · rw [nextOf_out (by
      rw [List.length_append, List.length_singleton]
      omega), nextOf_out (by omega)]

/-! ### `extend`, case without any prior `c`-transition -/

/-- After the first walk edited the entire chain (no suffix state had a
`c`-transition), the result of `extend` models `t ++ [c]`. -/
theorem models_extend_caseA {sa : SuffixAutomaton} {t : List String}
    (h : Models sa t) (c : String) {states2 : List SAState}
    (hlen2 : states2.length = sa.states.length + 1)
    (hlens2 : ∀ i, lenOf states2 i = lenOf (sa.states ++
      [{ len := lenOf sa.states sa.last + 1, link := none,
         next := [] }]) i)
    (hlinks2 : ∀ i, linkOf states2 i = linkOf (sa.states ++
      [{ len := lenOf sa.states sa.last + 1, link := none,
         next := [] }]) i)
    (hnoc : ∀ s2 i, s2 <:+ t → reach sa s2 = some i →
      lookupA (nextOf sa.states i) c = none)
    (hedit : ∀ i x, lookupA (nextOf states2 i) x =
      if (∃ s2, s2 <:+ t ∧ reach sa s2 = some i) ∧ x = c
      then some sa.states.length
      else lookupA (nextOf (sa.states ++
        [{ len := lenOf sa.states sa.last + 1, link := none,
           next := [] }]) i) x) :
    Models { states := withState states2 sa.states.length (fun st => { st with link := some 0 }), last := sa.states.length } (t ++ [c]) := by
  set cs : SAState := { len := lenOf sa.states sa.last + 1, link := none, next := [] } with hcs
  have hlk1 := lookup_states1 sa cs rfl
  set sa2 : SuffixAutomaton := { states := withState states2 sa.states.length (fun st => { st with link := some 0 }), last := sa.states.length } with hsa2
  have hnx2 : ∀ j, nextOf sa2.states j = nextOf states2 j := by
    intro j
    exact withState_link_nextOf states2 sa.states.length (some 0) j
  have hE_lt : ∀ i, (∃ s2, s2 <:+ t ∧ reach sa s2 = some i) →
      i < sa.states.length := by
    rintro i ⟨s2, -, hr2⟩
    exact h.reach_lt _ _ hr2
  have haddCur := reach_addCur sa2 c
    (fun i => ∃ s2, s2 <:+ t ∧ reach sa s2 = some i)
    (by
      intro i x hx
      rw [hnx2 i, hedit i x, if_neg (fun hh => hx hh.2), hlk1 i x])
    (by
      intro i
      by_cases hE : ∃ s2, s2 <:+ t ∧ reach sa s2 = some i
      · refine Or.inl ⟨hE, ?_, ?_⟩
        · obtain ⟨s2, hs2, hr2⟩ := hE
          exact hnoc s2 i hs2 hr2
        · rw [hnx2 i, hedit i c, if_pos ⟨hE, rfl⟩]
      · refine Or.inr ⟨hE, ?_⟩
        rw [hnx2 i, hedit i c, if_neg (fun hh => hE hh.1), hlk1 i c])
    hE_lt
  have hconv : ∀ w : List String,
      (∃ w1 e, w = w1 ++ [c] ∧ reach sa w1 = some e ∧
        ∃ s2, s2 <:+ t ∧ reach sa s2 = some e) ↔
      (∃ w1, w = w1 ++ [c] ∧ w1 <:+ t ∧ 0 ≤ w1.length) := by
    intro w
    constructor
    · rintro ⟨w1, e, rfl, hre, s2, hs2, hr2⟩
      exact ⟨w1, rfl, h.suffix_of_class hs2 hr2 hre, Nat.zero_le _⟩
    · rintro ⟨w1, rfl, hw1, -⟩
      have hsome : (reach sa w1).isSome := (h.reach_dom w1).mpr hw1.isInfix
      obtain ⟨e, he⟩ := Option.isSome_iff_exists.mp hsome
      exact ⟨w1, e, rfl, he, w1, hw1, he⟩
  have hreach2 : ∀ w, reach sa2 w =
      (match reach sa w with
       | some r => some r
       | none =>
           if ∃ w1, w = w1 ++ [c] ∧ w1 <:+ t ∧ 0 ≤ w1.length
           then some sa.states.length else none) := by
    intro w
    rw [haddCur w]
    cases reach sa w with
    | some r => rfl
    | none =>
        dsimp only
        exact if_congr (hconv w) rfl rfl
  have hlen_old : ∀ i, i < sa.states.length →
      lenOf sa2.states i = lenOf sa.states i := by
    intro i hi
    show lenOf (withState states2 sa.states.length _) i = _
    rw [withState_link_lenOf, hlens2 i, lenOf_append_left hi]
  have hlen_new : lenOf sa2.states sa.states.length = t.length + 1 := by
    show lenOf (withState states2 sa.states.length _) sa.states.length = _
    rw [withState_link_lenOf, hlens2 _, lenOf_concat_self]
    rw [hcs]
    rw [h.len_last]
  have hlink_old : ∀ i, i < sa.states.length →
      linkOf sa2.states i = linkOf sa.states i := by
    intro i hi
    show linkOf (withState states2 sa.states.length _) i = _
    rw [withState_link_linkOf_ne _ (by omega), hlinks2 i,
      linkOf_append_left hi]
  have hlink_new : linkOf sa2.states sa.states.length = some 0 := by
    show linkOf (withState states2 sa.states.length _) sa.states.length = _
    rw [withState_link_linkOf_self _ (by omega)]
  have hno2 : ∀ w1, w1 <:+ t → 0 ≤ w1.length →
      reach sa (w1 ++ [c]) = none := by
    intro w1 hw1 _
    rw [reach_snoc]
    have hsome : (reach sa w1).isSome := (h.reach_dom w1).mpr hw1.isInfix
    obtain ⟨e, he⟩ := Option.isSome_iff_exists.mp hsome
    rw [he]
    exact hnoc w1 e hw1 he
  have hb0 : (t ++ [c]).drop (t.length + 1 - 0) = [] := by
    apply List.drop_eq_nil_of_le
    rw [List.length_append, List.length_singleton]
    omega
  exact models_addCur h c sa2 0 0
    (by
      show (withState states2 sa.states.length _).length = _
      rw [withState_length2, hlen2])
    rfl hreach2 hlen_old hlen_new hlink_old hlink_new (Nat.zero_le _)
    hno2 (fun w1 _ hlt => absurd hlt (by omega))
    (by rw [hb0, reach_nil])
    h.root_len

/-! ### `extend`, case of a matching transition (no clone) -/

/-- After the first walk stopped at `pstar` (class of the suffix `sstar`)
whose `c`-transition goes to `q` with `len q = |sstar| + 1`, the result of
`extend` models `t ++ [c]`. -/
theorem models_extend_caseB {sa : SuffixAutomaton} {t : List String}
    (h : Models sa t) (c : String) {states2 : List SAState}
    {sstar : List String} {pstar q : Nat}
    (hlen2 : states2.length = sa.states.length + 1)
    (hlens2 : ∀ i, lenOf states2 i = lenOf (sa.states ++
      [{ len := lenOf sa.states sa.last + 1, link := none,
         next := [] }]) i)
    (hlinks2 : ∀ i, linkOf states2 i = linkOf (sa.states ++
      [{ len := lenOf sa.states sa.last + 1, link := none,
         next := [] }]) i)
    (hstar_suf : sstar <:+ t)
    (hstar_reach : reach sa sstar = some pstar)
    (hq : lookupA (nextOf sa.states pstar) c = some q)
    (hstar_max : ∀ s2 i, s2 <:+ t → sstar.length < s2.length →
      reach sa s2 = some i → lookupA (nextOf sa.states i) c = none)
    (hedit : ∀ i x, lookupA (nextOf states2 i) x =
      if (∃ s2, s2 <:+ t ∧ sstar.length < s2.length ∧
           reach sa s2 = some i) ∧ x = c
      then some sa.states.length
      else lookupA (nextOf (sa.states ++
        [{ len := lenOf sa.states sa.last + 1, link := none,
           next := [] }]) i) x)
    (hBC : lenOf sa.states q = sstar.length + 1) :
    Models { states := withState states2 sa.states.length (fun st => { st with link := some q }), last := sa.states.length } (t ++ [c]) := by
  set cs : SAState := { len := lenOf sa.states sa.last + 1, link := none, next := [] } with hcs
  have hlk1 := lookup_states1 sa cs rfl
  set sa2 : SuffixAutomaton := { states := withState states2 sa.states.length (fun st => { st with link := some q }), last := sa.states.length } with hsa2
  have hnx2 : ∀ j, nextOf sa2.states j = nextOf states2 j := by
    intro j
    exact withState_link_nextOf states2 sa.states.length (some q) j
  have hqstep : reach sa (sstar ++ [c]) = some q := by
    rw [reach_snoc, hstar_reach]
    exact hq
  have hnotE : ∀ s2, s2 <:+ t → sstar.length < s2.length →
      reach sa s2 ≠ some pstar := by
    intro s2 hs2 hl2 hr2
    have hn := hstar_max s2 pstar hs2 hl2 hr2
    rw [hn] at hq
    exact absurd hq (by simp)
  have hconvE := h.long_class_conv hstar_suf hstar_reach hnotE
  have hE_lt : ∀ i, (∃ s2, s2 <:+ t ∧ sstar.length < s2.length ∧
      reach sa s2 = some i) → i < sa.states.length := by
    rintro i ⟨s2, -, -, hr2⟩
    exact h.reach_lt _ _ hr2
  have haddCur := reach_addCur sa2 c
    (fun i => ∃ s2, s2 <:+ t ∧ sstar.length < s2.length ∧
      reach sa s2 = some i)
    (by
      intro i x hx
      rw [hnx2 i, hedit i x, if_neg (fun hh => hx hh.2), hlk1 i x])
    (by
      intro i
      by_cases hE : ∃ s2, s2 <:+ t ∧ sstar.length < s2.length ∧
          reach sa s2 = some i
      · refine Or.inl ⟨hE, ?_, ?_⟩
        · obtain ⟨s2, hs2, hl2, hr2⟩ := hE
          exact hstar_max s2 i hs2 hl2 hr2
        · rw [hnx2 i, hedit i c, if_pos ⟨hE, rfl⟩]
      · refine Or.inr ⟨hE, ?_⟩
        rw [hnx2 i, hedit i c, if_neg (fun hh => hE hh.1), hlk1 i c])
    hE_lt
  have hconv : ∀ w : List String,
      (∃ w1 e, w = w1 ++ [c] ∧ reach sa w1 = some e ∧
        ∃ s2, s2 <:+ t ∧ sstar.length < s2.length ∧
          reach sa s2 = some e) ↔
      (∃ w1, w = w1 ++ [c] ∧ w1 <:+ t ∧
        sstar.length + 1 ≤ w1.length) := by
    intro w
    constructor
    · rintro ⟨w1, e, rfl, hre, hEe⟩
      obtain ⟨h1, h2⟩ := hconvE w1 e hre hEe
      exact ⟨w1, rfl, h1, by omega⟩
    · rintro ⟨w1, rfl, hw1, hl⟩
      have hsome : (reach sa w1).isSome := (h.reach_dom w1).mpr hw1.isInfix
      obtain ⟨e, he⟩ := Option.isSome_iff_exists.mp hsome
      exact ⟨w1, e, rfl, he, w1, hw1, by omega, he⟩
  have hreach2 : ∀ w, reach sa2 w =
      (match reach sa w with
       | some r => some r
       | none =>
           if ∃ w1, w = w1 ++ [c] ∧ w1 <:+ t ∧
               sstar.length + 1 ≤ w1.length
           then some sa.states.length else none) := by
    intro w
    rw [haddCur w]
    cases reach sa w with
    | some r => rfl
    | none =>
        dsimp only
        exact if_congr (hconv w) rfl rfl
  have hlen_old : ∀ i, i < sa.states.length →
      lenOf sa2.states i = lenOf sa.states i := by
    intro i hi
    show lenOf (withState states2 sa.states.length _) i = _
    rw [withState_link_lenOf, hlens2 i, lenOf_append_left hi]
  have hlen_new : lenOf sa2.states sa.states.length = t.length + 1 := by
    show lenOf (withState states2 sa.states.length _) sa.states.length = _
    rw [withState_link_lenOf, hlens2 _, lenOf_concat_self]
    rw [hcs]
    rw [h.len_last]
  have hlink_old : ∀ i, i < sa.states.length →
      linkOf sa2.states i = linkOf sa.states i := by
    intro i hi
    show linkOf (withState states2 sa.states.length _) i = _
    rw [withState_link_linkOf_ne _ (by omega), hlinks2 i,
      linkOf_append_left hi]
  have hlink_new : linkOf sa2.states sa.states.length = some q := by
    show linkOf (withState states2 sa.states.length _) sa.states.length = _
    rw [withState_link_linkOf_self _ (by omega)]
  have hsstar_lt : sstar.length < t.length := by
    by_contra hc2
    have hle := hstar_suf.length_le
    have heq : sstar = t := hstar_suf.eq_of_length (by omega)
    subst heq
    have h3 := (h.infix_of_reach hqstep).length_le
    rw [List.length_append, List.length_singleton] at h3
    omega
  have hno2 : ∀ w1, w1 <:+ t → sstar.length + 1 ≤ w1.length →
      reach sa (w1 ++ [c]) = none := by
    intro w1 hw1 hl
    rw [reach_snoc]
    have hsome : (reach sa w1).isSome := (h.reach_dom w1).mpr hw1.isInfix
    obtain ⟨e, he⟩ := Option.isSome_iff_exists.mp hsome
    rw [he]
    exact hstar_max w1 e hw1 (by omega) he
  have hyes2 : ∀ w1, w1 <:+ t → w1.length < sstar.length + 1 →
      (reach sa (w1 ++ [c])).isSome = true := by
    intro w1 hw1 hl
    have hws : w1 <:+ sstar := suffix_le_suffix hw1 hstar_suf (by omega)
    have hsuf : w1 ++ [c] <:+ sstar ++ [c] := suffix_append_single hws c
    rw [h.reach_dom]
    exact hsuf.isInfix.trans (h.infix_of_reach hqstep)
  have hbdrop : (t ++ [c]).drop (t.length + 1 - (sstar.length + 1)) =
      sstar ++ [c] := by
    apply suffix_eq_of_length (List.drop_suffix _ _)
      (suffix_append_single hstar_suf c)
    rw [List.length_drop, List.length_append, List.length_append,
      List.length_singleton]
    omega
  exact models_addCur h c sa2 (sstar.length + 1) q
    (by
      show (withState states2 sa.states.length _).length = _
      rw [withState_length2, hlen2])
    rfl hreach2 hlen_old hlen_new hlink_old hlink_new (by omega)
    hno2 hyes2 (by rw [hbdrop]; exact hqstep) hBC

/-! ### `extend`, clone case -/

/-- After the first walk stopped at `pstar` with a `c`-transition to `q`
whose `len` exceeds `|sstar| + 1`, and the redirect walk repointed the
chain transitions from `q` to the clone, the result of `extend` models
`t ++ [c]`. -/
theorem models_extend_caseC {sa : SuffixAutomaton} {t : List String}
    (h : Models sa t) (c : String) {states2 states4 : List SAState}
    {sstar : List String} {pstar q : Nat}
    (hlen2 : states2.length = sa.states.length + 1)
    (hlens2 : ∀ i, lenOf states2 i = lenOf (sa.states ++
      [{ len := lenOf sa.states sa.last + 1, link := none,
         next := [] }]) i)
    (hlinks2 : ∀ i, linkOf states2 i = linkOf (sa.states ++
      [{ len := lenOf sa.states sa.last + 1, link := none,
         next := [] }]) i)
    (hstar_suf : sstar <:+ t)
    (hstar_reach : reach sa sstar = some pstar)
    (hq : lookupA (nextOf sa.states pstar) c = some q)
    (hstar_max : ∀ s2 i, s2 <:+ t → sstar.length < s2.length →
      reach sa s2 = some i → lookupA (nextOf sa.states i) c = none)
    (hedit : ∀ i x, lookupA (nextOf states2 i) x =
      if (∃ s2, s2 <:+ t ∧ sstar.length < s2.length ∧
           reach sa s2 = some i) ∧ x = c
      then some sa.states.length
      else lookupA (nextOf (sa.states ++
        [{ len := lenOf sa.states sa.last + 1, link := none,
           next := [] }]) i) x)
    (hqlen_ne : lenOf sa.states q ≠ sstar.length + 1)
    (hlen4 : states4.length = (states2 ++
      [({ len := lenOf states2 pstar + 1, link := linkOf states2 q,
          next := nextOf states2 q } : SAState)]).length)
    (hlens4 : ∀ i, lenOf states4 i = lenOf (states2 ++
      [{ len := lenOf states2 pstar + 1, link := linkOf states2 q,
         next := nextOf states2 q }]) i)
    (hlinks4 : ∀ i, linkOf states4 i = linkOf (states2 ++
      [{ len := lenOf states2 pstar + 1, link := linkOf states2 q,
         next := nextOf states2 q }]) i)
    (hcase4 :
      ((∀ s2 i, s2 <:+ sstar → reach sa s2 = some i →
          lookupA (nextOf sa.states i) c = some q) ∧
        (∀ i x, lookupA (nextOf states4 i) x =
          if (∃ s2, s2 <:+ sstar ∧ reach sa s2 = some i) ∧ x = c
          then some (sa.states.length + 1)
          else lookupA (nextOf (states2 ++
            [{ len := lenOf states2 pstar + 1, link := linkOf states2 q,
               next := nextOf states2 q }]) i) x)) ∨
       (∃ sred pred, sred <:+ sstar ∧ reach sa sred = some pred ∧
          ¬ lookupA (nextOf sa.states pred) c = some q ∧
          (∀ s2 i, s2 <:+ sstar → sred.length < s2.length →
            reach sa s2 = some i →
            lookupA (nextOf sa.states i) c = some q) ∧
          (∀ i x, lookupA (nextOf states4 i) x =
            if (∃ s2, s2 <:+ sstar ∧ sred.length < s2.length ∧
                 reach sa s2 = some i) ∧ x = c
            then some (sa.states.length + 1)
            else lookupA (nextOf (states2 ++
              [{ len := lenOf states2 pstar + 1, link := linkOf states2 q,
                 next := nextOf states2 q }]) i) x))) :
    Models { states := withState (withState states4 q (fun st => { st with link := some (sa.states.length + 1) })) sa.states.length (fun st => { st with link := some (sa.states.length + 1) }), last := sa.states.length } (t ++ [c]) := by
  set cs : SAState := { len := lenOf sa.states sa.last + 1, link := none, next := [] } with hcs
  set cloneSt : SAState := { len := lenOf states2 pstar + 1, link := linkOf states2 q, next := nextOf states2 q } with hcloneSt
  have hlk1 := lookup_states1 sa cs rfl
  set sa3 : SuffixAutomaton := { states := withState (withState states4 q (fun st => { st with link := some (sa.states.length + 1) })) sa.states.length (fun st => { st with link := some (sa.states.length + 1) }), last := sa.states.length } with hsa3
  have hqstep : reach sa (sstar ++ [c]) = some q := by
    rw [reach_snoc, hstar_reach]
    exact hq
  have hpstar_lt : pstar < sa.states.length := h.reach_lt _ _ hstar_reach
  have hq_lt : q < sa.states.length := h.reach_lt _ _ hqstep
  have hnotE : ∀ s2, s2 <:+ t → sstar.length < s2.length →
      reach sa s2 ≠ some pstar := by
    intro s2 hs2 hl2 hr2
    have hn := hstar_max s2 pstar hs2 hl2 hr2
    rw [hn] at hq
    exact absurd hq (by simp)
  have hlen_pstar : lenOf sa.states pstar = sstar.length :=
    h.len_of_top_suffix_class hstar_suf hstar_reach hnotE
  have hconvE := h.long_class_conv hstar_suf hstar_reach hnotE
  have hqlen : sstar.length + 1 < lenOf sa.states q := by
    have h1 := h.len_max _ q hqstep
    rw [List.length_append, List.length_singleton] at h1
    omega
  have hq_noself : ¬ lookupA (nextOf sa.states q) c = some q := by
    intro hh
    have := (h.step_spec hq_lt hh).2
    omega
  have hsstar_lt : sstar.length < t.length := by
    by_contra hc2
    have hle := hstar_suf.length_le
    have heq : sstar = t := hstar_suf.eq_of_length (by omega)
    subst heq
    have h3 := (h.infix_of_reach hqstep).length_le
    rw [List.length_append, List.length_singleton] at h3
    omega
  have hnx3 : ∀ j, nextOf sa3.states j = nextOf states4 j := by
    intro j
    show nextOf (withState _ sa.states.length _) j = _
    rw [withState_link_nextOf, withState_link_nextOf]
  have hln3 : ∀ j, lenOf sa3.states j = lenOf states4 j := by
    intro j
    show lenOf (withState _ sa.states.length _) j = _
    rw [withState_link_lenOf, withState_link_lenOf]
  have hlen4len : states4.length = sa.states.length + 2 := by
    rw [hlen4, List.length_append, List.length_singleton, hlen2]
  have hlk3 : ∀ i, i < sa.states.length → ∀ x,
      lookupA (nextOf (states2 ++ [cloneSt]) i) x =
        lookupA (nextOf states2 i) x := by
    intro i hi x
    rw [nextOf_append_left (by omega)]
  have hlk3_clone : ∀ x,
      lookupA (nextOf (states2 ++ [cloneSt]) (sa.states.length + 1)) x =
        lookupA (nextOf states2 q) x := by
    intro x
    have he : sa.states.length + 1 = states2.length := hlen2.symm
    rw [he, nextOf_concat_self]
  have hlk2_cur : ∀ x,
      lookupA (nextOf states2 sa.states.length) x = none := by
    intro x
    rw [hedit _ x, if_neg, hlk1 _ x, nextOf_out (le_refl _)]
    · rfl
    · rintro ⟨⟨s2, -, -, hr2⟩, -⟩
      have := h.reach_lt _ _ hr2
      omega
  have hE_lt : ∀ i, (∃ s2, s2 <:+ t ∧ sstar.length < s2.length ∧
      reach sa s2 = some i) → i < sa.states.length := by
    rintro i ⟨s2, -, -, hr2⟩
    exact h.reach_lt _ _ hr2
  have hconvNW : ∀ w : List String,
      (∃ w1 e, w = w1 ++ [c] ∧ reach sa w1 = some e ∧
        ∃ s2, s2 <:+ t ∧ sstar.length < s2.length ∧
          reach sa s2 = some e) ↔
      (∃ w1, w = w1 ++ [c] ∧ w1 <:+ t ∧ sstar.length < w1.length) := by
    intro w
    constructor
    · rintro ⟨w1, e, rfl, hre, hEe⟩
      obtain ⟨h1, h2⟩ := hconvE w1 e hre hEe
      exact ⟨w1, rfl, h1, h2⟩
    · rintro ⟨w1, rfl, hw1, hl⟩
      have hsome : (reach sa w1).isSome := (h.reach_dom w1).mpr hw1.isInfix
      obtain ⟨e, he⟩ := Option.isSome_iff_exists.mp hsome
      exact ⟨w1, e, rfl, he, w1, hw1, hl, he⟩
  have hno2 : ∀ w1, w1 <:+ t → sstar.length < w1.length →
      reach sa (w1 ++ [c]) = none := by
    intro w1 hw1 hl
    rw [reach_snoc]
    have hsome : (reach sa w1).isSome := (h.reach_dom w1).mpr hw1.isInfix
    obtain ⟨e, he⟩ := Option.isSome_iff_exists.mp hsome
    rw [he]
    exact hstar_max w1 e hw1 hl he
  have hyes2 : ∀ w1, w1 <:+ t → w1.length ≤ sstar.length →
      (reach sa (w1 ++ [c])).isSome = true := by
    intro w1 hw1 hl
    have hws : w1 <:+ sstar := suffix_le_suffix hw1 hstar_suf hl
    have hsuf : w1 ++ [c] <:+ sstar ++ [c] := suffix_append_single hws c
    rw [h.reach_dom]
    exact hsuf.isInfix.trans (h.infix_of_reach hqstep)
  have hlen3 : sa3.states.length = sa.states.length + 2 := by
    show (withState _ sa.states.length _).length = _
    rw [withState_length2, withState_length2, hlen4len]
  have hlen_old3 : ∀ i, i < sa.states.length →
      lenOf sa3.states i = lenOf sa.states i := by
    intro i hi
    rw [hln3 i, hlens4 i]
    show lenOf (states2 ++ [cloneSt]) i = _
    rw [lenOf_append_left (by omega), hlens2 i, lenOf_append_left hi]
  have hlen_cur3 : lenOf sa3.states sa.states.length = t.length + 1 := by
    rw [hln3 _, hlens4 _]
    show lenOf (states2 ++ [cloneSt]) sa.states.length = _
    rw [lenOf_append_left (by omega), hlens2 _, lenOf_concat_self]
    rw [hcs]
    rw [h.len_last]
  have hlen_clone3 : lenOf sa3.states (sa.states.length + 1) =
      sstar.length + 1 := by
    rw [hln3 _, hlens4 _]
    show lenOf (states2 ++ [cloneSt]) (sa.states.length + 1) = _
    have he : sa.states.length + 1 = states2.length := hlen2.symm
    rw [he, lenOf_concat_self, hcloneSt]
    show lenOf states2 pstar + 1 = _
    rw [hlens2 pstar, lenOf_append_left hpstar_lt, hlen_pstar]
  have hlink_old3 : ∀ i, i < sa.states.length → i ≠ q →
      linkOf sa3.states i = linkOf sa.states i := by
    intro i hi hiq
    show linkOf (withState _ sa.states.length _) i = _
    rw [withState_link_linkOf_ne _ (by omega),
      withState_link_linkOf_ne _ (fun he => hiq he.symm), hlinks4 i]
    show linkOf (states2 ++ [cloneSt]) i = _
    rw [linkOf_append_left (by omega), hlinks2 i, linkOf_append_left hi]
  have hlink_q3 : linkOf sa3.states q = some (sa.states.length + 1) := by
    show linkOf (withState _ sa.states.length _) q = _
    rw [withState_link_linkOf_ne _ (by omega),
      withState_link_linkOf_self _ (by omega)]
  have hlink_cur3 : linkOf sa3.states sa.states.length =
      some (sa.states.length + 1) := by
    show linkOf (withState _ sa.states.length _) sa.states.length = _
    rw [withState_link_linkOf_self _ (by
      rw [withState_length2]
      omega)]
  have hlink_clone3 : linkOf sa3.states (sa.states.length + 1) =
      linkOf sa.states q := by
    show linkOf (withState _ sa.states.length _) (sa.states.length + 1) = _
    rw [withState_link_linkOf_ne _ (by omega),
      withState_link_linkOf_ne _ (by omega), hlinks4 _]
    show linkOf (states2 ++ [cloneSt]) (sa.states.length + 1) = _
    have he : sa.states.length + 1 = states2.length := hlen2.symm
    rw [he, linkOf_concat_self, hcloneSt]
    show linkOf states2 q = _
    rw [hlinks2 q, linkOf_append_left hq_lt]
  have key : (∀ w, reach sa3 w =
      (match reach sa w with
       | some r =>
           if r = q ∧ ∃ w1, w = w1 ++ [c] ∧ w1 <:+ t ∧
               w1.length ≤ sstar.length
           then some (sa.states.length + 1) else some r
       | none =>
           if ∃ w1, w = w1 ++ [c] ∧ w1 <:+ t ∧ sstar.length < w1.length
           then some sa.states.length else none)) →
      Models sa3 (t ++ [c]) := by
    intro hreach3
    exact models_clone h c sa3 sstar q hstar_suf hsstar_lt hqstep hqlen
      hlen3 rfl hreach3 hlen_old3 hlen_cur3 hlen_clone3 hlink_old3
      hlink_q3 hlink_cur3 hlink_clone3 hno2 hyes2
  rcases hcase4 with ⟨hallq, hedit4⟩ |
    ⟨sred, pred, hred_suf, hred_reach, hred_ne, hred_max, hedit4⟩
  · -- the whole chain was redirected
    have hRC := reach_clone sa3 c q
      (fun i => ∃ s2, s2 <:+ t ∧ sstar.length < s2.length ∧
        reach sa s2 = some i)
      (fun i => ∃ s2, s2 <:+ sstar ∧ reach sa s2 = some i)
      h.reach_lt
      (by
        intro i hi x hx
        rw [hnx3 i, hedit4 i x, if_neg (fun hh => hx hh.2), hlk3 i hi x,
          hedit i x, if_neg (fun hh => hx hh.2), hlk1 i x])
      (by
        intro i hi
        by_cases hR : ∃ s2, s2 <:+ sstar ∧ reach sa s2 = some i
        · refine Or.inr (Or.inl ⟨hR, ?_, ?_⟩)
          · obtain ⟨s2, hs2, hr2⟩ := hR
            exact hallq s2 i hs2 hr2
          · rw [hnx3 i, hedit4 i c, if_pos ⟨hR, rfl⟩]
        · by_cases hE : ∃ s2, s2 <:+ t ∧ sstar.length < s2.length ∧
              reach sa s2 = some i
          · refine Or.inl ⟨hE, ?_, ?_⟩
            · obtain ⟨s2, hs2, hl2, hr2⟩ := hE
              exact hstar_max s2 i hs2 hl2 hr2
            · rw [hnx3 i, hedit4 i c, if_neg (fun hh => hR hh.1),
                hlk3 i hi c, hedit i c, if_pos ⟨hE, rfl⟩]
          · refine Or.inr (Or.inr ⟨hE, hR, ?_⟩)
            rw [hnx3 i, hedit4 i c, if_neg (fun hh => hR hh.1),
              hlk3 i hi c, hedit i c, if_neg (fun hh => hE hh.1), hlk1 i c])
      (by
        intro x
        rw [hnx3 _, hnx3 _, hedit4 _ x, hedit4 _ x]
        rw [if_neg, if_neg, hlk3_clone x, hlk3 q hq_lt x]
        · rintro ⟨⟨s2, hs2, hr2⟩, -⟩
          exact hq_noself (hallq s2 q hs2 hr2)
        · rintro ⟨⟨s2, -, hr2⟩, -⟩
          have := h.reach_lt _ _ hr2
          omega)
      (by
        intro x
        rw [hnx3 _, hedit4 _ x, if_neg, nextOf_append_left
          (show sa.states.length < states2.length by omega), hlk2_cur x]
        rintro ⟨⟨s2, -, hr2⟩, -⟩
        have := h.reach_lt _ _ hr2
        omega)
    apply key
    intro w
    rw [hRC w]
    cases hw : reach sa w with
    | some r =>
        dsimp only
        refine if_congr ?_ rfl rfl
        apply and_congr_right
        intro hrq
        subst hrq
        constructor
        · rintro ⟨w1, e, rfl, hre, s2, hs2, hr2⟩
          have hw1t : w1 <:+ t :=
            h.suffix_of_class (hs2.trans hstar_suf) hr2 hre
          refine ⟨w1, rfl, hw1t, ?_⟩
          by_contra hc2
          have hsand := h.suffix_sandwich (hs2.trans hstar_suf) hw1t
            hstar_suf hr2 hre (hs2.length_le) (by omega)
          rw [hstar_reach] at hsand
          injection hsand with he2
          exact hnotE w1 hw1t (by omega) (by rw [hre, he2])
        · rintro ⟨w1, rfl, hw1t, hl⟩
          have hws : w1 <:+ sstar := suffix_le_suffix hw1t hstar_suf hl
          have hsome : (reach sa w1).isSome :=
            (h.reach_dom w1).mpr hw1t.isInfix
          obtain ⟨e, he⟩ := Option.isSome_iff_exists.mp hsome
          exact ⟨w1, e, rfl, he, w1, hws, he⟩
    | none =>
        dsimp only
        exact if_congr (hconvNW w) rfl rfl
  · -- the redirect stopped at `sred`
    have hRC := reach_clone sa3 c q
      (fun i => ∃ s2, s2 <:+ t ∧ sstar.length < s2.length ∧
        reach sa s2 = some i)
      (fun i => ∃ s2, s2 <:+ sstar ∧ sred.length < s2.length ∧
        reach sa s2 = some i)
      h.reach_lt
      (by
        intro i hi x hx
        rw [hnx3 i, hedit4 i x, if_neg (fun hh => hx hh.2), hlk3 i hi x,
          hedit i x, if_neg (fun hh => hx hh.2), hlk1 i x])
      (by
        intro i hi
        by_cases hR : ∃ s2, s2 <:+ sstar ∧ sred.length < s2.length ∧
            reach sa s2 = some i
        · refine Or.inr (Or.inl ⟨hR, ?_, ?_⟩)
          · obtain ⟨s2, hs2, hl2, hr2⟩ := hR
            exact hred_max s2 i hs2 hl2 hr2
          · rw [hnx3 i, hedit4 i c, if_pos ⟨hR, rfl⟩]
        · by_cases hE : ∃ s2, s2 <:+ t ∧ sstar.length < s2.length ∧
              reach sa s2 = some i
          · refine Or.inl ⟨hE, ?_, ?_⟩
            · obtain ⟨s2, hs2, hl2, hr2⟩ := hE
              exact hstar_max s2 i hs2 hl2 hr2
            · rw [hnx3 i, hedit4 i c, if_neg (fun hh => hR hh.1),
                hlk3 i hi c, hedit i c, if_pos ⟨hE, rfl⟩]
          · refine Or.inr (Or.inr ⟨hE, hR, ?_⟩)
            rw [hnx3 i, hedit4 i c, if_neg (fun hh => hR hh.1),
              hlk3 i hi c, hedit i c, if_neg (fun hh => hE hh.1), hlk1 i c])
      (by
        intro x
        rw [hnx3 _, hnx3 _, hedit4 _ x, hedit4 _ x]
        rw [if_neg, if_neg, hlk3_clone x, hlk3 q hq_lt x]
        · rintro ⟨⟨s2, hs2, hl2, hr2⟩, -⟩
          exact hq_noself (hred_max s2 q hs2 hl2 hr2)
        · rintro ⟨⟨s2, -, -, hr2⟩, -⟩
          have := h.reach_lt _ _ hr2
          omega)
      (by
        intro x
        rw [hnx3 _, hedit4 _ x, if_neg, nextOf_append_left
          (show sa.states.length < states2.length by omega), hlk2_cur x]
        rintro ⟨⟨s2, -, -, hr2⟩, -⟩
        have := h.reach_lt _ _ hr2
        omega)
    apply key
    intro w
    rw [hRC w]
    cases hw : reach sa w with
    | some r =>
        dsimp only
        refine if_congr ?_ rfl rfl
        apply and_congr_right
        intro hrq
        subst hrq
        constructor
        · rintro ⟨w1, e, rfl, hre, s2, hs2, hl2, hr2⟩
          have hw1t : w1 <:+ t :=
            h.suffix_of_class (hs2.trans hstar_suf) hr2 hre
          refine ⟨w1, rfl, hw1t, ?_⟩
          by_contra hc2
          have hsand := h.suffix_sandwich (hs2.trans hstar_suf) hw1t
            hstar_suf hr2 hre (hs2.length_le) (by omega)
          rw [hstar_reach] at hsand
          injection hsand with he2
          exact hnotE w1 hw1t (by omega) (by rw [hre, he2])
        · rintro ⟨w1, rfl, hw1t, hl⟩
          have hws : w1 <:+ sstar := suffix_le_suffix hw1t hstar_suf hl
          have hsome : (reach sa w1).isSome :=
            (h.reach_dom w1).mpr hw1t.isInfix
          obtain ⟨e, he⟩ := Option.isSome_iff_exists.mp hsome
          have hlred : sred.length < w1.length := by
            by_contra hc2
            exact h.redirect_mono c hstar_suf hqstep hred_suf hred_reach
              hred_ne hw1t (by omega) hw
          exact ⟨w1, e, rfl, he, w1, hws, hlred, he⟩
    | none =>
        dsimp only
        exact if_congr (hconvNW w) rfl rfl

/-! ### The invariant is preserved by `extend` -/

/-- One `extend` step keeps `sa` the suffix automaton of the word read so
far. -/
theorem models_extend {sa : SuffixAutomaton} {t : List String}
    (h : Models sa t) (c : String) :
    Models (sa.extend c) (t ++ [c]) := by
  have hcard := h.states_card
  have hs1len : (sa.states ++ [({ len := lenOf sa.states sa.last + 1, link := none, next := [] } : SAState)]).length = sa.states.length + 1 := by
    rw [List.length_append, List.length_singleton]
  obtain ⟨states2, pres, hwalk, hlen2', hlens2, hlinks2, hcase⟩ :=
    extendWalk_spec h c sa.states.length t.length t (le_refl _)
      (List.suffix_refl t) sa.last h.reach_last
      (sa.states ++ [({ len := lenOf sa.states sa.last + 1, link := none, next := [] } : SAState)])
      (sa.states ++ [({ len := lenOf sa.states sa.last + 1, link := none, next := [] } : SAState)]).length
      hs1len
      (by rw [hs1len]; omega)
      (by
        rintro i ⟨s2, -, hr2⟩
        exact getElem_append_left_sa (h.reach_lt _ _ hr2))
  have hlen2 : states2.length = sa.states.length + 1 := by
    rw [hlen2', hs1len]
  rcases hcase with ⟨hpres, hnoc, hedit⟩ | ⟨sstar, pstar, hstar_suf,
      hstar_reach, hpres, hstar_c, hstar_max, hedit⟩
  · -- no suffix state had a `c`-transition
    subst hpres
    have hextA : sa.extend c = { states := withState states2 sa.states.length (fun st => { st with link := some 0 }), last := sa.states.length } := by
      unfold SuffixAutomaton.extend
      dsimp only
      rw [hwalk]
    rw [hextA]
    exact models_extend_caseA h c hlen2 hlens2 hlinks2 hnoc hedit
  · -- the walk stopped at `pstar`, which has a `c`-transition `q`
    obtain ⟨q, hq0⟩ := Option.isSome_iff_exists.mp hstar_c
    subst hpres
    have hpstar_lt : pstar < sa.states.length := h.reach_lt _ _ hstar_reach
    have hnotE : ∀ s2, s2 <:+ t → sstar.length < s2.length →
        reach sa s2 ≠ some pstar := by
      intro s2 hs2 hl2 hr2
      have hn := hstar_max s2 pstar hs2 hl2 hr2
      rw [hn] at hq0
      exact absurd hq0 (by simp)
    have hqstep : reach sa (sstar ++ [c]) = some q := by
      rw [reach_snoc, hstar_reach]
      exact hq0
    have hq_lt : q < sa.states.length := h.reach_lt _ _ hqstep
    have hlookup2 : lookupA (nextOf states2 pstar) c = some q := by
      rw [hedit pstar c, if_neg, nextOf_append_left hpstar_lt]
      · exact hq0
      · rintro ⟨⟨s2, hs2, hl2, hr2⟩, -⟩
        exact hnotE s2 hs2 hl2 hr2
    have hlen2_pstar : lenOf states2 pstar = sstar.length := by
      rw [hlens2 pstar, lenOf_append_left hpstar_lt]
      exact h.len_of_top_suffix_class hstar_suf hstar_reach hnotE
    have hlen2_q : lenOf states2 q = lenOf sa.states q := by
      rw [hlens2 q, lenOf_append_left hq_lt]
    by_cases hBC : lenOf states2 pstar + 1 = lenOf states2 q
    · -- matching length: link the sink to `q`
      have hextB : sa.extend c = { states := withState states2 sa.states.length (fun st => { st with link := some q }), last := sa.states.length } := by
        unfold SuffixAutomaton.extend
        dsimp only
        rw [hwalk]
        dsimp only
        rw [hlookup2]
        dsimp only
        rw [if_pos hBC]
      rw [hextB]
      exact models_extend_caseB h c hlen2 hlens2 hlinks2 hstar_suf
        hstar_reach hq0 hstar_max hedit
        (by rw [← hlen2_q, ← hBC, hlen2_pstar])
    · -- clone case
      obtain ⟨states4, hwalk4, hlen4, hlens4, hlinks4, hcase4⟩ :=
        redirectWalk_spec h c q (sa.states.length + 1) sstar.length sstar
          (le_refl _) hstar_suf pstar hstar_reach
          (states2 ++ [({ len := lenOf states2 pstar + 1, link := linkOf states2 q, next := nextOf states2 q } : SAState)])
          (states2 ++ [({ len := lenOf states2 pstar + 1, link := linkOf states2 q, next := nextOf states2 q } : SAState)]).length
          (by
            rw [List.length_append, List.length_singleton, hlen2]
            omega)
          (by
            rw [List.length_append, List.length_singleton, hlen2]
            have := hstar_suf.length_le
            omega)
          (by
            rintro i ⟨s2, hs2, hr2⟩
            have hi : i < sa.states.length := h.reach_lt _ _ hr2
            have hiE : ¬ ∃ s2a, s2a <:+ t ∧ sstar.length < s2a.length ∧
                reach sa s2a = some i := by
              rintro ⟨s2a, hs2a, hl2a, hr2a⟩
              have hsand := h.suffix_sandwich (hs2.trans hstar_suf) hs2a
                hstar_suf hr2 hr2a hs2.length_le (by omega)
              rw [hstar_reach] at hsand
              injection hsand with he2
              exact hnotE s2a hs2a hl2a (by rw [hr2a, ← he2])
            constructor
            · intro x
              rw [nextOf_append_left (show i < states2.length by omega),
                hedit i x, if_neg (fun hh => hiE hh.1),
                nextOf_append_left hi]
            · rw [linkOf_append_left (show i < states2.length by omega),
                hlinks2 i, linkOf_append_left hi])
      have hextC : sa.extend c = { states := withState (withState states4 q (fun st => { st with link := some (sa.states.length + 1) })) sa.states.length (fun st => { st with link := some (sa.states.length + 1) }), last := sa.states.length } := by
        unfold SuffixAutomaton.extend
        dsimp only
        rw [hwalk]
        dsimp only
        rw [hlookup2]
        dsimp only
        rw [if_neg hBC]
        rw [hlen2, hwalk4]
      rw [hextC]
      exact models_extend_caseC h c hlen2 hlens2 hlinks2 hstar_suf
        hstar_reach hq0 hstar_max hedit
        (by
          rw [← hlen2_q]
          intro he
          apply hBC
          rw [hlen2_pstar, he])
        hlen4 hlens4 hlinks4 hcase4

/-! ### The full construction -/

theorem reach_new : ∀ w : List String,
    reach SuffixAutomaton.new w = if w = [] then some 0 else none := by
  intro w
  cases w with
  | nil => rfl
  | cons a w2 =>
      rw [if_neg (List.cons_ne_nil a w2)]
      rfl

/-- The one-state automaton models the empty word. -/
theorem models_new : Models SuffixAutomaton.new [] := by
  refine { last_lt := by decide
           zero_lt := by decide
           root_len := rfl
           root_link := rfl
           reach_last := rfl
           reach_dom := ?_
           reach_lt := ?_
           class_eq := ?_
           len_max := ?_
           len_wit := ?_
           pos_len := ?_
           link_spec := ?_ }
  · intro w
    rw [reach_new w]
    by_cases hw : w = []
    · subst hw
      rw [if_pos rfl]
      constructor
      · intro _
        exact List.infix_refl _
      · intro _
        rfl
    · rw [if_neg hw]
      constructor
      · intro habs
        exact absurd habs (by simp)
      · intro hinf
        exact absurd (List.eq_nil_of_length_eq_zero
          (Nat.le_zero.mp hinf.length_le)) hw
  · intro w p hr
    rw [reach_new w] at hr
    by_cases hw : w = []
    · rw [if_pos hw] at hr
      injection hr with he
      show p < 1
      omega
    · rw [if_neg hw] at hr
      exact absurd hr (by simp)
  · intro u v hu hv
    have hu2 : u = [] := List.eq_nil_of_length_eq_zero
      (Nat.le_zero.mp hu.length_le)
    have hv2 : v = [] := List.eq_nil_of_length_eq_zero
      (Nat.le_zero.mp hv.length_le)
    subst hu2
    subst hv2
    constructor
    · intro _
      rfl
    · intro _
      rfl
  · intro w p hr
    rw [reach_new w] at hr
    by_cases hw : w = []
    · subst hw
      exact Nat.zero_le _
    · rw [if_neg hw] at hr
      exact absurd hr (by simp)
  · intro p hp
    have hp1 : p < 1 := hp
    have hp0 : p = 0 := by omega
    subst hp0
    exact ⟨[], rfl, rfl⟩
  · intro p hp hp0
    have hp1 : p < 1 := hp
    omega
  · intro p hp hp0
    have hp1 : p < 1 := hp
    omega

theorem models_foldl : ∀ (rest : List String) (sa : SuffixAutomaton)
    (t : List String), Models sa t →
    Models (rest.foldl SuffixAutomaton.extend sa) (t ++ rest) := by
  intro rest
  induction rest with
  | nil =>
      intro sa t h
      rw [List.append_nil]
      exact h
  | cons a rest2 ih =>
      intro sa t h
      have h2 := ih (sa.extend a) (t ++ [a]) (models_extend h a)
      rw [List.append_assoc] at h2
      exact h2

/-- `from_string` builds the suffix automaton of the chunk word. -/
theorem models_fromString (chunks : List String) :
    Models (SuffixAutomaton.fromString chunks) chunks := by
  have h := models_foldl chunks SuffixAutomaton.new [] models_new
  rw [List.nil_append] at h
  exact h

/-- C1: the compiled substring regex is exact — a string matches the
regex produced by `substring(builder, chunks)` iff it is the
concatenation of a contiguous sub-range of the chunk sequence (including
the empty range). -/
theorem claim_C1 (chunks : List String) (s : String) :
    SubstringMatches chunks s ↔
      ∃ w : List String, w <:+: chunks ∧ String.join w = s := by
  unfold SubstringMatches
  constructor
  · rintro ⟨w, hacc, hjoin⟩
    refine ⟨w, ?_, hjoin⟩
    have h2 := (accepts_iff_reachFrom _ w 0).mp hacc
    exact ((models_fromString chunks).reach_dom w).mp h2
  · rintro ⟨w, hinf, hjoin⟩
    refine ⟨w, ?_, hjoin⟩
    rw [accepts_iff_reachFrom]
    exact ((models_fromString chunks).reach_dom w).mpr hinf

end LLG
